import Mathlib

/-!
# go-concurrent-map (package `cmap`): shallow embedding and verified properties

Pairs are heap objects reached through pointers, so the embedding keeps an explicit
heap (`Heap V`, a list of pair cells indexed by address) and threads it through every
operation.  Pointers are `Option Addr` (`none` is Go's `nil`).  Loops that follow
`Next()` are structural recursions on a fuel argument; the operations run them with
the heap size as fuel, which is enough for every chain that ends in `nil`, and yield
`none` when a loop could not finish (a cyclic chain) or a pointer is dangling.
Unsigned 64-bit counters are natural numbers reduced modulo `2 ^ 64`.
-/

namespace cmap

/-! ## const.go -/

/-- The constant `DefaultBucketNum` of const.go. -/
def DefaultBucketNum : Nat := 16

/-- The constant `DefaultBucketMaxSize` of const.go. -/
def DefaultBucketMaxSize : Nat := 1000

/-- The constant `MaxConcurrency` of const.go. -/
def MaxConcurrency : Int := 65536

/-- Number of values of a `uint64`. -/
def u64 : Nat := 2 ^ 64

/-- Errors built by `newIllegalParameterError`. -/
inductive Error where
  | illegalParameter (msg : String)
deriving DecidableEq, Repr

/-! ## Pair (pair.go is not part of the sources) -/

/-- Address of a pair cell in the heap. -/
abbrev Addr := Nat

/-- Modelled from the spec: the `Pair` node of pair.go, which is missing from the
sources.  Spec section 3: key (string, immutable), hash (64-bit, computed once from the
key), element (mutable), next (link to the following pair, or absent). -/
structure Pair (V : Type) where
  key : String
  hash : Nat
  element : V
  next : Option Addr
deriving DecidableEq, Repr

/-- The heap of pair cells; a pointer to a pair is an index into it. -/
abbrev Heap (V : Type) := List (Pair V)

variable {V : Type}

/-- Modelled from the spec: `newPair(key, element)` of the missing pair.go.  Section 3:
the hash is computed once from the key at creation; section 4.1: `next` starts unset;
section 7 lists no error for it.  The caller-supplied hash function of section 6 is the
parameter `hash`, reduced to 64 bits. -/
def newPair (hash : String → Nat) (h : Heap V) (key : String) (element : V) :
    Heap V × Addr :=
  (h ++ [{ key := key, hash := hash key % u64, element := element, next := none }], h.length)

/-- Modelled from the spec: `Pair.Copy()` of the missing pair.go, section 4.1: a new
pair with the same key, hash and element and an unset `next`. -/
def Copy (h : Heap V) (a : Addr) : Option (Heap V × Addr) :=
  match h[a]? with
  | none => none
  | some p => some (h ++ [{ p with next := none }], h.length)

/-- Modelled from the spec: `Pair.SetElement(v)` of the missing pair.go, section 4.1: a
mutator of the single field `element`; section 7 lists no error for it. -/
def SetElement (h : Heap V) (a : Addr) (v : V) : Heap V :=
  match h[a]? with
  | none => h
  | some p => h.set a { p with element := v }

/-- Modelled from the spec: `Pair.SetNext(p)` of the missing pair.go, section 4.1: a
mutator of the single field `next`; section 7 lists no error for it. -/
def SetNext (h : Heap V) (a : Addr) (n : Option Addr) : Heap V :=
  match h[a]? with
  | none => h
  | some p => h.set a { p with next := n }

/-! ## bucket.go -/

/-- The struct `bucket`: `headValue` is `none` for the `placeholder` sentinel and
`some a` for a stored pair; `size` is the `uint64` counter. -/
structure bucket where
  headValue : Option Addr
  size : Nat
deriving DecidableEq, Repr

/-- The function `newBucket`. -/
def newBucket : bucket := { headValue := none, size := 0 }

/-- The method `GetFirstPair`: `nil` for the placeholder, the stored pair otherwise. -/
def bucket.GetFirstPair (b : bucket) : Option Addr := b.headValue

/-- The method `Size`. -/
def bucket.Size (b : bucket) : Nat := b.size

/-- The loop `for v := start; v != nil; v = v.Next() { if v.Key() == key { found v } }`
shared by `Put` and `Get`.  The outer option is `none` when the loop does not finish
within the fuel; the inner one is the pair found, `none` when the chain ends first. -/
def scanKey (h : Heap V) (key : String) : Nat → Option Addr → Option (Option Addr)
  | _, none => some none
  | 0, some _ => none
  | fuel + 1, some a =>
    match h[a]? with
    | none => none
    | some p => if p.key = key then some (some a) else scanKey h key fuel p.next

/-- Result of `bucket.Put`: the two return values and the state it leaves behind. -/
structure PutResult (V : Type) where
  added : Bool
  err : Option Error
  heap : Heap V
  bkt : bucket
  lock : Option Nat

/-- A `sync.Locker` argument is `none` for `nil` and otherwise counts how often it has
been acquired (and released by the deferred `Unlock`). -/
def useLock (lock : Option Nat) : Option Nat := lock.map (· + 1)

/-- The method `bucket.Put`. -/
def bucket.Put (b : bucket) (h : Heap V) (p : Option Addr) (lock : Option Nat) :
    Option (PutResult V) :=
  match p with
  | none =>
    some { added := false, err := some (.illegalParameter "pair is nil"),
           heap := h, bkt := b, lock := lock }
  | some pa =>
    let lock1 := useLock lock
    match b.GetFirstPair with
    | none =>
      some { added := true, err := none, heap := h,
             bkt := { headValue := some pa, size := (b.size + 1) % u64 }, lock := lock1 }
    | some headPair =>
      match h[pa]? with
      | none => none
      | some pp =>
        match scanKey h pp.key h.length (some headPair) with
        | none => none
        | some (some target) =>
          some { added := false, err := none, heap := SetElement h target pp.element,
                 bkt := b, lock := lock1 }
        | some none =>
          some { added := true, err := none, heap := SetNext h pa (some headPair),
                 bkt := { headValue := some pa, size := (b.size + 1) % u64 },
                 lock := lock1 }

/-- The method `bucket.Get`. -/
def bucket.Get (b : bucket) (h : Heap V) (key : String) : Option (Option Addr) :=
  match b.GetFirstPair with
  | none => some none
  | some headPair => scanKey h key h.length (some headPair)

/-- The scanning loop of `bucket.Delete`: collects `prevPairs` until the target is met;
returns `prevPairs` and, when a target exists, the target with its `breakpoint`. -/
def scanDelete (h : Heap V) (key : String) :
    Nat → Option Addr → List Addr → Option (List Addr × Option (Addr × Option Addr))
  | _, none, prev => some (prev, none)
  | 0, some _, _ => none
  | fuel + 1, some a, prev =>
    match h[a]? with
    | none => none
    | some p =>
      if p.key = key then some (prev, some (a, p.next))
      else scanDelete h key fuel p.next (prev ++ [a])

/-- The rebuilding loop of `bucket.Delete`, `for i := len(prevPairs) - 1; i >= 0; i--`:
the argument lists the remaining `prevPairs[i]` in the order the loop visits them (last
first); each is copied and the copy linked in front of `newHeadPair`. -/
def rebuild : Heap V → List Addr → Option Addr → Option (Heap V × Option Addr)
  | h, [], newHeadPair => some (h, newHeadPair)
  | h, a :: rest, newHeadPair =>
    match Copy h a with
    | none => none
    | some (h1, pairCopy) => rebuild (SetNext h1 pairCopy newHeadPair) rest (some pairCopy)

/-- Result of `bucket.Delete`. -/
structure DeleteResult (V : Type) where
  deleted : Bool
  heap : Heap V
  bkt : bucket
  lock : Option Nat

/-- The method `bucket.Delete`. -/
def bucket.Delete (b : bucket) (h : Heap V) (key : String) (lock : Option Nat) :
    Option (DeleteResult V) :=
  let lock1 := useLock lock
  match b.GetFirstPair with
  | none => some { deleted := false, heap := h, bkt := b, lock := lock1 }
  | some headPair =>
    match scanDelete h key h.length (some headPair) [] with
    | none => none
    | some (_, none) => some { deleted := false, heap := h, bkt := b, lock := lock1 }
    | some (prevPairs, some (_, breakpoint)) =>
      match rebuild h prevPairs.reverse breakpoint with
      | none => none
      | some (h1, newHeadPair) =>
        some { deleted := true, heap := h1,
               bkt := { headValue := newHeadPair, size := (b.size + (u64 - 1)) % u64 },
               lock := lock1 }

/-- The method `bucket.Clear`. -/
def bucket.Clear (_b : bucket) (lock : Option Nat) : bucket × Option Nat :=
  ({ headValue := none, size := 0 }, useLock lock)

/-! ## redistributor.go -/

/-- The constant `BucketStatusNormal`; a `BucketStatus` is a `uint8`, here a number. -/
def BucketStatusNormal : Nat := 0

/-- The constant `BucketStatusUnderweight`. -/
def BucketStatusUnderweight : Nat := 1

/-- The constant `BucketStatusOverweight`. -/
def BucketStatusOverweight : Nat := 2

/-- The struct `pairRedistributorImpl`.  The `float64` field `loadFactor` is kept as the
map it induces on thresholds, `average ↦ uint64(float64(average) * loadFactor)`, so that
no floating-point arithmetic has to be embedded. -/
structure pairRedistributorImpl where
  loadFactor : Nat → Nat
  upperThreshold : Nat
  overweightBucketCount : Nat
  emptyBucketCount : Nat

/-- The load factor `DefaultBucketLoadFactor = 0.75` of const.go as a threshold map:
`uint64(average * 0.75)` is `⌊3 * average / 4⌋` (exact in `float64` below `2 ^ 51`). -/
def DefaultBucketLoadFactor : Nat → Nat := fun average => average * 3 / 4

/-- The method `UpdateThreshold`; `none` is the division-by-zero panic of
`pairTotal / uint64(bucketNum)`. -/
def pairRedistributorImpl.UpdateThreshold (pr : pairRedistributorImpl)
    (pairTotal bucketNum : Nat) : Option pairRedistributorImpl :=
  if bucketNum = 0 then none
  else
    let average := pairTotal / bucketNum
    let average := if average < 100 then 100 else average
    some { pr with upperThreshold := pr.loadFactor average % u64 }

/-- The function `newDefaultPairRedistributor`; the argument is `none` for a load factor
`<= 0`, which selects the default. -/
def newDefaultPairRedistributor (loadFactor : Option (Nat → Nat)) (bucketNum : Nat) :
    Option pairRedistributorImpl :=
  let lf := match loadFactor with
    | none => DefaultBucketLoadFactor
    | some f => f
  pairRedistributorImpl.UpdateThreshold
    { loadFactor := lf, upperThreshold := 0, overweightBucketCount := 0,
      emptyBucketCount := 0 } 0 bucketNum

/-- The method `CheckBucketStatus`: the status and the redistributor with its counters
updated. -/
def pairRedistributorImpl.CheckBucketStatus (pr : pairRedistributorImpl)
    (_pairTotal bucketSize : Nat) : Nat × pairRedistributorImpl :=
  if bucketSize > DefaultBucketMaxSize ∨ bucketSize ≥ pr.upperThreshold then
    (BucketStatusOverweight,
      { pr with overweightBucketCount := (pr.overweightBucketCount + 1) % u64 })
  else if bucketSize = 0 then
    (BucketStatusNormal, { pr with emptyBucketCount := (pr.emptyBucketCount + 1) % u64 })
  else (BucketStatusNormal, pr)

/-- The loop `for e := start; e != nil; e = e.Next() { pairs = append(pairs, e) }`. -/
def chainFrom (h : Heap V) : Nat → Option Addr → Option (List Addr)
  | _, none => some []
  | 0, some _ => none
  | fuel + 1, some a =>
    match h[a]? with
    | none => none
    | some p => (chainFrom h fuel p.next).map (a :: ·)

/-- The collecting loop of `Redistribute` over all buckets. -/
def collectPairs (h : Heap V) : List bucket → Option (List Addr)
  | [] => some []
  | b :: bs =>
    match chainFrom h h.length b.GetFirstPair, collectPairs h bs with
    | some l, some r => some (l ++ r)
    | _, _ => none

/-- The re-inserting loop of `Redistribute`: `buckets[p.Hash() % newNumber].Put(p, nil)`
for every collected pair, in order; `none` when an index is out of range. -/
def reinsert (newNumber : Nat) : Heap V → List bucket → List Addr →
    Option (Heap V × List bucket)
  | h, bs, [] => some (h, bs)
  | h, bs, a :: rest =>
    match h[a]? with
    | none => none
    | some p =>
      if newNumber = 0 then none
      else
        match bs[p.hash % newNumber]? with
        | none => none
        | some b =>
          match b.Put h (some a) none with
          | none => none
          | some r => reinsert newNumber r.heap (bs.set (p.hash % newNumber) r.bkt) rest

/-- Result of `Redistribute`: the two return values (`newBuckets` is `none` for `nil`)
and the state left behind. -/
structure RedistributeResult (V : Type) where
  newBuckets : Option (List bucket)
  changed : Bool
  pr : pairRedistributorImpl
  heap : Heap V

/-- The part of `Redistribute` after the `switch`, for the bucket count `newNumber` it
selected: the early exit when the count does not change, the collection of all pairs,
the preparation of the buckets (cleared in place and extended when growing, allocated
anew when shrinking), the re-insertion and the counter reset. -/
def pairRedistributorImpl.resize (pr : pairRedistributorImpl) (h : Heap V)
    (buckets : List bucket) (newNumber : Nat) : Option (RedistributeResult V) :=
  let currentNumber := buckets.length
  let reset := { pr with overweightBucketCount := 0, emptyBucketCount := 0 }
  if newNumber = currentNumber then
    some { newBuckets := none, changed := false, pr := reset, heap := h }
  else
    match collectPairs h buckets with
    | none => none
    | some pairs =>
      let fresh :=
        if newNumber > currentNumber then
          buckets.map (fun b => (b.Clear none).1)
            ++ List.replicate (newNumber - currentNumber) newBucket
        else List.replicate newNumber newBucket
      match reinsert newNumber h fresh pairs with
      | none => none
      | some (h1, bs) =>
        some { newBuckets := some bs, changed := true, pr := reset, heap := h1 }

/-- The method `Redistribute`. -/
def pairRedistributorImpl.Redistribute (pr : pairRedistributorImpl) (h : Heap V)
    (bucketStatus : Nat) (buckets : List bucket) : Option (RedistributeResult V) :=
  let currentNumber := buckets.length
  let unchanged : RedistributeResult V :=
    { newBuckets := none, changed := false, pr := pr, heap := h }
  if bucketStatus = BucketStatusOverweight then
    if pr.overweightBucketCount * 4 % u64 < currentNumber then some unchanged
    else pr.resize h buckets (currentNumber * 2 % u64)
  else if bucketStatus = BucketStatusUnderweight then
    if currentNumber < 100 ∨ pr.emptyBucketCount * 4 % u64 < currentNumber then
      some unchanged
    else pr.resize h buckets (if currentNumber / 2 < 2 then 2 else currentNumber / 2)
  else some unchanged

/-! ## Segment (segment.go is not part of the sources) -/

/-- Modelled from the spec: the `Segment` struct of the missing segment.go, section 3: an
array of buckets, a local entry counter and one redistributor instance (the mutex has no
sequential content). -/
structure segment where
  buckets : List bucket
  pairTotal : Nat
  pairRedistributor : pairRedistributorImpl

/-- Modelled from the spec: `newSegment(bucketNumber, pairRedistributor)` of the missing
segment.go.  Sections 3 and 6: the bucket array is created eagerly with empty buckets and
the segment owns one redistributor instance, the default one (load factor 0.75) when
none is supplied. -/
def newSegment (bucketNumber : Nat) (pairRedistributor : Option pairRedistributorImpl) :
    Option segment :=
  match pairRedistributor with
  | some pr =>
    some { buckets := List.replicate bucketNumber newBucket, pairTotal := 0,
           pairRedistributor := pr }
  | none =>
    match newDefaultPairRedistributor none bucketNumber with
    | none => none
    | some pr =>
      some { buckets := List.replicate bucketNumber newBucket, pairTotal := 0,
             pairRedistributor := pr }

/-- Modelled from the spec: the redistribution check of the missing segment.go that
follows a mutation, section 4.4: the redistributor classifies the affected bucket and
possibly redistributes, and the returned bucket array is swapped in if changed.  Section
4.3 has `UpdateThreshold` called whenever the total changes, so it runs first. -/
def segment.redistribute (s : segment) (h : Heap V) (pairTotal bucketSize : Nat) :
    Option (segment × Heap V) :=
  match s.pairRedistributor.UpdateThreshold pairTotal s.buckets.length with
  | none => none
  | some pr1 =>
    let (status, pr2) := pr1.CheckBucketStatus pairTotal bucketSize
    match pr2.Redistribute h status s.buckets with
    | none => none
    | some r =>
      some ({ s with buckets := if r.changed then r.newBuckets.getD [] else s.buckets,
                     pairRedistributor := r.pr }, r.heap)

/-- Result of `Segment.Put`. -/
structure SegmentPutResult (V : Type) where
  added : Bool
  err : Option Error
  seg : segment
  heap : Heap V

/-- Modelled from the spec: `Segment.Put(p)` of the missing segment.go, section 4.4:
compute `hash % bucketCount`, delegate to that bucket's `Put` with no lock, update the
local counter on success, then run the post-mutation redistribution check. -/
def segment.Put (s : segment) (h : Heap V) (p : Addr) : Option (SegmentPutResult V) :=
  match h[p]? with
  | none => none
  | some pp =>
    if s.buckets.length = 0 then none
    else
      let i := pp.hash % s.buckets.length
      match s.buckets[i]? with
      | none => none
      | some b =>
        match b.Put h (some p) none with
        | none => none
        | some r =>
          let s1 := { s with buckets := s.buckets.set i r.bkt }
          if r.added then
            let newTotal := (s.pairTotal + 1) % u64
            match ({ s1 with pairTotal := newTotal }).redistribute r.heap newTotal
                r.bkt.Size with
            | none => none
            | some (s2, h2) => some { added := true, err := r.err, seg := s2, heap := h2 }
          else some { added := false, err := r.err, seg := s1, heap := r.heap }

/-- Modelled from the spec: `Segment.GetWithHash(key, hash)` of the missing segment.go,
section 4.4: select the bucket by `hash % bucketCount` and delegate to its `Get`. -/
def segment.GetWithHash (s : segment) (h : Heap V) (key : String) (keyHash : Nat) :
    Option (Option Addr) :=
  if s.buckets.length = 0 then none
  else
    match s.buckets[keyHash % s.buckets.length]? with
    | none => none
    | some b => b.Get h key

/-- Result of `Segment.Delete`. -/
structure SegmentDeleteResult (V : Type) where
  deleted : Bool
  seg : segment
  heap : Heap V

/-- Modelled from the spec: `Segment.Delete(key)` of the missing segment.go, section 4.4:
symmetric to `Put`, with the same post-mutation redistribution check. -/
def segment.Delete (hash : String → Nat) (s : segment) (h : Heap V) (key : String) :
    Option (SegmentDeleteResult V) :=
  if s.buckets.length = 0 then none
  else
    let i := (hash key % u64) % s.buckets.length
    match s.buckets[i]? with
    | none => none
    | some b =>
      match b.Delete h key none with
      | none => none
      | some r =>
        let s1 := { s with buckets := s.buckets.set i r.bkt }
        if r.deleted then
          let newTotal := (s.pairTotal + (u64 - 1)) % u64
          match ({ s1 with pairTotal := newTotal }).redistribute r.heap newTotal
              r.bkt.Size with
          | none => none
          | some (s2, h2) => some { deleted := true, seg := s2, heap := h2 }
        else some { deleted := false, seg := s1, heap := r.heap }

/-! ## cmap.go -/

/-- The struct `ConcurrentMapImpl`. -/
structure ConcurrentMapImpl where
  concurrency : Int
  segments : List segment
  total : Nat

/-- Result of `NewConcurrentMap`: the map (`none` for `nil`) and the error. -/
structure NewResult where
  cmap : Option ConcurrentMapImpl
  err : Option Error

/-- The loop of `NewConcurrentMap` that fills the segment array. -/
def newSegments (pairRedistributor : Option pairRedistributorImpl) :
    Nat → Option (List segment)
  | 0 => some []
  | n + 1 =>
    match newSegment DefaultBucketNum pairRedistributor,
        newSegments pairRedistributor n with
    | some s, some rest => some (s :: rest)
    | _, _ => none

/-- The function `NewConcurrentMap`. -/
def NewConcurrentMap (concurrency : Int) (pairRedistributor : Option pairRedistributorImpl) :
    Option NewResult :=
  if concurrency ≤ 0 then
    some { cmap := none,
           err := some (.illegalParameter "concurrency must be greater than 0") }
  else if concurrency > MaxConcurrency then
    some { cmap := none,
           err := some (.illegalParameter
             "concurrency must be smaller than MAX_CONCURRENCY") }
  else
    match newSegments pairRedistributor concurrency.toNat with
    | none => none
    | some segs =>
      some { cmap := some { concurrency := concurrency, segments := segs, total := 0 },
             err := none }

/-- The method `Concurrency`. -/
def ConcurrentMapImpl.Concurrency (cm : ConcurrentMapImpl) : Int := cm.concurrency

/-- The method `Len`. -/
def ConcurrentMapImpl.Len (cm : ConcurrentMapImpl) : Nat := cm.total

/-- The method `findSegment`, returning the index of the segment it selects; `none` is
an index out of range or a division by zero. -/
def ConcurrentMapImpl.findSegment (cm : ConcurrentMapImpl) (keyHash : Nat) : Option Nat :=
  if cm.concurrency = 1 then
    if 0 < cm.segments.length then some 0 else none
  else
    let keyHash32 : Nat :=
      if keyHash > 2 ^ 32 - 1 then (keyHash >>> 32) % 2 ^ 32 else keyHash % 2 ^ 32
    if cm.concurrency - 1 = 0 then none
    else
      let idx : Int := Int.tmod ((keyHash32 >>> 16 : Nat) : Int) (cm.concurrency - 1)
      if 0 ≤ idx ∧ idx.toNat < cm.segments.length then some idx.toNat else none

/-- Result of `ConcurrentMapImpl.Put`. -/
structure MapPutResult (V : Type) where
  added : Bool
  err : Option Error
  cmap : ConcurrentMapImpl
  heap : Heap V

/-- The method `ConcurrentMapImpl.Put`. -/
def ConcurrentMapImpl.Put (hash : String → Nat) (cm : ConcurrentMapImpl) (h : Heap V)
    (key : String) (elem : V) : Option (MapPutResult V) :=
  let (h1, p) := newPair hash h key elem
  match cm.findSegment (hash key % u64) with
  | none => none
  | some i =>
    match cm.segments[i]? with
    | none => none
    | some s =>
      match s.Put h1 p with
      | none => none
      | some r =>
        some { added := r.added, err := r.err,
               cmap := { cm with segments := cm.segments.set i r.seg,
                                 total := if r.added then (cm.total + 1) % u64
                                          else cm.total },
               heap := r.heap }

/-- The method `ConcurrentMapImpl.Get`: the element, `none` for `nil`. -/
def ConcurrentMapImpl.Get (hash : String → Nat) (cm : ConcurrentMapImpl) (h : Heap V)
    (key : String) : Option (Option V) :=
  let keyHash := hash key % u64
  match cm.findSegment keyHash with
  | none => none
  | some i =>
    match cm.segments[i]? with
    | none => none
    | some s =>
      match s.GetWithHash h key keyHash with
      | none => none
      | some none => some none
      | some (some pair) =>
        match h[pair]? with
        | none => none
        | some pp => some (some pp.element)

/-- Result of `ConcurrentMapImpl.Delete`. -/
structure MapDeleteResult (V : Type) where
  deleted : Bool
  cmap : ConcurrentMapImpl
  heap : Heap V

/-- The method `ConcurrentMapImpl.Delete`. -/
def ConcurrentMapImpl.Delete (hash : String → Nat) (cm : ConcurrentMapImpl) (h : Heap V)
    (key : String) : Option (MapDeleteResult V) :=
  match cm.findSegment (hash key % u64) with
  | none => none
  | some i =>
    match cm.segments[i]? with
    | none => none
    | some s =>
      match s.Delete hash h key with
      | none => none
      | some r =>
        if r.deleted then
          some { deleted := true,
                 cmap := { cm with segments := cm.segments.set i r.seg,
                                   total := (cm.total + (u64 - 1)) % u64 },
                 heap := r.heap }
        else
          some { deleted := false,
                 cmap := { cm with segments := cm.segments.set i r.seg },
                 heap := r.heap }

/-! ## Auxiliary definitions used in the statements -/

/-- Modelled from the spec: the accessor `Pair.Key()` of the missing pair.go. -/
def keyAt (h : Heap V) (a : Addr) : Option String := (h[a]?).map (·.key)

/-- Modelled from the spec: the accessor `Pair.Element()` of the missing pair.go. -/
def elementAt (h : Heap V) (a : Addr) : Option V := (h[a]?).map (·.element)

/-- Modelled from the spec: the accessor `Pair.Next()` of the missing pair.go. -/
def nextAt (h : Heap V) (a : Addr) : Option (Option Addr) := (h[a]?).map (·.next)

/-- Modelled from the spec: the accessor `Pair.Hash()` of the missing pair.go. -/
def hashAt (h : Heap V) (a : Addr) : Option Nat := (h[a]?).map (·.hash)

/-- The pairs reachable from the head of a bucket, in traversal order (the loop of
`bucket.String`). -/
def bucket.chain (b : bucket) (h : Heap V) : Option (List Addr) :=
  chainFrom h h.length b.GetFirstPair

/-- The relation `IsChain h s l`: following `Next()` from `s` visits exactly the addresses
`l` and then reaches `nil`. -/
inductive IsChain (h : Heap V) : Option Addr → List Addr → Prop
  | nil : IsChain h none []
  | cons {a : Addr} {p : Pair V} {l : List Addr} :
      h[a]? = some p → IsChain h p.next l → IsChain h (some a) (a :: l)

/-- First member of a list of addresses whose pair has the given key. -/
def findKey (h : Heap V) (key : String) (l : List Addr) : Option Addr :=
  l.find? (fun a => decide (keyAt h a = some key))

/-- The key, hash and element of the pair at an address. -/
def tripleAt (h : Heap V) (a : Addr) : Option (String × Nat × V) :=
  (h[a]?).map (fun p => (p.key, p.hash, p.element))

/-! ## Sample data for the witnesses -/

/-- A small heap: pair 1 (`"b"`) links to pair 0 (`"a"`); pair 2 is a fresh pair with
key `"a"`, pair 3 a fresh pair with key `"c"`. -/
def sampleHeap : Heap Nat :=
  [ { key := "a", hash := 1, element := 10, next := none },
    { key := "b", hash := 2, element := 20, next := some 0 },
    { key := "a", hash := 1, element := 30, next := none },
    { key := "c", hash := 3, element := 40, next := none } ]

/-- A bucket whose chain in `sampleHeap` is pair 1 followed by pair 0. -/
def sampleBucket : bucket := { headValue := some 1, size := 2 }

/-! ## Sequences of operations on a bucket array -/

/-- A bucket array together with the heap its chains live in. -/
structure ArrState (V : Type) where
  heap : Heap V
  buckets : List bucket

/-- One step on a bucket array: `put key elem` creates a pair with `newPair` and puts it
into `buckets[hash(key) % len(buckets)]`; `redistribute status pr` calls
`pr.Redistribute(status, buckets)` on a redistributor in the state `pr` and replaces the
array by the returned one when `changed` is true. -/
inductive Step (V : Type) where
  | put (key : String) (elem : V)
  | redistribute (status : Nat) (pr : pairRedistributorImpl)

/-- Execution of one step; `none` when the step does not return. -/
def ArrState.step (hash : String → Nat) (s : ArrState V) : Step V → Option (ArrState V)
  | .put key elem =>
    let (h1, p) := newPair hash s.heap key elem
    if s.buckets.length = 0 then none
    else
      match s.buckets[(hash key % u64) % s.buckets.length]? with
      | none => none
      | some b =>
        match b.Put h1 (some p) none with
        | none => none
        | some r =>
          some { heap := r.heap,
                 buckets := s.buckets.set ((hash key % u64) % s.buckets.length) r.bkt }
  | .redistribute status pr =>
    match pr.Redistribute s.heap status s.buckets with
    | none => none
    | some r =>
      some { heap := r.heap,
             buckets := if r.changed then r.newBuckets.getD [] else s.buckets }

/-- Execution of a sequence of steps. -/
def ArrState.run (hash : String → Nat) : ArrState V → List (Step V) → Option (ArrState V)
  | s, [] => some s
  | s, st :: rest =>
    match s.step hash st with
    | none => none
    | some s1 => ArrState.run hash s1 rest

/-- The key/value entries inserted by the `put` steps of a sequence, in order. -/
def insertedEntries : List (Step V) → List (String × V)
  | [] => []
  | .put key elem :: rest => (key, elem) :: insertedEntries rest
  | .redistribute _ _ :: rest => insertedEntries rest

/-- The number of `Redistribute` steps of a sequence. -/
def redistributions : List (Step V) → Nat
  | [] => 0
  | .put _ _ :: rest => redistributions rest
  | .redistribute _ _ :: rest => redistributions rest + 1

/-! ## Invariants of a bucket array -/

/-- The tracked pairs `T` have pairwise distinct keys, exist in the heap, and each of them
starts a chain that ends in nil and stays inside `T`. -/
structure ChainsOk (h : Heap V) (T : List Addr) : Prop where
  keys : (T.map (keyAt h)).Nodup
  valid : ∀ a ∈ T, a < h.length
  closed : ∀ a ∈ T, ∃ l, IsChain h (some a) l ∧ ∀ x ∈ l, x ∈ T

/-- Invariant of a bucket array over the tracked pairs `T`: the array is not empty, every
head is tracked, and every tracked pair is reachable from the head of the bucket its
hash selects. -/
structure ArrInv (h : Heap V) (bs : List bucket) (T : List Addr) : Prop where
  pos : 0 < bs.length
  chains : ChainsOk h T
  heads : ∀ b ∈ bs, ∀ a, b.headValue = some a → a ∈ T
  good : ∀ a ∈ T, ∃ pa b l, h[a]? = some pa ∧ bs[pa.hash % bs.length]? = some b ∧
    IsChain h b.headValue l ∧ a ∈ l

/-- Invariant of the re-inserting loop of `Redistribute`, with `done` the pairs already
re-inserted and `R` those still to come: every head is done; every done pair is
reachable from the head of its new bucket through done pairs only; the successor of a
done pair is done or is the next pair to come; and a pair to come that is not done is
followed in `R` by its successor. -/
structure LoopInv (n : Nat) (T : List Addr) (h : Heap V) (bs : List bucket)
    (done R : List Addr) : Prop where
  len : bs.length = n
  chains : ChainsOk h T
  heads : ∀ b ∈ bs, ∀ a, b.headValue = some a → a ∈ done
  good : ∀ w ∈ done, ∃ pw b pre rest, h[w]? = some pw ∧ bs[pw.hash % n]? = some b ∧
    IsChain h b.headValue (pre ++ w :: rest) ∧ ∀ x ∈ pre, x ∈ done
  link : ∀ e ∈ done, ∀ e1, nextAt h e = some (some e1) → e1 ∈ done ∨ R.head? = some e1
  adj : ∀ A a B, R = A ++ a :: B → a ∉ done →
    ∀ a1, nextAt h a = some (some a1) → ∃ B1, B = a1 :: B1
  doneT : ∀ a ∈ done, a ∈ T
  restT : ∀ a ∈ R, a ∈ T

/-- The tracked pairs hold exactly the inserted entries, in order. -/
def Entries (hash : String → Nat) (h : Heap V) (T : List Addr) (ins : List (String × V)) :
    Prop :=
  T.map (tripleAt h) = ins.map (fun e => some (e.1, hash e.1 % u64, e.2))

/-- A toy hash function for the sample runs: the length of the key. -/
def sampleHash (k : String) : Nat := k.length

/-- A redistributor state whose overweight counter is 1. -/
def samplePr : pairRedistributorImpl :=
  { loadFactor := DefaultBucketLoadFactor, upperThreshold := 75,
    overweightBucketCount := 1, emptyBucketCount := 0 }

/-- A sample sequence: two insertions, a growth from one bucket to two that separates
the two chained pairs, and a third insertion. -/
def sampleSteps : List (Step Nat) :=
  [Step.put "a" 1, Step.put "bb" 2,
   Step.redistribute BucketStatusOverweight samplePr, Step.put "ccc" 3]

/-! ## A run of the map that exposes the stale links left by `Redistribute` -/

/-- A polynomial string hash (multiplier 131) standing for the caller-supplied hash. -/
def polyHash (k : String) : Nat :=
  k.data.foldl (fun x c => (x * 131 + c.toNat) % 2 ^ 64) 0

/-- The redistributor `newDefaultPairRedistributor(0.03125, DefaultBucketNum)`: with the
load factor `2 ^ -5` the threshold is `uint64(average * 0.03125) = ⌊average / 32⌋`
(exact in `float64`), which is 3 as long as the average is at most 100. -/
def smallPr : Option pairRedistributorImpl :=
  newDefaultPairRedistributor (some (fun average => average / 32)) DefaultBucketNum

/-- An operation of the public interface of the map. -/
inductive MapOp where
  | put (key : String) (elem : Nat)
  | delete (key : String)

/-- Execution of a sequence of map operations. -/
def runMap (hash : String → Nat) :
    ConcurrentMapImpl → Heap Nat → List MapOp → Option (ConcurrentMapImpl × Heap Nat)
  | cm, h, [] => some (cm, h)
  | cm, h, .put key elem :: rest =>
    match cm.Put hash h key elem with
    | none => none
    | some r => runMap hash r.cmap r.heap rest
  | cm, h, .delete key :: rest =>
    match cm.Delete hash h key with
    | none => none
    | some r => runMap hash r.cmap r.heap rest

/-- Seventeen operations on a map with one segment.  All keys but `"k27"` have a hash
that is 0 modulo 64, the hash of `"k27"` is 16 modulo 64, so all keys start in bucket 0
of the 16 buckets.  The sixth `Put` makes the segment grow to 32 buckets; the two
`Delete`s and the nine further `Put`s leave the overweight counter at 7, one short of
the next growth. -/
def staleOps : List MapOp :=
  [.put "k498" 1, .put "k568" 2, .put "k575" 3, .put "k582" 4, .put "k638" 5,
   .put "k27" 6, .delete "k638", .delete "k582",
   .put "k645" 7, .put "k652" 8, .put "k708" 9, .put "k715" 10, .put "k722" 11,
   .put "k1017" 12, .put "k1024" 13, .put "k1031" 14, .put "k1101" 15]

/-- The map state reached by `staleOps` from a new map with concurrency 1. -/
def staleState : Option (ConcurrentMapImpl × Heap Nat) :=
  match NewConcurrentMap 1 smallPr with
  | some { cmap := some cm, err := _ } => runMap polyHash cm [] staleOps
  | _ => none

/-- In `staleState`: `Get("k575")`, `Delete("k575")`, `Get("k575")` again, with `Len()`
before and after the `Delete`. -/
def deleteTrace : Option (Option Nat × Bool × Option Nat × Nat × Nat) :=
  match staleState with
  | none => none
  | some (cm, h) =>
    match cm.Get polyHash h "k575", cm.Delete polyHash h "k575" with
    | some g0, some r =>
      match r.cmap.Get polyHash r.heap "k575" with
      | some g1 => some (g0, r.deleted, g1, cm.Len, r.cmap.Len)
      | none => none
    | _, _ => none

/-- In `staleState`: `Get("k638")`, `Put("k638", 100)`, `Get("k638")` again, with
`Len()` before and after the `Put`. -/
def putTrace : Option (Option Nat × Bool × Option Nat × Nat × Nat) :=
  match staleState with
  | none => none
  | some (cm, h) =>
    match cm.Get polyHash h "k638", cm.Put polyHash h "k638" 100 with
    | some g0, some r =>
      match r.cmap.Get polyHash r.heap "k638" with
      | some g1 => some (g0, r.added, g1, cm.Len, r.cmap.Len)
      | none => none
    | _, _ => none

/-- A map with one segment of 16 buckets that holds the single entry `"a" ↦ 10` (the
pair at address 0 of `sampleMapHeap`, in bucket `sampleHash "a" % 16 = 1`). -/
def sampleMap : ConcurrentMapImpl :=
  { concurrency := 1,
    segments :=
      [{ buckets := (List.replicate 16 newBucket).set 1 { headValue := some 0, size := 1 },
         pairTotal := 1, pairRedistributor := samplePr }],
    total := 1 }

/-- The heap of `sampleMap`. -/
def sampleMapHeap : Heap Nat :=
  [{ key := "a", hash := 1, element := 10, next := none }]

/-! ## Sample redistributor states -/

/-- The state of the redistributor that `newDefaultPairRedistributor(0, DefaultBucketNum)`
builds: load factor 0.75, threshold `uint64(100 * 0.75) = 75`, both counters 0. -/
def defaultPr : pairRedistributorImpl :=
  { loadFactor := DefaultBucketLoadFactor, upperThreshold := 75,
    overweightBucketCount := 0, emptyBucketCount := 0 }

/-- The two counters of a redistributor. -/
def pairRedistributorImpl.counters (pr : pairRedistributorImpl) : Nat × Nat :=
  (pr.overweightBucketCount, pr.emptyBucketCount)

/-- One classification of a bucket of size 80 by `defaultPr`, then `Redistribute` with the
status obtained on the 16 empty buckets of a new segment: the `changed` flag and the two
counters after the call. -/
def resetTrace : Option (Bool × Nat × Nat) :=
  let c := defaultPr.CheckBucketStatus 80 80
  (c.2.Redistribute ([] : Heap Nat) c.1 (List.replicate DefaultBucketNum newBucket)).map
    (fun r => (r.changed, r.pr.counters))

/-- The map that `NewConcurrentMap(c, nil)` builds for a legal `c`: `c` segments of 16
empty buckets, each with a default redistributor. -/
def freshMap (c : Nat) : ConcurrentMapImpl :=
  { concurrency := c,
    segments := List.replicate c
      { buckets := List.replicate DefaultBucketNum newBucket, pairTotal := 0,
        pairRedistributor := defaultPr },
    total := 0 }

/-! ## Bucket arrays under insertions, deletions and redistributions -/

/-- A hash function for the sample runs: the decimal value of the key. -/
def decimalHash (k : String) : Nat :=
  k.data.foldl (fun x c => x * 10 + (c.toNat - 48)) 0

/-- One operation on a bucket array: `put` and `redistribute` are the steps of `Step`;
`delete key` calls `Delete(key, nil)` on `buckets[hash(key) % len(buckets)]`. -/
inductive ArrOp (V : Type) where
  | put (key : String) (elem : V)
  | delete (key : String)
  | redistribute (status : Nat) (pr : pairRedistributorImpl)

/-- Execution of one operation; `none` when it does not return. -/
def ArrState.apply (hash : String → Nat) (s : ArrState V) : ArrOp V → Option (ArrState V)
  | .put key elem => s.step hash (.put key elem)
  | .redistribute status pr => s.step hash (.redistribute status pr)
  | .delete key =>
    if s.buckets.length = 0 then none
    else
      match s.buckets[(hash key % u64) % s.buckets.length]? with
      | none => none
      | some b =>
        match b.Delete s.heap key none with
        | none => none
        | some r =>
          some { heap := r.heap,
                 buckets := s.buckets.set ((hash key % u64) % s.buckets.length) r.bkt }

/-- Execution of a sequence of operations. -/
def ArrState.exec (hash : String → Nat) : ArrState V → List (ArrOp V) → Option (ArrState V)
  | s, [] => some s
  | s, op :: rest =>
    match s.apply hash op with
    | none => none
    | some s1 => ArrState.exec hash s1 rest

/-- The element that `buckets[hash(key) % len(buckets)].Get(key)` carries; the inner
`none` is the absent pair. -/
def ArrState.lookup (hash : String → Nat) (s : ArrState V) (key : String) :
    Option (Option V) :=
  if s.buckets.length = 0 then none
  else
    match s.buckets[(hash key % u64) % s.buckets.length]? with
    | none => none
    | some b =>
      match b.Get s.heap key with
      | none => none
      | some none => some none
      | some (some a) => (elementAt s.heap a).map some

/-- For every bucket of the array: `Size()` and the number of pairs reachable from the
head by following `Next()`. -/
def ArrState.sizes (s : ArrState V) : List (Nat × Option Nat) :=
  s.buckets.map (fun b => (b.Size, (b.chain s.heap).map List.length))

/-- The `next` link of every pair of the heap. -/
def ArrState.links (s : ArrState V) : List (Option Nat) := s.heap.map (·.next)

/-- A single bucket after `Put("1", 10)` and `Put("2", 20)`: the chain is pair 1 (key
`"2"`) followed by pair 0 (key `"1"`). -/
def chainState : Option (ArrState Nat) :=
  ArrState.exec decimalHash { heap := [], buckets := [newBucket] }
    [.put "1" 10, .put "2" 20]

/-- For the state `chainState` and the state after `Redistribute(Overweight, buckets)`
with one bucket flagged, which grows the array to two buckets and sends key `"2"` to
bucket 0 and key `"1"` to bucket 1: the sizes and chain lengths of all buckets. -/
def sizeTrace : Option (List (Nat × Option Nat) × List (Nat × Option Nat)) :=
  match chainState with
  | none => none
  | some s0 =>
    match s0.apply decimalHash (.redistribute BucketStatusOverweight samplePr) with
    | none => none
    | some s1 => some (s0.sizes, s1.sizes)

/-- From `chainState`: a growth to two buckets, `Delete("1")`, and a second growth to
four buckets; the lookups of `"1"` before the deletion, after it, and after the second
growth. -/
def reappearTrace : Option (Option (Option Nat) × Option (Option Nat) × Option (Option Nat)) :=
  match chainState with
  | none => none
  | some s0 =>
    match s0.apply decimalHash (.redistribute BucketStatusOverweight samplePr) with
    | none => none
    | some s1 =>
      match s1.apply decimalHash (.delete "1") with
      | none => none
      | some s2 =>
        match s2.apply decimalHash (.redistribute BucketStatusOverweight samplePr) with
        | none => none
        | some s3 =>
          some (s1.lookup decimalHash "1", s2.lookup decimalHash "1",
                s3.lookup decimalHash "1")

/-- A redistributor state with 98 buckets counted as empty. -/
def emptyPr : pairRedistributorImpl :=
  { loadFactor := DefaultBucketLoadFactor, upperThreshold := 75,
    overweightBucketCount := 0, emptyBucketCount := 98 }

/-- One hundred buckets after `Put("100", 1)`, `Put("0", 2)`, `Put("150", 3)` and
`Put("50", 4)`: bucket 0 holds pair 1 (key `"0"`) followed by pair 0 (key `"100"`),
bucket 50 holds pair 3 (key `"50"`) followed by pair 2 (key `"150"`). -/
def hundredState : Option (ArrState Nat) :=
  ArrState.exec decimalHash { heap := [], buckets := List.replicate 100 newBucket }
    [.put "100" 1, .put "0" 2, .put "150" 3, .put "50" 4]

/-- For `hundredState` and the state after `Redistribute(Underweight, buckets)`, which
shrinks the array to 50 buckets: the `next` links of the four pairs before and after
the call, and the chain read from the head that bucket 50 had before the call, in the
heap before and in the heap after. -/
def shrinkTrace : Option (List (Option Nat) × List (Option Nat) ×
    Option (List Nat) × Option (List Nat)) :=
  match hundredState with
  | none => none
  | some s0 =>
    match s0.apply decimalHash (.redistribute BucketStatusUnderweight emptyPr) with
    | none => none
    | some s1 =>
      some (s0.links, s1.links,
            (s0.buckets[50]?).bind (fun b => b.chain s0.heap),
            (s0.buckets[50]?).bind (fun b => b.chain s1.heap))

/-- From `chainState`: a growth to two buckets, `Delete("1")`, `Put("5", 50)` (pair 2,
alone in bucket 1), and a second growth to four buckets; the `next` links before and
after the second growth, and the chain read from the head that bucket 1 had before it,
in the heap before and in the heap after. -/
def growTrace : Option (List (Option Nat) × List (Option Nat) ×
    Option (List Nat) × Option (List Nat)) :=
  match chainState with
  | none => none
  | some s =>
    match ArrState.exec decimalHash s
        [.redistribute BucketStatusOverweight samplePr, .delete "1", .put "5" 50] with
    | none => none
    | some s0 =>
      match s0.apply decimalHash (.redistribute BucketStatusOverweight samplePr) with
      | none => none
      | some s1 =>
        some (s0.links, s1.links,
              (s0.buckets[1]?).bind (fun b => b.chain s0.heap),
              (s0.buckets[1]?).bind (fun b => b.chain s1.heap))

/-- Every address selected by `S` starts a chain that ends in nil and stays inside
`S`. -/
def ClosedChains (h : Heap V) (S : Addr → Prop) : Prop :=
  ∀ a, S a → ∃ l, IsChain h (some a) l ∧ ∀ x ∈ l, S x

/-! ## Sequences of operations on one bucket -/

/-- One bucket together with the heap its chain lives in. -/
structure BucketState (V : Type) where
  heap : Heap V
  bkt : bucket

/-- One operation on a bucket: `put key elem lock` creates a pair with `newPair` and
calls `Put(p, lock)`; `delete key lock` calls `Delete(key, lock)`; `clear lock` calls
`Clear(lock)`. -/
inductive BucketOp (V : Type) where
  | put (key : String) (elem : V) (lock : Option Nat)
  | delete (key : String) (lock : Option Nat)
  | clear (lock : Option Nat)

/-- Execution of one operation; `none` when it does not return. -/
def BucketState.step (hash : String → Nat) (s : BucketState V) :
    BucketOp V → Option (BucketState V)
  | .put key elem lock =>
    let (h1, p) := newPair hash s.heap key elem
    match s.bkt.Put h1 (some p) lock with
    | none => none
    | some r => some { heap := r.heap, bkt := r.bkt }
  | .delete key lock =>
    match s.bkt.Delete s.heap key lock with
    | none => none
    | some r => some { heap := r.heap, bkt := r.bkt }
  | .clear lock => some { heap := s.heap, bkt := (s.bkt.Clear lock).1 }

/-- Execution of a sequence of operations. -/
def BucketState.run (hash : String → Nat) :
    BucketState V → List (BucketOp V) → Option (BucketState V)
  | s, [] => some s
  | s, op :: rest =>
    match s.step hash op with
    | none => none
    | some s1 => BucketState.run hash s1 rest

/-- The invariant of a bucket: the chain from the head ends in nil after the pairs `l`,
these have pairwise distinct keys, and the size counter is their number (as a
`uint64`). -/
def BucketInv (s : BucketState V) (l : List Addr) : Prop :=
  IsChain s.heap s.bkt.headValue l ∧ (l.map (keyAt s.heap)).Nodup ∧
    s.bkt.size = l.length % u64

/-! ## A bucket whose size counter has fallen behind its chain -/

/-- From one empty bucket: `Put("2", 10)`, `Put("4", 20)`, a growth to two buckets (both
keys stay in bucket 0, which gets `Size() = 1` for its chain of two pairs) and
`Delete("4")`.  Bucket 0 then holds the single pair `"2"` and has `Size() = 0`. -/
def undercountState : Option (ArrState Nat) :=
  ArrState.exec decimalHash { heap := [], buckets := [newBucket] }
    [.put "2" 10, .put "4" 20, .redistribute BucketStatusOverweight samplePr, .delete "4"]

/-- In `undercountState`, `Delete("2", nil)` on bucket 0: `Size()` and the keys of the
chain before the call, the value returned, and `Size()` after the call. -/
def deleteWrapTrace : Option (Nat × Option (List (Option String)) × Bool × Nat) :=
  match undercountState with
  | none => none
  | some s =>
    match s.buckets[0]? with
    | none => none
    | some b =>
      match b.Delete s.heap "2" none with
      | none => none
      | some r =>
        some (b.Size, (b.chain s.heap).map (fun l => l.map (keyAt s.heap)), r.deleted,
              r.bkt.Size)

/-- After `Delete("2")` in `undercountState`, `Put` of the fresh pair `("6", 30)` on
bucket 0: `Size()` and the keys of the chain before the call, the value returned, and
`Size()` after the call. -/
def putWrapTrace : Option (Nat × Option (List (Option String)) × Bool × Nat) :=
  match undercountState with
  | none => none
  | some s0 =>
    match s0.apply decimalHash (.delete "2") with
    | none => none
    | some s =>
      match s.buckets[0]? with
      | none => none
      | some b =>
        match b.Put (newPair decimalHash s.heap "6" 30).1
            (some (newPair decimalHash s.heap "6" 30).2) none with
        | none => none
        | some r =>
          some (b.Size, (b.chain s.heap).map (fun l => l.map (keyAt s.heap)), r.added,
                r.bkt.Size)
/-! ## Invariants of bucket arrays with arbitrary chains -/

/-- Every chain of the bucket array ends in nil. -/
def FiniteChains (h : Heap V) (bs : List bucket) : Prop :=
  ∀ b ∈ bs, ∃ l, IsChain h b.headValue l

/-- Some pair with the key is reachable from the head of the bucket that the hash
selects. -/
def Findable (h : Heap V) (bs : List bucket) (key : String) (keyHash : Nat) : Prop :=
  ∃ b l t, bs[keyHash % bs.length]? = some b ∧ IsChain h b.headValue l ∧
    findKey h key l = some t

/-- Invariant of the re-inserting loop of `Redistribute` on arbitrary chains (keys may
repeat, chains may share pairs), with `done` the pairs already re-inserted and `R` those
still to come: every head is done; for every done pair, a done pair with the same key is
reachable from the head of the bucket its hash selects, through done pairs only; the
successor of a done pair is done or is the next pair to come; and a pair to come that is
not done is followed in `R` by its successor. -/
structure ReinsertInv (n : Nat) (S : Addr → Prop) (h : Heap V) (bs : List bucket)
    (done R : List Addr) : Prop where
  len : bs.length = n
  closed : ClosedChains h S
  doneS : ∀ a ∈ done, S a
  restS : ∀ a ∈ R, S a
  heads : ∀ b ∈ bs, ∀ a, b.headValue = some a → a ∈ done
  good : ∀ q ∈ done, ∃ k kh b pre w rest, keyAt h q = some k ∧ hashAt h q = some kh ∧
    bs[kh % n]? = some b ∧ IsChain h b.headValue (pre ++ w :: rest) ∧
    keyAt h w = some k ∧ (∀ x ∈ pre, x ∈ done) ∧ w ∈ done
  link : ∀ e ∈ done, ∀ e1, nextAt h e = some (some e1) → e1 ∈ done ∨ R.head? = some e1
  adj : ∀ A a B, R = A ++ a :: B → a ∉ done →
    ∀ a1, nextAt h a = some (some a1) → ∃ B1, B = a1 :: B1

/-- A pair with the key and the hash is in the chain of the bucket that the hash
selects. -/
def Stored (h : Heap V) (bs : List bucket) (key : String) (keyHash : Nat) : Prop :=
  ∃ b l q, bs[keyHash % bs.length]? = some b ∧ IsChain h b.headValue l ∧ q ∈ l ∧
    keyAt h q = some key ∧ hashAt h q = some keyHash

/-! ## A map whose selected bucket holds a chain of two pairs -/

/-- The heap of `chainMap`: pair 1 (key `"17"`) links to pair 0 (key `"1"`). -/
def chainMapHeap : Heap Nat :=
  [ { key := "1", hash := 1, element := 10, next := none },
    { key := "17", hash := 17, element := 20, next := some 0 } ]

/-- The map that `NewConcurrentMap(1, nil)`, `Put("1", 10)` and `Put("17", 20)` build with
the hash `decimalHash`: one segment of 16 buckets whose bucket 1 holds the chain
`"17" -> "1"`. -/
def chainMap : ConcurrentMapImpl :=
  { concurrency := 1,
    segments :=
      [{ buckets := (List.replicate 16 newBucket).set 1 { headValue := some 1, size := 2 },
         pairTotal := 2, pairRedistributor := defaultPr }],
    total := 2 }

/-- The state reached from `NewConcurrentMap(1, nil)` by `Put("1", 10)` and
`Put("17", 20)`. -/
def chainMapRun : Option (ConcurrentMapImpl × Heap Nat) :=
  match NewConcurrentMap 1 none with
  | some { cmap := some cm, err := _ } =>
    runMap decimalHash cm [] [.put "1" 10, .put "17" 20]
  | _ => none

/-! # Properties -/

/-! ### Chains -/

theorem IsChain.unique {h : Heap V} {s : Option Addr} {l1 l2 : List Addr}
    (h1 : IsChain h s l1) (h2 : IsChain h s l2) : l1 = l2 := by
  induction h1 generalizing l2 with
  | nil => cases h2; rfl
  | cons ha _ ih =>
    cases h2 with
    | cons ha2 hc2 =>
      rw [ha] at ha2
      cases ha2
      rw [ih hc2]

theorem IsChain.lt {h : Heap V} {s : Option Addr} {l : List Addr}
    (hc : IsChain h s l) : ∀ a ∈ l, a < h.length := by
  induction hc with
  | nil => simp
  | cons ha _ ih =>
    intro x hx
    rcases List.mem_cons.1 hx with rfl | hx
    · by_contra hlt
      rw [List.getElem?_eq_none (Nat.le_of_not_lt hlt)] at ha
      cases ha
    · exact ih x hx

/-- The chain that starts at any member of a chain is a suffix of it. -/
theorem IsChain.suffix_of_mem {h : Heap V} {s : Option Addr} {l : List Addr}
    (hc : IsChain h s l) : ∀ a ∈ l, ∃ l1 l2, l = l1 ++ a :: l2 ∧ IsChain h (some a) (a :: l2) := by
  induction hc with
  | nil => simp
  | @cons a0 p l0 ha hc0 ih =>
    intro x hx
    rcases List.mem_cons.1 hx with rfl | hx
    · exact ⟨[], l0, rfl, IsChain.cons ha hc0⟩
    · obtain ⟨l1, l2, rfl, h2⟩ := ih x hx
      exact ⟨a0 :: l1, l2, rfl, h2⟩

theorem IsChain.nodup {h : Heap V} {s : Option Addr} {l : List Addr}
    (hc : IsChain h s l) : l.Nodup := by
  induction hc with
  | nil => simp
  | @cons a0 p l0 ha hc0 ih =>
    refine List.nodup_cons.2 ⟨?_, ih⟩
    intro hmem
    obtain ⟨l1, l2, hl, h2⟩ := hc0.suffix_of_mem a0 hmem
    have h3 := (IsChain.cons ha hc0).unique h2
    have : (a0 :: l0).length = (a0 :: l2).length := by rw [← h3]
    rw [hl] at this
    simp at this
    omega

theorem IsChain.length_le {h : Heap V} {s : Option Addr} {l : List Addr}
    (hc : IsChain h s l) : l.length ≤ h.length := by
  have hsub : l.Subperm (List.range h.length) :=
    hc.nodup.subperm (fun x hx => List.mem_range.2 (hc.lt x hx))
  simpa using hsub.length_le

theorem chainFrom_eq_some {h : Heap V} {fuel : Nat} {s : Option Addr} {l : List Addr} :
    chainFrom h fuel s = some l ↔ IsChain h s l ∧ l.length ≤ fuel := by
  induction fuel generalizing s l with
  | zero =>
    cases s with
    | none =>
      simp only [chainFrom]
      constructor
      · intro hh; cases hh; exact ⟨IsChain.nil, Nat.le_refl _⟩
      · rintro ⟨hc, -⟩; cases hc; rfl
    | some a =>
      simp only [chainFrom]
      constructor
      · intro hh; cases hh
      · rintro ⟨hc, hlen⟩; cases hc; simp at hlen
  | succ n ih =>
    cases s with
    | none =>
      simp only [chainFrom]
      constructor
      · intro hh; cases hh; exact ⟨IsChain.nil, Nat.zero_le _⟩
      · rintro ⟨hc, -⟩; cases hc; rfl
    | some a =>
      simp only [chainFrom]
      cases ha : h[a]? with
      | none =>
        simp only []
        constructor
        · intro hh; cases hh
        · rintro ⟨hc, -⟩
          cases hc with
          | cons ha2 _ => rw [ha] at ha2; cases ha2
      | some p =>
        simp only [Option.map_eq_some']
        constructor
        · rintro ⟨l0, hl0, rfl⟩
          obtain ⟨hc, hlen⟩ := ih.1 hl0
          exact ⟨IsChain.cons ha hc, by simpa using hlen⟩
        · rintro ⟨hc, hlen⟩
          cases hc with
          | @cons _ p2 l0 ha2 hc0 =>
            rw [ha] at ha2
            cases ha2
            exact ⟨l0, ih.2 ⟨hc0, by simpa using hlen⟩, rfl⟩

theorem bucket.chain_eq_some {b : bucket} {h : Heap V} {l : List Addr} :
    b.chain h = some l ↔ IsChain h b.headValue l := by
  unfold bucket.chain bucket.GetFirstPair
  rw [chainFrom_eq_some]
  exact ⟨fun hh => hh.1, fun hh => ⟨hh, hh.length_le⟩⟩


/-! ### Accessors after a heap update -/

theorem getElem?_SetElement (h : Heap V) (a : Addr) (v : V) (x : Addr) :
    (SetElement h a v)[x]? =
      if x = a then (h[a]?).map (fun p => { p with element := v }) else h[x]? := by
  unfold SetElement
  cases ha : h[a]? with
  | none =>
    by_cases hx : x = a
    · subst hx; simp [ha]
    · simp [hx]
  | some p =>
    by_cases hx : x = a
    · subst hx
      have hlt : x < h.length := by
        by_contra hlt
        rw [List.getElem?_eq_none (Nat.le_of_not_lt hlt)] at ha
        cases ha
      simp [List.getElem?_set, hlt]
    · have hx2 : ¬ a = x := fun e => hx e.symm
      simp [List.getElem?_set, hx, hx2]

theorem getElem?_SetNext (h : Heap V) (a : Addr) (n : Option Addr) (x : Addr) :
    (SetNext h a n)[x]? =
      if x = a then (h[a]?).map (fun p => { p with next := n }) else h[x]? := by
  unfold SetNext
  cases ha : h[a]? with
  | none =>
    by_cases hx : x = a
    · subst hx; simp [ha]
    · simp [hx]
  | some p =>
    by_cases hx : x = a
    · subst hx
      have hlt : x < h.length := by
        by_contra hlt
        rw [List.getElem?_eq_none (Nat.le_of_not_lt hlt)] at ha
        cases ha
      simp [List.getElem?_set, hlt]
    · have hx2 : ¬ a = x := fun e => hx e.symm
      simp [List.getElem?_set, hx, hx2]

@[simp] theorem length_SetElement (h : Heap V) (a : Addr) (v : V) :
    (SetElement h a v).length = h.length := by
  unfold SetElement
  cases h[a]? <;> simp

@[simp] theorem length_SetNext (h : Heap V) (a : Addr) (n : Option Addr) :
    (SetNext h a n).length = h.length := by
  unfold SetNext
  cases h[a]? <;> simp

@[simp] theorem keyAt_SetElement (h : Heap V) (a : Addr) (v : V) (x : Addr) :
    keyAt (SetElement h a v) x = keyAt h x := by
  unfold keyAt
  rw [getElem?_SetElement]
  by_cases hx : x = a
  · subst hx; cases h[x]? <;> simp
  · simp [hx]

@[simp] theorem nextAt_SetElement (h : Heap V) (a : Addr) (v : V) (x : Addr) :
    nextAt (SetElement h a v) x = nextAt h x := by
  unfold nextAt
  rw [getElem?_SetElement]
  by_cases hx : x = a
  · subst hx; cases h[x]? <;> simp
  · simp [hx]

@[simp] theorem hashAt_SetElement (h : Heap V) (a : Addr) (v : V) (x : Addr) :
    hashAt (SetElement h a v) x = hashAt h x := by
  unfold hashAt
  rw [getElem?_SetElement]
  by_cases hx : x = a
  · subst hx; cases h[x]? <;> simp
  · simp [hx]

theorem elementAt_SetElement (h : Heap V) (a : Addr) (v : V) (x : Addr) :
    elementAt (SetElement h a v) x =
      if x = a then (h[a]?).map (fun _ => v) else elementAt h x := by
  unfold elementAt
  rw [getElem?_SetElement]
  by_cases hx : x = a
  · subst hx; cases h[x]? <;> simp
  · simp [hx]

@[simp] theorem keyAt_SetNext (h : Heap V) (a : Addr) (n : Option Addr) (x : Addr) :
    keyAt (SetNext h a n) x = keyAt h x := by
  unfold keyAt
  rw [getElem?_SetNext]
  by_cases hx : x = a
  · subst hx; cases h[x]? <;> simp
  · simp [hx]

@[simp] theorem elementAt_SetNext (h : Heap V) (a : Addr) (n : Option Addr) (x : Addr) :
    elementAt (SetNext h a n) x = elementAt h x := by
  unfold elementAt
  rw [getElem?_SetNext]
  by_cases hx : x = a
  · subst hx; cases h[x]? <;> simp
  · simp [hx]

@[simp] theorem hashAt_SetNext (h : Heap V) (a : Addr) (n : Option Addr) (x : Addr) :
    hashAt (SetNext h a n) x = hashAt h x := by
  unfold hashAt
  rw [getElem?_SetNext]
  by_cases hx : x = a
  · subst hx; cases h[x]? <;> simp
  · simp [hx]

theorem nextAt_SetNext (h : Heap V) (a : Addr) (n : Option Addr) (x : Addr) :
    nextAt (SetNext h a n) x =
      if x = a then (h[a]?).map (fun _ => n) else nextAt h x := by
  unfold nextAt
  rw [getElem?_SetNext]
  by_cases hx : x = a
  · subst hx; cases h[x]? <;> simp
  · simp [hx]

theorem getElem?_append_of_lt (h : Heap V) (p : Pair V) {x : Addr} (hx : x < h.length) :
    (h ++ [p])[x]? = h[x]? := by
  rw [List.getElem?_append_left hx]

theorem getElem?_append_length (h : Heap V) (p : Pair V) :
    (h ++ [p])[h.length]? = some p := by
  simp

/-! ### Chains are stable under updates that keep their links -/

theorem IsChain.congr {h h1 : Heap V} {s : Option Addr} {l : List Addr}
    (hc : IsChain h s l) (hn : ∀ a ∈ l, nextAt h1 a = nextAt h a) : IsChain h1 s l := by
  induction hc with
  | nil => exact IsChain.nil
  | @cons a p l0 ha _ ih =>
    have h1a := hn a (List.mem_cons_self _ _)
    unfold nextAt at h1a
    rw [ha] at h1a
    cases hp1 : h1[a]? with
    | none => rw [hp1] at h1a; cases h1a
    | some p1 =>
      rw [hp1] at h1a
      simp only [Option.map_some', Option.some.injEq] at h1a
      refine IsChain.cons hp1 ?_
      rw [h1a]
      exact ih (fun x hx => hn x (List.mem_cons_of_mem _ hx))

theorem IsChain.setElement {h : Heap V} {s : Option Addr} {l : List Addr}
    (hc : IsChain h s l) (a : Addr) (v : V) : IsChain (SetElement h a v) s l :=
  hc.congr (fun _ _ => nextAt_SetElement h a v _)

theorem IsChain.setNext {h : Heap V} {s : Option Addr} {l : List Addr}
    (hc : IsChain h s l) {a : Addr} (n : Option Addr) (ha : a ∉ l) :
    IsChain (SetNext h a n) s l := by
  refine hc.congr (fun x hx => ?_)
  rw [nextAt_SetNext]
  have : x ≠ a := fun e => ha (e ▸ hx)
  simp [this]

theorem IsChain.append {h : Heap V} {s : Option Addr} {l : List Addr}
    (hc : IsChain h s l) (p : Pair V) : IsChain (h ++ [p]) s l := by
  refine hc.congr (fun x hx => ?_)
  unfold nextAt
  rw [getElem?_append_of_lt h p (hc.lt x hx)]

/-! ### The scanning loops on a chain -/

theorem scanKey_of_isChain {h : Heap V} {key : String} {s : Option Addr} {l : List Addr}
    (hc : IsChain h s l) : ∀ fuel, l.length ≤ fuel →
      scanKey h key fuel s = some (findKey h key l) := by
  induction hc with
  | nil => intro fuel _; cases fuel <;> simp [scanKey, findKey]
  | @cons a p l0 ha _ ih =>
    intro fuel hlen
    cases fuel with
    | zero => simp at hlen
    | succ n =>
      have hl0 : l0.length ≤ n := by simpa using hlen
      simp only [scanKey, ha]
      by_cases hk : p.key = key
      · simp [findKey, keyAt, ha, hk]
      · rw [if_neg hk, ih n hl0]
        simp [findKey, keyAt, ha, hk]

theorem bucket.Get_of_chain {b : bucket} {h : Heap V} {l : List Addr}
    (hc : b.chain h = some l) (key : String) : b.Get h key = some (findKey h key l) := by
  have hc1 := bucket.chain_eq_some.1 hc
  unfold bucket.Get bucket.GetFirstPair
  cases hb : b.headValue with
  | none =>
    rw [hb] at hc1
    cases hc1
    rfl
  | some a =>
    rw [hb] at hc1
    exact scanKey_of_isChain hc1 _ hc1.length_le

/-! ### Construction -/

theorem newSegment_default (r : Option pairRedistributorImpl) :
    ∃ s, newSegment DefaultBucketNum r = some s ∧ s.pairTotal = 0 ∧
      s.buckets = List.replicate DefaultBucketNum newBucket := by
  cases r with
  | some pr => exact ⟨_, rfl, rfl, rfl⟩
  | none =>
    simp [newSegment, newDefaultPairRedistributor, pairRedistributorImpl.UpdateThreshold,
      DefaultBucketNum]

theorem newSegments_eq (r : Option pairRedistributorImpl) (n : Nat) :
    ∃ segs, newSegments r n = some segs ∧ segs.length = n ∧
      ∀ s ∈ segs, newSegment DefaultBucketNum r = some s := by
  induction n with
  | zero => exact ⟨[], rfl, rfl, by simp⟩
  | succ n ih =>
    obtain ⟨segs, hs, hl, hall⟩ := ih
    obtain ⟨s, hseg, -, -⟩ := newSegment_default r
    refine ⟨s :: segs, ?_, by simp [hl], ?_⟩
    · simp [newSegments, hseg, hs]
    · intro x hx
      rcases List.mem_cons.1 hx with rfl | hx
      · exact hseg
      · exact hall x hx

/-- C5: `NewConcurrentMap(concurrency, r)` always returns; it returns an
illegal-parameter error together with no map exactly when `concurrency <= 0` or
`concurrency > 65536`, and for every other concurrency it returns, with no error, a map
whose `Concurrency()` is the argument and whose `Len()` is 0. -/
theorem NewConcurrentMap_spec (concurrency : Int) (r : Option pairRedistributorImpl) :
    ∃ res, NewConcurrentMap concurrency r = some res ∧
      ((∃ msg, res.err = some (Error.illegalParameter msg)) ↔
        (concurrency ≤ 0 ∨ concurrency > 65536)) ∧
      (res.cmap = none ↔ (concurrency ≤ 0 ∨ concurrency > 65536)) ∧
      (¬ (concurrency ≤ 0 ∨ concurrency > 65536) →
        res.err = none ∧
        ∃ cm, res.cmap = some cm ∧ cm.Concurrency = concurrency ∧ cm.Len = 0) := by
  unfold NewConcurrentMap
  by_cases h0 : concurrency ≤ 0
  · rw [if_pos h0]
    exact ⟨_, rfl, by simp [h0], by simp [h0], fun hn => absurd (Or.inl h0) hn⟩
  · rw [if_neg h0]
    by_cases h1 : concurrency > MaxConcurrency
    · rw [if_pos h1]
      have h1b : concurrency > 65536 := h1
      exact ⟨_, rfl, by simp [h1b], by simp [h1b], fun hn => absurd (Or.inr h1b) hn⟩
    · rw [if_neg h1]
      have h1b : ¬ concurrency > 65536 := h1
      obtain ⟨segs, hs, -, -⟩ := newSegments_eq r concurrency.toNat
      rw [hs]
      refine ⟨_, rfl, ?_, ?_, ?_⟩
      · simp [h0, h1b]
      · simp [h0, h1b]
      · intro _
        exact ⟨rfl, _, rfl, rfl, rfl⟩

/-- C9: `Bucket.Put(nil, lock)` returns `(false, illegal-parameter error)` for every
bucket and every lock argument, with heap, bucket (head, chain, `Size()`) and lock left
exactly as they were (the lock is not acquired); and whenever `Put` of a non-nil pair
returns, its error is nil. -/
theorem bucket_Put_nil (b : bucket) (h : Heap V) (lock : Option Nat) :
    (∃ msg, b.Put h none lock =
        some { added := false, err := some (Error.illegalParameter msg), heap := h,
               bkt := b, lock := lock }) ∧
      ∀ (pa : Addr) (r : PutResult V), b.Put h (some pa) lock = some r → r.err = none := by
  refine ⟨⟨_, rfl⟩, ?_⟩
  intro pa r hr
  unfold bucket.Put at hr
  simp only [] at hr
  split at hr
  · cases hr; rfl
  · split at hr
    · cases hr
    · split at hr
      · cases hr
      · cases hr; rfl
      · cases hr; rfl

/-! ### Searching a chain by key -/

theorem findKey_eq_none {h : Heap V} {key : String} {l : List Addr} :
    findKey h key l = none ↔ ∀ t ∈ l, keyAt h t ≠ some key := by
  simp [findKey]

theorem findKey_some {h : Heap V} {key : String} {l : List Addr} {t : Addr}
    (hf : findKey h key l = some t) : t ∈ l ∧ keyAt h t = some key := by
  unfold findKey at hf
  exact ⟨List.mem_of_find?_eq_some hf, by simpa using List.find?_some hf⟩

theorem findKey_of_mem {h : Heap V} {key : String} {l : List Addr} {t : Addr}
    (huniq : (l.map (keyAt h)).Nodup) (ht : t ∈ l) (hk : keyAt h t = some key) :
    findKey h key l = some t := by
  induction l with
  | nil => cases ht
  | cons a l0 ih =>
    rw [List.map_cons, List.nodup_cons] at huniq
    rcases List.mem_cons.1 ht with rfl | ht0
    · simp [findKey, hk]
    · have hne : keyAt h a ≠ some key := by
        intro ha
        exact huniq.1 (List.mem_map.2 ⟨t, ht0, by rw [hk, ha]⟩)
      have := ih huniq.2 ht0
      simp only [findKey] at this ⊢
      rw [List.find?_cons_of_neg _ (by simpa using hne)]
      exact this

theorem findKey_congr {h h1 : Heap V} (key : String) {l : List Addr}
    (hk : ∀ a ∈ l, keyAt h1 a = keyAt h a) : findKey h1 key l = findKey h key l := by
  induction l with
  | nil => rfl
  | cons a l0 ih =>
    have ha := hk a (List.mem_cons_self _ _)
    have ih1 := ih (fun x hx => hk x (List.mem_cons_of_mem _ hx))
    simp only [findKey] at ih1 ⊢
    simp only [List.find?_cons, ha, ih1]

theorem keyAt_eq_some_of_getElem? {h : Heap V} {a : Addr} {p : Pair V}
    (ha : h[a]? = some p) : keyAt h a = some p.key := by
  simp [keyAt, ha]


/-! ### The three outcomes of `bucket.Put` -/

theorem bucket.Put_empty {b : bucket} (h : Heap V) (pa : Addr) (lock : Option Nat)
    (hb : b.headValue = none) :
    b.Put h (some pa) lock =
      some { added := true, err := none, heap := h,
             bkt := { headValue := some pa, size := (b.size + 1) % u64 },
             lock := useLock lock } := by
  simp [bucket.Put, bucket.GetFirstPair, hb]

theorem bucket.Put_found {b : bucket} {h : Heap V} {l : List Addr} {pa t : Addr}
    {pp : Pair V} (lock : Option Nat) (hc : IsChain h b.headValue l)
    (hp : h[pa]? = some pp) (hf : findKey h pp.key l = some t) :
    b.Put h (some pa) lock =
      some { added := false, err := none, heap := SetElement h t pp.element,
             bkt := b, lock := useLock lock } := by
  cases hb : b.headValue with
  | none =>
    rw [hb] at hc
    cases hc
    cases hf
  | some hd =>
    rw [hb] at hc
    simp [bucket.Put, bucket.GetFirstPair, hb, hp, scanKey_of_isChain hc _ hc.length_le, hf]

theorem bucket.Put_insert {b : bucket} {h : Heap V} {l : List Addr} {pa hd : Addr}
    {pp : Pair V} (lock : Option Nat) (hb : b.headValue = some hd)
    (hc : IsChain h b.headValue l)
    (hp : h[pa]? = some pp) (hf : findKey h pp.key l = none) :
    b.Put h (some pa) lock =
      some { added := true, err := none, heap := SetNext h pa (some hd),
             bkt := { headValue := some pa, size := (b.size + 1) % u64 },
             lock := useLock lock } := by
  rw [hb] at hc
  simp [bucket.Put, bucket.GetFirstPair, hb, hp, scanKey_of_isChain hc _ hc.length_le, hf]

theorem elementAt_eq_some_of_getElem? {h : Heap V} {a : Addr} {p : Pair V}
    (ha : h[a]? = some p) : elementAt h a = some p.element := by
  simp [elementAt, ha]

/-- C7, amended: `Bucket.Put` of a non-nil pair `p` whose `next` is unset, on a bucket whose
chain `l` has unique keys, returns without error.  If a pair `t` of the chain has `p`'s
key, `t`'s element becomes `p.Element()`, the bucket (head and `Size()`) and the chain
are unchanged and `added = false`.  Otherwise `p` becomes the head, `p.Next()` is the
previous head, the chain is `p` followed by the old chain, `added = true` and `Size()`
is the old `Size()` plus one in `uint64` arithmetic (exactly one more unless the counter
was `2 ^ 64 - 1`).  In both cases `Get(p.Key())` then returns a pair holding `p`'s
element, and `Get` of every other key returns the pair it returned before, with its key
and element unchanged. -/
theorem bucket_Put_spec (b : bucket) (h : Heap V) (l : List Addr) (pa : Addr)
    (pp : Pair V) (lock : Option Nat)
    (hchain : b.chain h = some l) (huniq : (l.map (keyAt h)).Nodup)
    (hp : h[pa]? = some pp) (hnext : pp.next = none) :
    ∃ r, b.Put h (some pa) lock = some r ∧ r.err = none ∧
      (∀ t ∈ l, keyAt h t = some pp.key →
        r.added = false ∧ r.bkt = b ∧ r.bkt.chain r.heap = some l ∧
        elementAt r.heap t = some pp.element) ∧
      ((∀ t ∈ l, keyAt h t ≠ some pp.key) →
        r.added = true ∧ r.bkt.GetFirstPair = some pa ∧
        nextAt r.heap pa = some b.GetFirstPair ∧
        r.bkt.chain r.heap = some (pa :: l) ∧
        r.bkt.Size = (b.Size + 1) % u64 ∧ (b.Size + 1 < u64 → r.bkt.Size = b.Size + 1)) ∧
      (∃ g, r.bkt.Get r.heap pp.key = some (some g) ∧
        elementAt r.heap g = some pp.element) ∧
      (∀ k, k ≠ pp.key → r.bkt.Get r.heap k = b.Get h k ∧
        ∀ g, b.Get h k = some (some g) →
          keyAt r.heap g = keyAt h g ∧ elementAt r.heap g = elementAt h g) := by
  have hc := bucket.chain_eq_some.1 hchain
  have hpk := keyAt_eq_some_of_getElem? hp
  cases hf : findKey h pp.key l with
  | some t =>
    -- the key exists: its pair is updated in place
    obtain ⟨htl, htk⟩ := findKey_some hf
    have htlt := hc.lt t htl
    have hc1 : IsChain (SetElement h t pp.element) b.headValue l := hc.setElement t _
    have hchain1 : b.chain (SetElement h t pp.element) = some l :=
      bucket.chain_eq_some.2 hc1
    have hel : elementAt (SetElement h t pp.element) t = some pp.element := by
      rw [elementAt_SetElement, if_pos rfl]
      obtain ⟨pt, hpt⟩ : ∃ pt, h[t]? = some pt :=
        ⟨h[t], List.getElem?_eq_getElem htlt⟩
      simp [hpt]
    refine ⟨_, bucket.Put_found lock hc hp hf, rfl, ?_, ?_, ?_, ?_⟩
    · intro t1 ht1 hk1
      have : findKey h pp.key l = some t1 := findKey_of_mem huniq ht1 hk1
      rw [hf] at this
      cases this
      exact ⟨rfl, rfl, hchain1, hel⟩
    · intro hno
      exact absurd htk (hno t htl)
    · refine ⟨t, ?_, hel⟩
      show b.Get (SetElement h t pp.element) pp.key = some (some t)
      rw [bucket.Get_of_chain hchain1, findKey_congr pp.key (fun a _ => keyAt_SetElement h t _ a),
        hf]
    · intro k hk
      show b.Get (SetElement h t pp.element) k = b.Get h k ∧ _
      rw [bucket.Get_of_chain hchain1, bucket.Get_of_chain hchain,
        findKey_congr k (fun a _ => keyAt_SetElement h t _ a)]
      refine ⟨rfl, ?_⟩
      intro g hg
      have hg1 : findKey h k l = some g := by simpa using hg
      obtain ⟨-, hgk⟩ := findKey_some hg1
      have hne : g ≠ t := by
        rintro rfl
        rw [htk] at hgk
        exact hk (Option.some.inj hgk).symm
      show keyAt (SetElement h t pp.element) g = keyAt h g ∧
        elementAt (SetElement h t pp.element) g = elementAt h g
      rw [keyAt_SetElement, elementAt_SetElement, if_neg hne]
      exact ⟨rfl, rfl⟩
  | none =>
    have hno := findKey_eq_none.1 hf
    have hpal : pa ∉ l := fun hmem => hno pa hmem hpk
    cases hb : b.headValue with
    | none =>
      -- empty bucket: the pair becomes the head
      have hl : l = [] := by
        rw [hb] at hc
        cases hc
        rfl
      subst hl
      have hc1 : IsChain h (some pa) [pa] := by
        refine IsChain.cons hp ?_
        rw [hnext]
        exact IsChain.nil
      have hchain1 : ({ headValue := some pa, size := (b.size + 1) % u64 } : bucket).chain h
          = some [pa] := bucket.chain_eq_some.2 hc1
      refine ⟨_, bucket.Put_empty h pa lock hb, rfl, ?_, ?_, ?_, ?_⟩
      · intro t ht
        cases ht
      · intro _
        refine ⟨rfl, rfl, ?_, hchain1, rfl, ?_⟩
        · simp [nextAt, hp, hnext, bucket.GetFirstPair, hb]
        · intro hlt
          show (b.size + 1) % u64 = b.size + 1
          exact Nat.mod_eq_of_lt hlt
      · refine ⟨pa, ?_, elementAt_eq_some_of_getElem? hp⟩
        show bucket.Get _ h pp.key = some (some pa)
        rw [bucket.Get_of_chain hchain1]
        simp [findKey, hpk]
      · intro k hk
        show bucket.Get _ h k = b.Get h k ∧ _
        rw [bucket.Get_of_chain hchain1, bucket.Get_of_chain hchain]
        have hk2 : ¬ pp.key = k := fun e => hk e.symm
        refine ⟨by simp [findKey, hpk, hk2], ?_⟩
        intro g hg
        simp [findKey] at hg
    | some hd =>
      -- the key is new: the pair is linked in front of the old head
      have hc0 : IsChain (SetNext h pa (some hd)) b.headValue l := hc.setNext _ hpal
      have hpa1 : (SetNext h pa (some hd))[pa]? = some { pp with next := some hd } := by
        rw [getElem?_SetNext, if_pos rfl, hp]
        rfl
      have hc1 : IsChain (SetNext h pa (some hd)) (some pa) (pa :: l) := by
        refine IsChain.cons hpa1 ?_
        rw [hb] at hc0
        exact hc0
      have hchain1 : ({ headValue := some pa, size := (b.size + 1) % u64 } : bucket).chain
          (SetNext h pa (some hd)) = some (pa :: l) := bucket.chain_eq_some.2 hc1
      have hkeys : ∀ a ∈ l, keyAt (SetNext h pa (some hd)) a = keyAt h a :=
        fun a _ => keyAt_SetNext h pa _ a
      have hpk1 : keyAt (SetNext h pa (some hd)) pa = some pp.key := by
        rw [keyAt_SetNext]
        exact hpk
      refine ⟨_, bucket.Put_insert lock hb hc hp hf, rfl, ?_, ?_, ?_, ?_⟩
      · intro t ht hk
        exact absurd hk (hno t ht)
      · intro _
        refine ⟨rfl, rfl, ?_, hchain1, rfl, ?_⟩
        · simp [nextAt, hpa1, bucket.GetFirstPair, hb]
        · intro hlt
          show (b.size + 1) % u64 = b.size + 1
          exact Nat.mod_eq_of_lt hlt
      · refine ⟨pa, ?_, ?_⟩
        · show bucket.Get _ (SetNext h pa (some hd)) pp.key = some (some pa)
          rw [bucket.Get_of_chain hchain1]
          simp only [findKey]
          rw [List.find?_cons_of_pos _ (by simp [hpk1])]
        · show elementAt (SetNext h pa (some hd)) pa = some pp.element
          rw [elementAt_SetNext]
          exact elementAt_eq_some_of_getElem? hp
      · intro k hk
        show bucket.Get _ (SetNext h pa (some hd)) k = b.Get h k ∧ _
        rw [bucket.Get_of_chain hchain1, bucket.Get_of_chain hchain]
        have hk2 : ¬ pp.key = k := fun e => hk e.symm
        have hfk : findKey (SetNext h pa (some hd)) k (pa :: l) = findKey h k l := by
          have := findKey_congr k hkeys
          simp only [findKey] at this ⊢
          rw [List.find?_cons_of_neg _ (by simp [hpk1, hk2])]
          exact this
        refine ⟨by rw [hfk], ?_⟩
        intro g _
        show keyAt (SetNext h pa (some hd)) g = keyAt h g ∧
          elementAt (SetNext h pa (some hd)) g = elementAt h g
        rw [keyAt_SetNext, elementAt_SetNext]
        exact ⟨rfl, rfl⟩

/-! ### The loops of `bucket.Delete` -/

theorem scanDelete_absent {h : Heap V} {key : String} {s : Option Addr} {l : List Addr}
    (hc : IsChain h s l) (hno : ∀ a ∈ l, keyAt h a ≠ some key) :
    ∀ fuel prev, l.length ≤ fuel → scanDelete h key fuel s prev = some (prev ++ l, none) := by
  induction hc with
  | nil => intro fuel prev _; cases fuel <;> simp [scanDelete]
  | @cons a p l0 ha _ ih =>
    intro fuel prev hlen
    cases fuel with
    | zero => simp at hlen
    | succ n =>
      have hk : ¬ p.key = key := by
        intro e
        exact hno a (List.mem_cons_self _ _) (by simp [keyAt, ha, e])
      simp only [scanDelete, ha, if_neg hk]
      rw [ih (fun x hx => hno x (List.mem_cons_of_mem _ hx)) n (prev ++ [a])
        (by simpa using hlen)]
      simp

theorem scanDelete_present {h : Heap V} {key : String} {t : Addr} {suf : List Addr} :
    ∀ (pre : List Addr) (s : Option Addr), IsChain h s (pre ++ t :: suf) →
      (∀ a ∈ pre, keyAt h a ≠ some key) → keyAt h t = some key →
      ∀ fuel prev, (pre ++ t :: suf).length ≤ fuel →
        ∃ pt, h[t]? = some pt ∧ IsChain h pt.next suf ∧
          scanDelete h key fuel s prev = some (prev ++ pre, some (t, pt.next)) := by
  intro pre
  induction pre with
  | nil =>
    intro s hc _ ht fuel prev hlen
    cases hc with
    | @cons _ p _ ha hc0 =>
      cases fuel with
      | zero => simp at hlen
      | succ n =>
        have hk : p.key = key := by simpa [keyAt, ha] using ht
        exact ⟨p, ha, hc0, by simp [scanDelete, ha, hk]⟩
  | cons a pre0 ih =>
    intro s hc hpre ht fuel prev hlen
    cases hc with
    | @cons _ p _ ha hc0 =>
      cases fuel with
      | zero => simp at hlen
      | succ n =>
        have hk : ¬ p.key = key := by
          intro e
          exact hpre a (List.mem_cons_self _ _) (by simp [keyAt, ha, e])
        obtain ⟨pt, hpt, hsuf, hscan⟩ :=
          ih p.next hc0 (fun x hx => hpre x (List.mem_cons_of_mem _ hx)) ht n
            (prev ++ [a]) (by simpa using hlen)
        refine ⟨pt, hpt, hsuf, ?_⟩
        simp only [scanDelete, ha, if_neg hk, hscan]
        simp

theorem SetNext_append_length (h : Heap V) (p : Pair V) (n : Option Addr) :
    SetNext (h ++ [p]) h.length n = h ++ [{ p with next := n }] := by
  unfold SetNext
  simp

theorem tripleAt_append_of_lt (h ext : Heap V) {x : Addr} (hx : x < h.length) :
    tripleAt (h ++ ext) x = tripleAt h x := by
  unfold tripleAt
  rw [List.getElem?_append_left hx]

theorem IsChain.append_list {h : Heap V} {s : Option Addr} {l : List Addr}
    (hc : IsChain h s l) (ext : Heap V) : IsChain (h ++ ext) s l := by
  refine hc.congr (fun x hx => ?_)
  unfold nextAt
  rw [List.getElem?_append_left (hc.lt x hx)]

/-- The rebuilding loop only appends cells: it returns the old heap extended by one copy
per prefix pair, and the new head starts a chain of those copies, carrying the same
key, hash and element in the original order, followed by the untouched suffix. -/
theorem rebuild_spec : ∀ (rev : List Addr) (h : Heap V) (nh : Option Addr) (suf : List Addr),
    IsChain h nh suf → (∀ a ∈ rev, a < h.length) →
    ∃ ext nh1 copies, rebuild h rev nh = some (h ++ ext, nh1) ∧
      IsChain (h ++ ext) nh1 (copies ++ suf) ∧
      copies.map (tripleAt (h ++ ext)) = rev.reverse.map (tripleAt h) ∧
      (∀ c ∈ copies, h.length ≤ c) := by
  intro rev
  induction rev with
  | nil =>
    intro h nh suf hc _
    exact ⟨[], nh, [], by simp [rebuild], by simpa using hc, by simp, by simp⟩
  | cons a rest ih =>
    intro h nh suf hc hlt
    have ha : a < h.length := hlt a (List.mem_cons_self _ _)
    have hpa : h[a]? = some h[a] := List.getElem?_eq_getElem ha
    set cell : Pair V := { h[a] with next := nh } with hcell
    have hcopy : Copy h a = some (h ++ [{ h[a] with next := none }], h.length) := by
      simp [Copy, hpa]
    have hset : SetNext (h ++ [{ h[a] with next := none }]) h.length nh = h ++ [cell] :=
      SetNext_append_length h _ nh
    have hc1 : IsChain (h ++ [cell]) (some h.length) (h.length :: suf) := by
      refine IsChain.cons (getElem?_append_length h cell) ?_
      exact hc.append cell
    have hlt1 : ∀ x ∈ rest, x < (h ++ [cell]).length := by
      intro x hx
      have := hlt x (List.mem_cons_of_mem _ hx)
      rw [List.length_append, List.length_singleton]
      exact Nat.lt_succ_of_lt this
    obtain ⟨ext, nh1, copies, hr, hch, htr, hge⟩ :=
      ih (h ++ [cell]) (some h.length) (h.length :: suf) hc1 hlt1
    refine ⟨cell :: ext, nh1, copies ++ [h.length], ?_, ?_, ?_, ?_⟩
    · simp only [rebuild, hcopy, hset, hr]
      simp
    · simpa using hch
    · have e1 : h ++ cell :: ext = (h ++ [cell]) ++ ext := by simp
      rw [e1, List.map_append, htr, List.reverse_cons, List.map_append]
      congr 1
      · refine List.map_congr_left (fun x hx => ?_)
        have hx1 : x < h.length := hlt x (List.mem_cons_of_mem _ (List.mem_reverse.1 hx))
        exact tripleAt_append_of_lt h [cell] hx1
      · have hl : h.length < (h ++ [cell]).length := by simp
        simp only [List.map_cons, List.map_nil]
        rw [tripleAt_append_of_lt (h ++ [cell]) ext hl]
        simp [tripleAt, hpa, hcell]
    · intro c hc2
      rcases List.mem_append.1 hc2 with hc3 | hc3
      · have := hge c hc3
        rw [List.length_append, List.length_singleton] at this
        exact Nat.le_of_succ_le this
      · simp at hc3
        exact Nat.le_of_eq hc3.symm


theorem bucket.Delete_absent {b : bucket} {h : Heap V} {l : List Addr} {key : String}
    (lock : Option Nat) (hc : IsChain h b.headValue l)
    (hno : ∀ a ∈ l, keyAt h a ≠ some key) :
    b.Delete h key lock =
      some { deleted := false, heap := h, bkt := b, lock := useLock lock } := by
  cases hb : b.headValue with
  | none => simp [bucket.Delete, bucket.GetFirstPair, hb]
  | some hd =>
    rw [hb] at hc
    simp [bucket.Delete, bucket.GetFirstPair, hb,
      scanDelete_absent hc hno h.length [] hc.length_le]

theorem bucket.Delete_present {b : bucket} {h : Heap V} {key : String} {t : Addr}
    {pre suf : List Addr} (lock : Option Nat)
    (hc : IsChain h b.headValue (pre ++ t :: suf))
    (hpre : ∀ a ∈ pre, keyAt h a ≠ some key) (ht : keyAt h t = some key) :
    ∃ ext nh copies,
      b.Delete h key lock =
        some { deleted := true, heap := h ++ ext,
               bkt := { headValue := nh, size := (b.size + (u64 - 1)) % u64 },
               lock := useLock lock } ∧
      IsChain (h ++ ext) nh (copies ++ suf) ∧
      copies.map (tripleAt (h ++ ext)) = pre.map (tripleAt h) ∧
      (∀ c ∈ copies, h.length ≤ c) := by
  cases hb : b.headValue with
  | none =>
    rw [hb] at hc
    cases pre <;> cases hc
  | some hd =>
    have hlt := hc.lt
    have hlen := hc.length_le
    rw [hb] at hc
    obtain ⟨pt, -, hsuf, hscan⟩ := scanDelete_present pre (some hd) hc hpre ht h.length [] hlen
    have hltrev : ∀ a ∈ pre.reverse, a < h.length := fun a ha =>
      hlt a (List.mem_append_left _ (List.mem_reverse.1 ha))
    obtain ⟨ext, nh, copies, hr, hch, htr, hge⟩ :=
      rebuild_spec pre.reverse h pt.next suf hsuf hltrev
    refine ⟨ext, nh, copies, ?_, hch, by simpa using htr, hge⟩
    simp [bucket.Delete, bucket.GetFirstPair, hb, hscan, hr]

theorem split_of_mem_unique {h : Heap V} {key : String} {l : List Addr} {t : Addr}
    (huniq : (l.map (keyAt h)).Nodup) (ht : t ∈ l) (hk : keyAt h t = some key) :
    ∃ pre suf, l = pre ++ t :: suf ∧ (∀ a ∈ pre, keyAt h a ≠ some key) ∧
      l.erase t = pre ++ suf := by
  have hf := findKey_of_mem huniq ht hk
  unfold findKey at hf
  obtain ⟨-, pre, suf, hl, hpre⟩ := List.find?_eq_some.1 hf
  refine ⟨pre, suf, hl, fun a ha => by simpa using hpre a ha, ?_⟩
  have htpre : t ∉ pre := by
    intro hmem
    have := hpre t hmem
    simp [hk] at this
  rw [hl, List.erase_append_right _ htpre, List.erase_cons_head]

/-- C8, amended: `Bucket.Delete(key, nil)` on a bucket whose chain `l` has unique keys always
returns.  If no pair has the key it returns false and leaves the heap and the bucket
(head, chain, `Size()`) as they were.  If the pair `t` of the chain has the key it
returns true, `Size()` is the old `Size()` minus one in `uint64` arithmetic (exactly
one less when the counter was positive), and the (key, hash, element) triples read
from the new head are those of the old chain with `t` removed, in the same order; the
new head is the empty sentinel when nothing remains. -/
theorem bucket_Delete_spec (b : bucket) (h : Heap V) (l : List Addr) (key : String)
    (hchain : b.chain h = some l) (huniq : (l.map (keyAt h)).Nodup) :
    ∃ r, b.Delete h key none = some r ∧
      ((∀ t ∈ l, keyAt h t ≠ some key) →
        r.deleted = false ∧ r.bkt = b ∧ r.heap = h) ∧
      (∀ t ∈ l, keyAt h t = some key →
        r.deleted = true ∧
        r.bkt.Size = (b.Size + (u64 - 1)) % u64 ∧
        (0 < b.Size → b.Size < u64 → r.bkt.Size = b.Size - 1) ∧
        (∃ l1, r.bkt.chain r.heap = some l1 ∧
          l1.map (tripleAt r.heap) = (l.erase t).map (tripleAt h)) ∧
        (l.erase t = [] → r.bkt.GetFirstPair = none)) := by
  have hc := bucket.chain_eq_some.1 hchain
  by_cases hex : ∃ t ∈ l, keyAt h t = some key
  · obtain ⟨t, htl, htk⟩ := hex
    obtain ⟨pre, suf, hl, hpre, herase⟩ := split_of_mem_unique huniq htl htk
    rw [hl] at hc
    obtain ⟨ext, nh, copies, hdel, hch, htr, -⟩ := bucket.Delete_present none hc hpre htk
    have hlt := hc.lt
    refine ⟨_, hdel, fun hno => absurd htk (hno t htl), ?_⟩
    intro t1 ht1 hk1
    have ht1eq : t1 = t := by
      have h1 := findKey_of_mem huniq ht1 hk1
      have h2 := findKey_of_mem huniq htl htk
      rw [h1] at h2
      exact Option.some.inj h2
    subst ht1eq
    refine ⟨rfl, by rw [bucket.Size, bucket.Size], ?_, ⟨copies ++ suf, bucket.chain_eq_some.2 hch, ?_⟩, ?_⟩
    · rw [bucket.Size, bucket.Size]
      intro hpos1 hlt1
      have e : b.size + (u64 - 1) = (b.size - 1) + u64 := by omega
      rw [e, Nat.add_mod_right]
      exact Nat.mod_eq_of_lt (by omega)
    · show (copies ++ suf).map (tripleAt (h ++ ext)) = (l.erase t1).map (tripleAt h)
      rw [herase, List.map_append, List.map_append, htr]
      congr 1
      refine List.map_congr_left (fun x hx => ?_)
      exact tripleAt_append_of_lt h ext
        (hlt x (List.mem_append_right _ (List.mem_cons_of_mem _ hx)))
    · intro hnil
      rw [herase] at hnil
      have hpre0 : pre = [] := (List.append_eq_nil.1 hnil).1
      have hsuf0 : suf = [] := (List.append_eq_nil.1 hnil).2
      subst hsuf0
      have hcop : copies = [] := by
        have := congrArg List.length htr
        rw [hpre0] at this
        simpa using this
      subst hcop
      show nh = none
      cases hch
      rfl
  · have hno : ∀ t ∈ l, keyAt h t ≠ some key := fun t ht hk => hex ⟨t, ht, hk⟩
    refine ⟨_, bucket.Delete_absent none hc hno, fun _ => ⟨rfl, rfl, rfl⟩, ?_⟩
    intro t ht hk
    exact absurd hk (hno t ht)

/-! ### Copy-on-write deletion -/

theorem keyAt_eq_triple (h : Heap V) (a : Addr) :
    keyAt h a = (tripleAt h a).map Prod.fst := by
  unfold keyAt tripleAt
  cases h[a]? <;> rfl

theorem elementAt_eq_triple (h : Heap V) (a : Addr) :
    elementAt h a = (tripleAt h a).map (fun x => x.2.2) := by
  unfold elementAt tripleAt
  cases h[a]? <;> rfl

/-- Searching by key only depends on the triples read along the chain. -/
theorem findKey_map_triple (h : Heap V) (key : String) (l : List Addr) :
    (findKey h key l).map (tripleAt h) =
      (l.map (tripleAt h)).find? (fun o => decide (o.map Prod.fst = some key)) := by
  rw [List.find?_map]
  simp only [findKey, keyAt_eq_triple]
  rfl


theorem getElem?_append_of_some (h ext : Heap V) {a : Addr} {p : Pair V}
    (ha : h[a]? = some p) : (h ++ ext)[a]? = some p := by
  have hlt : a < h.length := by
    by_contra hlt
    rw [List.getElem?_eq_none (Nat.le_of_not_lt hlt)] at ha
    cases ha
  rw [List.getElem?_append_left hlt]
  exact ha

/-- C10: `Bucket.Delete(k1)` is copy-on-write.  It always returns on a bucket whose chain
`l` ends in nil; every pair that existed before the call is unchanged afterwards (same
key, hash, element and next), so the traversal from the pre-delete head still visits
the whole original chain `l`; and for every key `k2 != k1` that `Get` found before, a
`Get(k2)` that snapshots the old head still returns the same pair with the same
content, and a `Get(k2)` on the new head returns a pair with the same key, hash and
element: neither returns absent. -/
theorem bucket_Delete_copy_on_write (b : bucket) (h : Heap V) (l : List Addr)
    (k1 : String) (lock : Option Nat) (hchain : b.chain h = some l) :
    ∃ r, b.Delete h k1 lock = some r ∧
      (∀ (a : Addr) (p : Pair V), h[a]? = some p → r.heap[a]? = some p) ∧
      b.chain r.heap = some l ∧
      ∀ k2, k2 ≠ k1 → ∀ g, b.Get h k2 = some (some g) →
        (b.Get r.heap k2 = some (some g) ∧ tripleAt r.heap g = tripleAt h g) ∧
        ∃ g1, r.bkt.Get r.heap k2 = some (some g1) ∧
          tripleAt r.heap g1 = tripleAt h g := by
  have hc := bucket.chain_eq_some.1 hchain
  cases hf : findKey h k1 l with
  | none =>
    refine ⟨_, bucket.Delete_absent lock hc (findKey_eq_none.1 hf), fun a p ha => ha,
      hchain, ?_⟩
    intro k2 _ g hg
    exact ⟨⟨hg, rfl⟩, g, hg, rfl⟩
  | some t =>
    have hf1 := hf
    unfold findKey at hf1
    obtain ⟨htk0, pre, suf, hl, hpre0⟩ := List.find?_eq_some.1 hf1
    have htk : keyAt h t = some k1 := by simpa using htk0
    have hpre : ∀ a ∈ pre, keyAt h a ≠ some k1 := fun a ha => by simpa using hpre0 a ha
    have hc2 := hc
    rw [hl] at hc2
    obtain ⟨ext, nh, copies, hdel, hch, htr, -⟩ := bucket.Delete_present lock hc2 hpre htk
    have hchain1 : b.chain (h ++ ext) = some l :=
      bucket.chain_eq_some.2 (hc.append_list ext)
    have hnew : ({ headValue := nh, size := (b.size + (u64 - 1)) % u64 } : bucket).chain
        (h ++ ext) = some (copies ++ suf) := bucket.chain_eq_some.2 hch
    have htrl : ∀ x ∈ l, tripleAt (h ++ ext) x = tripleAt h x :=
      fun x hx => tripleAt_append_of_lt h ext (hc.lt x hx)
    refine ⟨_, hdel, fun a p ha => getElem?_append_of_some h ext ha, hchain1, ?_⟩
    intro k2 hk2 g hg
    rw [bucket.Get_of_chain hchain] at hg
    have hg1 : findKey h k2 l = some g := by simpa using hg
    have hgl := (findKey_some hg1).1
    have hkeys : ∀ a ∈ l, keyAt (h ++ ext) a = keyAt h a := by
      intro a ha
      rw [keyAt_eq_triple, keyAt_eq_triple, htrl a ha]
    refine ⟨⟨?_, htrl g hgl⟩, ?_⟩
    · rw [bucket.Get_of_chain hchain1, findKey_congr k2 hkeys, hg1]
    · -- the new chain carries the same triples as the old one without `t`
      have hmap : (copies ++ suf).map (tripleAt (h ++ ext)) =
          (pre ++ suf).map (tripleAt h) := by
        rw [List.map_append, List.map_append, htr]
        congr 1
        refine List.map_congr_left (fun x hx => ?_)
        exact htrl x (by rw [hl]; exact List.mem_append_right _ (List.mem_cons_of_mem _ hx))
      have htneg : decide ((tripleAt h t).map Prod.fst = some k2) = false := by
        rw [← keyAt_eq_triple, htk]
        simp
        exact fun e => hk2 e.symm
      have hold : (findKey h k2 l).map (tripleAt h) =
          ((pre ++ suf).map (tripleAt h)).find?
            (fun o => decide (o.map Prod.fst = some k2)) := by
        rw [findKey_map_triple, hl]
        simp only [List.map_append, List.map_cons, List.find?_append, List.find?_cons, htneg]
      have hnewf := findKey_map_triple (h ++ ext) k2 (copies ++ suf)
      rw [hmap, ← hold, hg1] at hnewf
      cases hq : findKey (h ++ ext) k2 (copies ++ suf) with
      | none => rw [hq] at hnewf; cases hnewf
      | some g1 =>
        rw [hq] at hnewf
        refine ⟨g1, ?_, ?_⟩
        · show bucket.Get _ (h ++ ext) k2 = some (some g1)
          rw [bucket.Get_of_chain hnew, hq]
        · show tripleAt (h ++ ext) g1 = tripleAt h g
          simpa using hnewf

/-! ### Witnesses for the bucket theorems -/

/-- Witness for C7: an update of the existing key `"a"` in a two-pair chain. -/
theorem bucket_Put_spec_witness :
    sampleBucket.chain sampleHeap = some [1, 0] ∧
    ∃ r, sampleBucket.Put sampleHeap (some 2) none = some r ∧ r.added = false ∧
      r.bkt = sampleBucket ∧ elementAt r.heap 0 = some 30 := by
  refine ⟨by decide, ?_⟩
  obtain ⟨r, hr, -, hfound, -, -, -⟩ :=
    bucket_Put_spec sampleBucket sampleHeap [1, 0] 2
      { key := "a", hash := 1, element := 30, next := none } none
      (by decide) (by decide) (by decide) rfl
  obtain ⟨h1, h2, -, h4⟩ := hfound 0 (by decide) (by decide)
  exact ⟨r, hr, h1, h2, h4⟩

/-- Witness for C8: deleting the last pair of a two-pair chain. -/
theorem bucket_Delete_spec_witness :
    sampleBucket.chain sampleHeap = some [1, 0] ∧
    ∃ r, sampleBucket.Delete sampleHeap "a" none = some r ∧ r.deleted = true ∧
      r.bkt.Size = 1 := by
  refine ⟨by decide, ?_⟩
  obtain ⟨r, hr, -, hp⟩ :=
    bucket_Delete_spec sampleBucket sampleHeap [1, 0] "a" (by decide) (by decide)
  obtain ⟨hd, -, hs, -, -⟩ := hp 0 (by decide) (by decide)
  exact ⟨r, hr, hd, hs (by decide) (by decide)⟩

/-- Witness for C10: deleting `"a"` keeps the old chain intact and `"b"` readable. -/
theorem bucket_Delete_copy_on_write_witness :
    sampleBucket.chain sampleHeap = some [1, 0] ∧
    ∃ r, sampleBucket.Delete sampleHeap "a" none = some r ∧
      sampleBucket.chain r.heap = some [1, 0] ∧
      ∃ g1, r.bkt.Get r.heap "b" = some (some g1) ∧
        tripleAt r.heap g1 = some ("b", 2, 20) := by
  refine ⟨by decide, ?_⟩
  obtain ⟨r, hr, -, hch, hget⟩ :=
    bucket_Delete_copy_on_write sampleBucket sampleHeap [1, 0] "a" none (by decide)
  obtain ⟨-, g1, hg1, ht⟩ := hget "b" (by decide) 1 (by decide)
  exact ⟨r, hr, hch, g1, hg1, ht.trans (by decide)⟩

/-! ### Heap updates that change nothing -/

theorem list_set_self {α : Type} (l : List α) (i : Nat) (a : α) (hi : l[i]? = some a) :
    l.set i a = l := by
  refine List.ext_getElem? (fun j => ?_)
  rw [List.getElem?_set]
  by_cases hij : i = j
  · subst hij
    have hlt : i < l.length := by
      by_contra hlt
      rw [List.getElem?_eq_none (Nat.le_of_not_lt hlt)] at hi
      cases hi
    simp [hlt, hi]
  · simp [hij]

theorem SetElement_self {h : Heap V} {a : Addr} {p : Pair V} (ha : h[a]? = some p) :
    SetElement h a p.element = h := by
  unfold SetElement
  rw [ha]
  exact list_set_self h a _ ha

/-! ### Keys identify tracked pairs -/

theorem keyAt_inj_of_nodup {h : Heap V} {T : List Addr}
    (hk : (T.map (keyAt h)).Nodup) {a b : Addr} (ha : a ∈ T) (hb : b ∈ T)
    (hab : keyAt h a = keyAt h b) : a = b :=
  List.inj_on_of_nodup_map hk ha hb hab

theorem nodup_keys_of_chain {h : Heap V} {T : List Addr}
    (hk : (T.map (keyAt h)).Nodup) {s : Option Addr} {l : List Addr}
    (hc : IsChain h s l) (hl : ∀ x ∈ l, x ∈ T) : (l.map (keyAt h)).Nodup :=
  List.Nodup.map_on (fun _ hx _ hy hxy => keyAt_inj_of_nodup hk (hl _ hx) (hl _ hy) hxy)
    hc.nodup

theorem findKey_self_of_mem {h : Heap V} {T : List Addr}
    (hk : (T.map (keyAt h)).Nodup) {s : Option Addr} {l : List Addr}
    (hc : IsChain h s l) (hl : ∀ x ∈ l, x ∈ T) {p : Addr} {pp : Pair V}
    (hp : h[p]? = some pp) (hpl : p ∈ l) : findKey h pp.key l = some p :=
  findKey_of_mem (nodup_keys_of_chain hk hc hl) hpl (keyAt_eq_some_of_getElem? hp)

theorem eq_of_findKey {h : Heap V} {T : List Addr}
    (hk : (T.map (keyAt h)).Nodup) {l : List Addr} (hl : ∀ x ∈ l, x ∈ T)
    {p t : Addr} {pp : Pair V} (hp : h[p]? = some pp) (hpT : p ∈ T)
    (hf : findKey h pp.key l = some t) : t = p := by
  obtain ⟨htl, htk⟩ := findKey_some hf
  exact keyAt_inj_of_nodup hk (hl t htl) hpT (by rw [htk, keyAt_eq_some_of_getElem? hp])

theorem not_mem_of_findKey_none {h : Heap V} {l : List Addr} {p : Addr} {pp : Pair V}
    (hp : h[p]? = some pp) (hf : findKey h pp.key l = none) : p ∉ l :=
  fun hmem => findKey_eq_none.1 hf p hmem (keyAt_eq_some_of_getElem? hp)

/-! ### Splicing chains -/

/-- A chain through `w` keeps its part before `w` when the links of that part are kept,
whatever chain now starts at `w`. -/
theorem IsChain.replace_tail {h h1 : Heap V} {w : Addr} {rest rest1 : List Addr} :
    ∀ (pre : List Addr) (s : Option Addr), IsChain h s (pre ++ w :: rest) →
      (∀ a ∈ pre, nextAt h1 a = nextAt h a) → IsChain h1 (some w) (w :: rest1) →
      IsChain h1 s (pre ++ w :: rest1) := by
  intro pre
  induction pre with
  | nil =>
    intro s hc _ hw
    cases hc
    exact hw
  | cons x pre0 ih =>
    intro s hc hn hw
    cases hc with
    | @cons _ p _ hx hc0 =>
      have hx1 := hn x (List.mem_cons_self _ _)
      unfold nextAt at hx1
      rw [hx] at hx1
      cases hp1 : h1[x]? with
      | none => rw [hp1] at hx1; cases hx1
      | some p1 =>
        rw [hp1] at hx1
        simp only [Option.map_some', Option.some.injEq] at hx1
        refine IsChain.cons hp1 ?_
        rw [hx1]
        exact ih p.next hc0 (fun a ha => hn a (List.mem_cons_of_mem _ ha)) hw

theorem IsChain.head_eq {h : Heap V} {s : Option Addr} {a : Addr} {l : List Addr}
    (hc : IsChain h s (a :: l)) : s = some a := by
  cases hc
  rfl

theorem IsChain.tail {h : Heap V} {a : Addr} {l : List Addr} {p : Pair V}
    (hc : IsChain h (some a) (a :: l)) (hp : h[a]? = some p) : IsChain h p.next l := by
  cases hc with
  | cons hp2 hc0 =>
    rw [hp] at hp2
    cases hp2
    exact hc0

theorem IsChain.of_some {h : Heap V} {a : Addr} {l : List Addr}
    (hc : IsChain h (some a) l) : ∃ l0, l = a :: l0 := by
  cases hc
  exact ⟨_, rfl⟩

theorem nextAt_of_getElem? {h : Heap V} {a : Addr} {p : Pair V} (ha : h[a]? = some p) :
    nextAt h a = some p.next := by
  simp [nextAt, ha]

/-! ### The re-inserting loop keeps every pair reachable -/

theorem mem_of_getElem?_some {α : Type} {l : List α} {i : Nat} {a : α}
    (h : l[i]? = some a) : a ∈ l :=
  List.mem_iff_getElem?.2 ⟨i, h⟩

/-- In a chain that starts at a done pair (or at `p`), whose done members link to done
pairs or to `p`, everything before `p` is done. -/
theorem prefix_done {h : Heap V} {done : List Addr} {p : Addr} {rest : List Addr}
    (hlink : ∀ e ∈ done, ∀ e1, nextAt h e = some (some e1) → e1 ∈ done ∨ e1 = p) :
    ∀ (pre : List Addr) (s : Option Addr), IsChain h s (pre ++ p :: rest) →
      (∀ x, s = some x → x ∈ done ∨ x = p) → ∀ x ∈ pre, x ∈ done := by
  intro pre
  induction pre with
  | nil => intro s _ _ x hx; cases hx
  | cons y pre0 ih =>
    intro s hc hs x hx
    have hnd := hc.nodup
    have hyp : y ≠ p := by
      intro e
      rw [List.cons_append, List.nodup_cons] at hnd
      exact hnd.1 (by rw [e]; simp)
    have hy : y ∈ done := by
      rcases hs y hc.head_eq with hd | hd
      · exact hd
      · exact absurd hd hyp
    rcases List.mem_cons.1 hx with rfl | hx0
    · exact hy
    · cases hc with
      | @cons _ py _ hpy hc0 =>
        refine ih py.next hc0 ?_ x hx0
        intro z hz
        exact hlink y hy z (by rw [nextAt_of_getElem? hpy, hz])

theorem LoopInv.chain_of_bucket {n : Nat} {T : List Addr} {h : Heap V} {bs : List bucket}
    {done R : List Addr} (hinv : LoopInv n T h bs done R) {b : bucket} (hb : b ∈ bs) :
    ∃ l, IsChain h b.headValue l ∧ ∀ x ∈ l, x ∈ T := by
  cases hh : b.headValue with
  | none => exact ⟨[], IsChain.nil, by simp⟩
  | some a => exact hinv.chains.closed a (hinv.doneT a (hinv.heads b hb a hh))

/-- The pair `p` is already reachable from its bucket: nothing has to change. -/
theorem LoopInv.skip {n : Nat} {T : List Addr} {h : Heap V} {bs : List bucket}
    {done R : List Addr} {p : Addr} {pp : Pair V} {b : bucket} {l : List Addr}
    (hinv : LoopInv n T h bs done (p :: R)) (hp : h[p]? = some pp)
    (hb : bs[pp.hash % n]? = some b) (hc : IsChain h b.headValue l) (hpl : p ∈ l) :
    LoopInv n T h bs (done ++ [p]) R := by
  have hlink1 : ∀ e ∈ done, ∀ e1, nextAt h e = some (some e1) → e1 ∈ done ∨ e1 = p := by
    intro e he e1 hn
    rcases hinv.link e he e1 hn with h1 | h1
    · exact Or.inl h1
    · exact Or.inr (by simpa using h1.symm)
  refine ⟨hinv.len, hinv.chains, ?_, ?_, ?_, ?_, ?_, ?_⟩
  · intro b1 hb1 a ha
    exact List.mem_append_left _ (hinv.heads b1 hb1 a ha)
  · intro w hw
    rcases List.mem_append.1 hw with hw | hw
    · obtain ⟨pw, bw, pre, rest, h1, h2, h3, h4⟩ := hinv.good w hw
      exact ⟨pw, bw, pre, rest, h1, h2, h3, fun x hx => List.mem_append_left _ (h4 x hx)⟩
    · have hwp : w = p := by simpa using hw
      subst hwp
      obtain ⟨pre, rest, hl⟩ := List.append_of_mem hpl
      rw [hl] at hc
      have hpre := prefix_done hlink1 pre b.headValue hc
        (fun x hx => Or.inl (hinv.heads b (mem_of_getElem?_some hb) x hx))
      exact ⟨pp, b, pre, rest, hp, hb, hc, fun x hx => List.mem_append_left _ (hpre x hx)⟩
  · intro e he e1 hn
    by_cases hed : e ∈ done
    · rcases hlink1 e hed e1 hn with h1 | h1
      · exact Or.inl (List.mem_append_left _ h1)
      · exact Or.inl (List.mem_append_right _ (by simp [h1]))
    · have hep : e = p := by
        rcases List.mem_append.1 he with h1 | h1
        · exact absurd h1 hed
        · simpa using h1
      subst hep
      obtain ⟨B1, hB⟩ := hinv.adj [] e R rfl hed e1 hn
      exact Or.inr (by rw [hB]; rfl)
  · intro A a B hR ha a1 hn
    have ha1 : a ∉ done := fun hmem => ha (List.mem_append_left _ hmem)
    exact hinv.adj (p :: A) a B (by rw [hR]; rfl) ha1 a1 hn
  · intro a ha
    rcases List.mem_append.1 ha with h1 | h1
    · exact hinv.doneT a h1
    · have : a = p := by simpa using h1
      rw [this]
      exact hinv.restT p (List.mem_cons_self _ _)
  · intro a ha
    exact hinv.restT a (List.mem_cons_of_mem _ ha)


theorem LoopInv.not_done_of_empty {n : Nat} {T : List Addr} {h : Heap V}
    {bs : List bucket} {done R : List Addr} {w : Addr} {pw : Pair V} {b : bucket}
    (hinv : LoopInv n T h bs done R) (hw : h[w]? = some pw)
    (hb : bs[pw.hash % n]? = some b) (hhead : b.headValue = none) : w ∉ done := by
  intro hmem
  obtain ⟨pw1, bw, pre, rest, h1, h2, h3, -⟩ := hinv.good w hmem
  rw [hw] at h1
  cases h1
  rw [hb] at h2
  cases h2
  rw [hhead] at h3
  cases pre <;> cases h3

/-- The bucket of `p` is empty: `p` becomes its head, with the chain it already heads. -/
theorem LoopInv.empty {n : Nat} {T : List Addr} {h : Heap V} {bs : List bucket}
    {done R : List Addr} {p : Addr} {pp : Pair V} {b : bucket} (sz : Nat)
    (hinv : LoopInv n T h bs done (p :: R)) (hp : h[p]? = some pp)
    (hb : bs[pp.hash % n]? = some b) (hhead : b.headValue = none) :
    LoopInv n T h (bs.set (pp.hash % n) { headValue := some p, size := sz })
      (done ++ [p]) R := by
  have hpd : p ∉ done := hinv.not_done_of_empty hp hb hhead
  have hilt : pp.hash % n < bs.length := by
    by_contra hlt
    rw [List.getElem?_eq_none (Nat.le_of_not_lt hlt)] at hb
    cases hb
  have hpT : p ∈ T := hinv.restT p (List.mem_cons_self _ _)
  refine ⟨by rw [List.length_set]; exact hinv.len, hinv.chains, ?_, ?_, ?_, ?_, ?_, ?_⟩
  · intro b1 hb1 a ha
    rcases List.mem_or_eq_of_mem_set hb1 with h1 | h1
    · exact List.mem_append_left _ (hinv.heads b1 h1 a ha)
    · rw [h1] at ha
      simp only [Option.some.injEq] at ha
      rw [← ha]
      simp
  · intro w hw
    rcases List.mem_append.1 hw with hw | hw
    · obtain ⟨pw, bw, pre, rest, h1, h2, h3, h4⟩ := hinv.good w hw
      have hne : pp.hash % n ≠ pw.hash % n := by
        intro e
        rw [← e, hb] at h2
        cases h2
        rw [hhead] at h3
        cases pre <;> cases h3
      refine ⟨pw, bw, pre, rest, h1, ?_, h3, fun x hx => List.mem_append_left _ (h4 x hx)⟩
      rw [List.getElem?_set_ne hne]
      exact h2
    · have hwp : w = p := by simpa using hw
      subst hwp
      obtain ⟨lp, hlp, -⟩ := hinv.chains.closed w hpT
      obtain ⟨rest, hrest⟩ := hlp.of_some
      rw [hrest] at hlp
      refine ⟨pp, { headValue := some w, size := sz }, [], rest, hp, ?_, hlp, by simp⟩
      rw [List.getElem?_set_self hilt]
  · intro e he e1 hn
    by_cases hed : e ∈ done
    · rcases hinv.link e hed e1 hn with h1 | h1
      · exact Or.inl (List.mem_append_left _ h1)
      · have : e1 = p := by simpa using h1.symm
        exact Or.inl (List.mem_append_right _ (by simp [this]))
    · have hep : e = p := by
        rcases List.mem_append.1 he with h1 | h1
        · exact absurd h1 hed
        · simpa using h1
      subst hep
      obtain ⟨B1, hB⟩ := hinv.adj [] e R rfl hed e1 hn
      exact Or.inr (by rw [hB]; rfl)
  · intro A a B hR ha a1 hn
    have ha1 : a ∉ done := fun hmem => ha (List.mem_append_left _ hmem)
    exact hinv.adj (p :: A) a B (by rw [hR]; rfl) ha1 a1 hn
  · intro a ha
    rcases List.mem_append.1 ha with h1 | h1
    · exact hinv.doneT a h1
    · have : a = p := by simpa using h1
      rw [this]
      exact hpT
  · intro a ha
    exact hinv.restT a (List.mem_cons_of_mem _ ha)


theorem getElem?_SetNext_ne (h : Heap V) {a x : Addr} (n : Option Addr) (hx : x ≠ a) :
    (SetNext h a n)[x]? = h[x]? := by
  rw [getElem?_SetNext, if_neg hx]

theorem nextAt_SetNext_ne (h : Heap V) {a x : Addr} (n : Option Addr) (hx : x ≠ a) :
    nextAt (SetNext h a n) x = nextAt h x := by
  rw [nextAt_SetNext, if_neg hx]

theorem map_keyAt_SetNext (h : Heap V) (a : Addr) (n : Option Addr) (T : List Addr) :
    T.map (keyAt (SetNext h a n)) = T.map (keyAt h) :=
  List.map_congr_left (fun x _ => keyAt_SetNext h a n x)

/-- Linking a tracked pair `p` in front of a tracked chain that does not contain it keeps
all tracked chains finite and tracked. -/
theorem ChainsOk.link_front {h : Heap V} {T : List Addr} (hok : ChainsOk h T)
    {p hd : Addr} {pp : Pair V} {l : List Addr} (hp : h[p]? = some pp) (hpT : p ∈ T)
    (hc : IsChain h (some hd) l) (hl : ∀ x ∈ l, x ∈ T) (hpl : p ∉ l) :
    ChainsOk (SetNext h p (some hd)) T ∧
      IsChain (SetNext h p (some hd)) (some p) (p :: l) := by
  have hp1 : (SetNext h p (some hd))[p]? = some { pp with next := some hd } := by
    rw [getElem?_SetNext, if_pos rfl, hp]
    rfl
  have hc1 : IsChain (SetNext h p (some hd)) (some p) (p :: l) :=
    IsChain.cons hp1 (hc.setNext _ hpl)
  refine ⟨⟨?_, ?_, ?_⟩, hc1⟩
  · rw [map_keyAt_SetNext]
    exact hok.keys
  · intro a ha
    rw [length_SetNext]
    exact hok.valid a ha
  · intro a ha
    obtain ⟨la, hla, hsub⟩ := hok.closed a ha
    by_cases hmem : p ∈ la
    · obtain ⟨pre, rest, hsplit⟩ := List.append_of_mem hmem
      rw [hsplit] at hla
      have hnd := hla.nodup
      have hpre : ∀ x ∈ pre, nextAt (SetNext h p (some hd)) x = nextAt h x := by
        intro x hx
        refine nextAt_SetNext_ne h _ ?_
        rintro rfl
        exact (List.nodup_append.1 hnd).2.2 hx (List.mem_cons_self _ _)
      refine ⟨pre ++ p :: l, IsChain.replace_tail pre (some a) hla hpre hc1, ?_⟩
      intro x hx
      rcases List.mem_append.1 hx with h1 | h1
      · exact hsub x (by rw [hsplit]; exact List.mem_append_left _ h1)
      · rcases List.mem_cons.1 h1 with h2 | h2
        · rw [h2]; exact hpT
        · exact hl x h2
    · exact ⟨la, hla.setNext _ hmem, hsub⟩

/-- The bucket of `p` is not empty and does not reach `p`: `p` is linked in front of
its head.  Only the link of `p` changes, and no done pair was reached through it. -/
theorem LoopInv.insert {n : Nat} {T : List Addr} {h : Heap V} {bs : List bucket}
    {done R : List Addr} {p hd : Addr} {pp : Pair V} {b : bucket} {l : List Addr}
    (sz : Nat) (hinv : LoopInv n T h bs done (p :: R)) (hp : h[p]? = some pp)
    (hb : bs[pp.hash % n]? = some b) (hhead : b.headValue = some hd)
    (hc : IsChain h (some hd) l) (hpl : p ∉ l) :
    LoopInv n T (SetNext h p (some hd))
      (bs.set (pp.hash % n) { headValue := some p, size := sz }) (done ++ [p]) R := by
  have hbmem : b ∈ bs := mem_of_getElem?_some hb
  have hpT : p ∈ T := hinv.restT p (List.mem_cons_self _ _)
  have hhd : hd ∈ done := hinv.heads b hbmem hd hhead
  have hlT : ∀ x ∈ l, x ∈ T := by
    obtain ⟨l1, hl1, hsub⟩ := hinv.chain_of_bucket hbmem
    rw [hhead] at hl1
    rw [hc.unique hl1]
    exact hsub
  have hpd : p ∉ done := by
    intro hmem
    obtain ⟨pw1, bw, pre, rest, h1, h2, h3, -⟩ := hinv.good p hmem
    rw [hp] at h1
    cases h1
    rw [hb] at h2
    cases h2
    rw [hhead] at h3
    rw [hc.unique h3] at hpl
    exact hpl (by simp)
  have hilt : pp.hash % n < bs.length := by
    by_contra hlt
    rw [List.getElem?_eq_none (Nat.le_of_not_lt hlt)] at hb
    cases hb
  obtain ⟨hok1, hc1⟩ := hinv.chains.link_front hp hpT hc hlT hpl
  have hp1 : (SetNext h p (some hd))[p]? = some { pp with next := some hd } := by
    rw [getElem?_SetNext, if_pos rfl, hp]
    rfl
  refine ⟨by rw [List.length_set]; exact hinv.len, hok1, ?_, ?_, ?_, ?_, ?_, ?_⟩
  · intro b1 hb1 a ha
    rcases List.mem_or_eq_of_mem_set hb1 with h1 | h1
    · exact List.mem_append_left _ (hinv.heads b1 h1 a ha)
    · rw [h1] at ha
      simp only [Option.some.injEq] at ha
      rw [← ha]
      simp
  · intro w hw
    rcases List.mem_append.1 hw with hw | hw
    · obtain ⟨pw, bw, pre, rest, h1, h2, h3, h4⟩ := hinv.good w hw
      have hwp : w ≠ p := fun e => hpd (e ▸ hw)
      have hpre : ∀ x ∈ pre, nextAt (SetNext h p (some hd)) x = nextAt h x := by
        intro x hx
        refine nextAt_SetNext_ne h _ ?_
        rintro rfl
        exact hpd (h4 x hx)
      obtain ⟨lw, hlw, -⟩ := hok1.closed w (hinv.doneT w hw)
      obtain ⟨rest2, hrest2⟩ := hlw.of_some
      rw [hrest2] at hlw
      have hnew := IsChain.replace_tail pre bw.headValue h3 hpre hlw
      have hw1 : (SetNext h p (some hd))[w]? = some pw := by
        rw [getElem?_SetNext_ne h _ hwp]
        exact h1
      by_cases hidx : pp.hash % n = pw.hash % n
      · rw [← hidx, hb] at h2
        cases h2
        rw [hhead] at hnew
        refine ⟨pw, { headValue := some p, size := sz }, p :: pre, rest2, hw1, ?_,
          IsChain.cons hp1 hnew, ?_⟩
        · rw [← hidx, List.getElem?_set_self hilt]
        · intro x hx
          rcases List.mem_cons.1 hx with h5 | h5
          · rw [h5]; simp
          · exact List.mem_append_left _ (h4 x h5)
      · refine ⟨pw, bw, pre, rest2, hw1, ?_, hnew,
          fun x hx => List.mem_append_left _ (h4 x hx)⟩
        rw [List.getElem?_set_ne hidx]
        exact h2
    · have hwp : w = p := by simpa using hw
      subst hwp
      refine ⟨{ pp with next := some hd }, { headValue := some w, size := sz }, [], l,
        hp1, ?_, hc1, by simp⟩
      show (bs.set (pp.hash % n) _)[pp.hash % n]? = _
      rw [List.getElem?_set_self hilt]
  · intro e he e1 hn
    by_cases hed : e ∈ done
    · have hep : e ≠ p := fun e2 => hpd (e2 ▸ hed)
      rw [nextAt_SetNext_ne h _ hep] at hn
      rcases hinv.link e hed e1 hn with h1 | h1
      · exact Or.inl (List.mem_append_left _ h1)
      · have : e1 = p := by simpa using h1.symm
        exact Or.inl (List.mem_append_right _ (by simp [this]))
    · have hep : e = p := by
        rcases List.mem_append.1 he with h1 | h1
        · exact absurd h1 hed
        · simpa using h1
      subst hep
      rw [nextAt_of_getElem? hp1] at hn
      simp only [Option.some.injEq] at hn
      rw [← hn]
      exact Or.inl (List.mem_append_left _ hhd)
  · intro A a B hR ha a1 hn
    have ha1 : a ∉ done := fun hmem => ha (List.mem_append_left _ hmem)
    have hap : a ≠ p := fun e => ha (List.mem_append_right _ (by simp [e]))
    rw [nextAt_SetNext_ne h _ hap] at hn
    exact hinv.adj (p :: A) a B (by rw [hR]; rfl) ha1 a1 hn
  · intro a ha
    rcases List.mem_append.1 ha with h1 | h1
    · exact hinv.doneT a h1
    · have : a = p := by simpa using h1
      rw [this]
      exact hpT
  · intro a ha
    exact hinv.restT a (List.mem_cons_of_mem _ ha)


@[simp] theorem tripleAt_SetNext (h : Heap V) (a : Addr) (n : Option Addr) (x : Addr) :
    tripleAt (SetNext h a n) x = tripleAt h x := by
  unfold tripleAt
  rw [getElem?_SetNext]
  by_cases hx : x = a
  · subst hx; cases h[x]? <;> simp
  · simp [hx]

theorem getElem?_of_lt (h : Heap V) {a : Addr} (ha : a < h.length) :
    ∃ p, h[a]? = some p :=
  ⟨h[a], List.getElem?_eq_getElem ha⟩

/-- The re-inserting loop of `Redistribute` always finishes, changes no key, hash or
element, and leaves every pair it visited reachable from the bucket its hash selects. -/
theorem reinsert_spec {n : Nat} (hn : 0 < n) {T : List Addr} :
    ∀ (R : List Addr) (h : Heap V) (bs : List bucket) (done : List Addr),
      LoopInv n T h bs done R →
      ∃ h1 bs1, reinsert n h bs R = some (h1, bs1) ∧
        LoopInv n T h1 bs1 (done ++ R) [] ∧
        (∀ x, tripleAt h1 x = tripleAt h x) ∧ h1.length = h.length := by
  intro R
  induction R with
  | nil =>
    intro h bs done hinv
    exact ⟨h, bs, rfl, by simpa using hinv, fun _ => rfl, rfl⟩
  | cons p R ih =>
    intro h bs done hinv
    have hpT : p ∈ T := hinv.restT p (List.mem_cons_self _ _)
    obtain ⟨pp, hp⟩ := getElem?_of_lt h (hinv.chains.valid p hpT)
    have hilt : pp.hash % n < bs.length := by
      rw [hinv.len]
      exact Nat.mod_lt _ hn
    obtain ⟨b, hb⟩ : ∃ b, bs[pp.hash % n]? = some b :=
      ⟨bs[pp.hash % n], List.getElem?_eq_getElem hilt⟩
    have hbmem : b ∈ bs := mem_of_getElem?_some hb
    have hn0 : ¬ n = 0 := Nat.pos_iff_ne_zero.1 hn
    have hassoc : done ++ [p] ++ R = done ++ p :: R := by simp
    cases hhead : b.headValue with
    | none =>
      have hput := bucket.Put_empty h p none hhead
      have hinv1 := hinv.empty ((b.size + 1) % u64) hp hb hhead
      obtain ⟨h1, bs1, hr, hres, htr, hlen⟩ := ih h _ _ hinv1
      refine ⟨h1, bs1, ?_, by rw [← hassoc]; exact hres, htr, hlen⟩
      simp only [reinsert, hp, if_neg hn0, hb, hput]
      exact hr
    | some hd =>
      obtain ⟨l, hl, hlT⟩ := hinv.chain_of_bucket hbmem
      cases hf : findKey h pp.key l with
      | some t =>
        have htp : t = p := eq_of_findKey hinv.chains.keys hlT hp hpT hf
        subst htp
        have hput := bucket.Put_found none hl hp hf
        rw [SetElement_self hp] at hput
        have hinv1 := hinv.skip hp hb hl (findKey_some hf).1
        obtain ⟨h1, bs1, hr, hres, htr, hlen⟩ := ih h bs _ hinv1
        refine ⟨h1, bs1, ?_, by rw [← hassoc]; exact hres, htr, hlen⟩
        simp only [reinsert, hp, if_neg hn0, hb, hput, list_set_self bs _ b hb]
        exact hr
      | none =>
        have hpl : p ∉ l := not_mem_of_findKey_none hp hf
        have hput := bucket.Put_insert none hhead hl hp hf
        rw [hhead] at hl
        have hinv1 := hinv.insert ((b.size + 1) % u64) hp hb hhead hl hpl
        obtain ⟨h1, bs1, hr, hres, htr, hlen⟩ := ih _ _ _ hinv1
        refine ⟨h1, bs1, ?_, by rw [← hassoc]; exact hres, ?_, ?_⟩
        · simp only [reinsert, hp, if_neg hn0, hb, hput]
          exact hr
        · intro x
          rw [htr, tripleAt_SetNext]
        · rw [hlen, length_SetNext]

/-! ### Collecting the pairs of all buckets -/

theorem adj_append_chain {h : Heap V} {s : Option Addr} {l : List Addr} (hc : IsChain h s l)
    {L : List Addr}
    (hL : ∀ A a B, L = A ++ a :: B → ∀ a1, nextAt h a = some (some a1) → ∃ B1, B = a1 :: B1) :
    ∀ A a B, l ++ L = A ++ a :: B →
      ∀ a1, nextAt h a = some (some a1) → ∃ B1, B = a1 :: B1 := by
  induction hc with
  | nil => simpa using hL
  | @cons x px l0 hx hc0 ih =>
    intro A a B hsplit a1 hn
    cases A with
    | nil =>
      simp only [List.cons_append, List.nil_append, List.cons.injEq] at hsplit
      obtain ⟨hxa, hB⟩ := hsplit
      subst hxa
      rw [nextAt_of_getElem? hx] at hn
      simp only [Option.some.injEq] at hn
      rw [hn] at hc0
      obtain ⟨l1, hl1⟩ := hc0.of_some
      exact ⟨l1 ++ L, by rw [← hB, hl1]; rfl⟩
    | cons y A0 =>
      simp only [List.cons_append, List.cons.injEq] at hsplit
      exact ih A0 a B hsplit.2 a1 hn

theorem collectPairs_spec {h : Heap V} {T : List Addr} :
    ∀ (bs : List bucket),
      (∀ b ∈ bs, ∃ l, IsChain h b.headValue l ∧ ∀ x ∈ l, x ∈ T) →
      ∃ L, collectPairs h bs = some L ∧ (∀ x ∈ L, x ∈ T) ∧
        (∀ b ∈ bs, ∀ l, IsChain h b.headValue l → ∀ a ∈ l, a ∈ L) ∧
        (∀ A a B, L = A ++ a :: B →
          ∀ a1, nextAt h a = some (some a1) → ∃ B1, B = a1 :: B1) := by
  intro bs
  induction bs with
  | nil =>
    intro _
    refine ⟨[], rfl, by simp, by simp, ?_⟩
    intro A a B hsplit
    cases A <;> cases hsplit
  | cons b bs ih =>
    intro hall
    obtain ⟨l, hl, hlT⟩ := hall b (List.mem_cons_self _ _)
    obtain ⟨L, hL, hLT, hLall, hLadj⟩ := ih (fun b1 hb1 => hall b1 (List.mem_cons_of_mem _ hb1))
    have hcf : chainFrom h h.length b.GetFirstPair = some l :=
      chainFrom_eq_some.2 ⟨hl, hl.length_le⟩
    refine ⟨l ++ L, by simp [collectPairs, hcf, hL], ?_, ?_, adj_append_chain hl hLadj⟩
    · intro x hx
      rcases List.mem_append.1 hx with h1 | h1
      · exact hlT x h1
      · exact hLT x h1
    · intro b1 hb1 l1 hl1 a ha
      rcases List.mem_cons.1 hb1 with h1 | h1
      · subst h1
        rw [hl1.unique hl] at ha
        exact List.mem_append_left _ ha
      · exact List.mem_append_right _ (hLall b1 h1 l1 hl1 a ha)

theorem ArrInv.bucket_chain {h : Heap V} {bs : List bucket} {T : List Addr}
    (hinv : ArrInv h bs T) {b : bucket} (hb : b ∈ bs) :
    ∃ l, IsChain h b.headValue l ∧ ∀ x ∈ l, x ∈ T := by
  cases hh : b.headValue with
  | none => exact ⟨[], IsChain.nil, by simp⟩
  | some a => exact hinv.chains.closed a (hinv.heads b hb a hh)

/-- The buckets prepared by `Redistribute` before re-inserting: all empty. -/
theorem fresh_buckets (bs : List bucket) (n : Nat) :
    ∃ fresh : List bucket,
      (if n > bs.length then
          bs.map (fun b => (b.Clear none).1) ++ List.replicate (n - bs.length) newBucket
        else List.replicate n newBucket) = fresh ∧
      fresh.length = n ∧ ∀ b ∈ fresh, b.headValue = none := by
  refine ⟨_, rfl, ?_, ?_⟩
  · split
    · rename_i hgt
      simp only [List.length_append, List.length_map, List.length_replicate]
      omega
    · simp
  · intro b hb
    split at hb
    · rcases List.mem_append.1 hb with h1 | h1
      · obtain ⟨b0, -, hb0⟩ := List.mem_map.1 h1
        rw [← hb0]
        rfl
      · rw [(List.mem_replicate.1 h1).2]
        rfl
    · rw [(List.mem_replicate.1 hb).2]
      rfl

/-- Resizing to a different, positive bucket count returns `changed = true` with an array
of that many buckets in which every tracked pair is again reachable from the bucket its
hash selects; keys, hashes and elements are untouched. -/
theorem resize_spec {h : Heap V} {bs : List bucket} {T : List Addr}
    (pr : pairRedistributorImpl) (hinv : ArrInv h bs T) {n : Nat} (hn : 0 < n)
    (hne : n ≠ bs.length) :
    ∃ r bs1, pr.resize h bs n = some r ∧ r.changed = true ∧ r.newBuckets = some bs1 ∧
      bs1.length = n ∧ ArrInv r.heap bs1 T ∧ (∀ x, tripleAt r.heap x = tripleAt h x) ∧
      r.heap.length = h.length := by
  obtain ⟨L, hL, hLT, hLall, hLadj⟩ :=
    collectPairs_spec bs (fun b hb => hinv.bucket_chain hb)
  obtain ⟨fresh, hfresh, hflen, hfnone⟩ := fresh_buckets bs n
  have hloop : LoopInv n T h fresh [] L := by
    refine ⟨hflen, hinv.chains, ?_, ?_, ?_, ?_, ?_, hLT⟩
    · intro b hb a ha
      rw [hfnone b hb] at ha
      cases ha
    · intro w hw; cases hw
    · intro e he; cases he
    · intro A a B hsplit _
      exact hLadj A a B hsplit
    · intro a ha; cases ha
  obtain ⟨h1, bs1, hr, hres, htr, hlen⟩ := reinsert_spec hn L h fresh [] hloop
  refine ⟨{ newBuckets := some bs1, changed := true,
             pr := { pr with overweightBucketCount := 0, emptyBucketCount := 0 },
             heap := h1 }, bs1, ?_, rfl, rfl, hres.len, ?_, htr, hlen⟩
  · unfold pairRedistributorImpl.resize
    simp only [if_neg hne, hL, hfresh, hr]
  · have hTL : ∀ a ∈ T, a ∈ L := by
      intro a ha
      obtain ⟨pa, b, l, -, hb, hl, hal⟩ := hinv.good a ha
      exact hLall b (mem_of_getElem?_some hb) l hl a hal
    refine ⟨by rw [hres.len]; exact hn, hres.chains, ?_, ?_⟩
    · intro b hb a ha
      exact hres.doneT a (hres.heads b hb a ha)
    · intro a ha
      obtain ⟨pw, b, pre, rest, h2, h3, h4, -⟩ := hres.good a (by simpa using hTL a ha)
      refine ⟨pw, b, pre ++ a :: rest, h2, ?_, h4, by simp⟩
      rw [hres.len]
      exact h3

/-! ### One redistribution on a bucket array -/

theorem u64_eq : u64 = 18446744073709551616 := by
  unfold u64
  norm_num

/-- The method `Redistribute` always returns on an array that satisfies the invariant; the array in
force afterwards satisfies it again for the same tracked pairs, has at most twice the
old length, and no key, hash or element has changed. -/
theorem Redistribute_spec {h : Heap V} {bs : List bucket} {T : List Addr}
    (pr : pairRedistributorImpl) (status : Nat) (hinv : ArrInv h bs T)
    (hlen : bs.length * 2 < u64) :
    ∃ r, pr.Redistribute h status bs = some r ∧
      ArrInv r.heap (if r.changed then r.newBuckets.getD [] else bs) T ∧
      (if r.changed then r.newBuckets.getD [] else bs).length ≤ 2 * bs.length ∧
      (∀ x, tripleAt r.heap x = tripleAt h x) ∧ r.heap.length = h.length := by
  have hpos := hinv.pos
  have hsame : ∀ r : RedistributeResult V, r.changed = false → r.heap = h →
      ArrInv r.heap (if r.changed then r.newBuckets.getD [] else bs) T ∧
      (if r.changed then r.newBuckets.getD [] else bs).length ≤ 2 * bs.length ∧
      (∀ x, tripleAt r.heap x = tripleAt h x) ∧ r.heap.length = h.length := by
    intro r hch hh
    rw [hch, hh]
    exact ⟨by simpa using hinv, by simp; omega, fun _ => rfl, rfl⟩
  have hresize : ∀ n, 0 < n → n ≠ bs.length → n ≤ 2 * bs.length →
      ∃ r, pr.resize h bs n = some r ∧
        ArrInv r.heap (if r.changed then r.newBuckets.getD [] else bs) T ∧
        (if r.changed then r.newBuckets.getD [] else bs).length ≤ 2 * bs.length ∧
        (∀ x, tripleAt r.heap x = tripleAt h x) ∧ r.heap.length = h.length := by
    intro n hn hne hle
    obtain ⟨r, bs1, hr, hch, hnb, hl1, hinv1, htr, hhl⟩ := resize_spec pr hinv hn hne
    refine ⟨r, hr, ?_, ?_, htr, hhl⟩
    · rw [hch, hnb]
      simpa using hinv1
    · rw [hch, hnb]
      simpa [hl1] using hle
  unfold pairRedistributorImpl.Redistribute
  simp only []
  split
  · split
    · exact ⟨_, rfl, hsame _ rfl rfl⟩
    · have hmod : bs.length * 2 % u64 = bs.length * 2 := Nat.mod_eq_of_lt hlen
      rw [hmod]
      exact hresize _ (by omega) (by omega) (by omega)
  · split
    · split
      · exact ⟨_, rfl, hsame _ rfl rfl⟩
      · rename_i hcond
        have h100 : 100 ≤ bs.length := by
          by_contra hlt
          exact hcond (Or.inl (by omega))
        have h2 : ¬ bs.length / 2 < 2 := by omega
        rw [if_neg h2]
        exact hresize _ (by omega) (by omega) (by omega)
    · exact ⟨_, rfl, hsame _ rfl rfl⟩


/-! ### One insertion of a new key into a bucket array -/

theorem tripleAt_of_getElem? {h : Heap V} {a : Addr} {p : Pair V} (ha : h[a]? = some p) :
    tripleAt h a = some (p.key, p.hash, p.element) := by
  simp [tripleAt, ha]

theorem Entries.key_ne {hash : String → Nat} {h : Heap V} {T : List Addr}
    {ins : List (String × V)} (hent : Entries hash h T ins) {key : String}
    (hnew : key ∉ ins.map Prod.fst) : ∀ a ∈ T, keyAt h a ≠ some key := by
  intro a ha hk
  have hmem : tripleAt h a ∈ T.map (tripleAt h) := List.mem_map_of_mem _ ha
  rw [hent] at hmem
  obtain ⟨e, he, hte⟩ := List.mem_map.1 hmem
  rw [keyAt_eq_triple, ← hte] at hk
  simp only [Option.map_some', Option.some.injEq] at hk
  exact hnew (List.mem_map.2 ⟨e, he, hk⟩)

/-- Putting a freshly created pair with a new key into the bucket its hash selects
returns `added = true` and keeps the invariant, the new pair being tracked as well. -/
theorem array_put_spec (hash : String → Nat) {h : Heap V} {bs : List bucket}
    {T : List Addr} {ins : List (String × V)} (hinv : ArrInv h bs T)
    (hent : Entries hash h T ins) (key : String) (elem : V)
    (hnew : key ∉ ins.map Prod.fst) :
    ∃ b r, bs[(hash key % u64) % bs.length]? = some b ∧
      b.Put (newPair hash h key elem).1 (some (newPair hash h key elem).2) none = some r ∧
      r.added = true ∧ r.err = none ∧
      ArrInv r.heap (bs.set ((hash key % u64) % bs.length) r.bkt) (T ++ [h.length]) ∧
      Entries hash r.heap (T ++ [h.length]) (ins ++ [(key, elem)]) := by
  set np : Pair V := { key := key, hash := hash key % u64, element := elem, next := none }
    with hnp
  set h1 : Heap V := h ++ [np] with hh1
  have hnewPair : newPair hash h key elem = (h1, h.length) := rfl
  rw [hnewPair]
  simp only []
  have hpos := hinv.pos
  have hilt : (hash key % u64) % bs.length < bs.length := Nat.mod_lt _ hpos
  obtain ⟨b, hb⟩ : ∃ b, bs[(hash key % u64) % bs.length]? = some b :=
    ⟨bs[(hash key % u64) % bs.length], List.getElem?_eq_getElem hilt⟩
  have hbmem : b ∈ bs := mem_of_getElem?_some hb
  obtain ⟨l, hl, hlT⟩ := hinv.bucket_chain hbmem
  have hp1 : h1[h.length]? = some np := getElem?_append_length h np
  have hpT : h.length ∉ T := fun hmem => Nat.lt_irrefl _ (hinv.chains.valid _ hmem)
  have hold : ∀ a ∈ T, h1[a]? = h[a]? :=
    fun a ha => getElem?_append_of_lt h np (hinv.chains.valid a ha)
  have hkeyT : ∀ a ∈ T, keyAt h1 a = keyAt h a := by
    intro a ha
    unfold keyAt
    rw [hold a ha]
  have htrT : ∀ a ∈ T, tripleAt h1 a = tripleAt h a :=
    fun a ha => tripleAt_append_of_lt h [np] (hinv.chains.valid a ha)
  have hne := hent.key_ne hnew
  have hl1 : IsChain h1 b.headValue l := hl.append np
  have hf : findKey h1 key l = none := by
    refine findKey_eq_none.2 (fun t ht => ?_)
    rw [hkeyT t (hlT t ht)]
    exact hne t (hlT t ht)
  -- the tracked chains, with the new pair as a chain of its own
  have hok1 : ChainsOk h1 (T ++ [h.length]) := by
    refine ⟨?_, ?_, ?_⟩
    · rw [List.map_append, List.map_congr_left hkeyT]
      refine List.Nodup.append hinv.chains.keys (by simp) ?_
      intro k hk1 hk2
      simp only [List.map_cons, List.map_nil, List.mem_singleton] at hk2
      rw [hk2, keyAt_eq_some_of_getElem? hp1] at hk1
      obtain ⟨a, ha, hka⟩ := List.mem_map.1 hk1
      exact hne a ha hka
    · intro a ha
      rw [hh1, List.length_append, List.length_singleton]
      rcases List.mem_append.1 ha with h2 | h2
      · exact Nat.lt_succ_of_lt (hinv.chains.valid a h2)
      · have : a = h.length := by simpa using h2
        rw [this]
        exact Nat.lt_succ_self _
    · intro a ha
      rcases List.mem_append.1 ha with h2 | h2
      · obtain ⟨la, hla, hsub⟩ := hinv.chains.closed a h2
        exact ⟨la, hla.append np, fun x hx => List.mem_append_left _ (hsub x hx)⟩
      · have : a = h.length := by simpa using h2
        rw [this]
        exact ⟨[h.length], IsChain.cons hp1 IsChain.nil, by simp⟩
  have hentries : ∀ h2 : Heap V, (∀ x, tripleAt h2 x = tripleAt h1 x) →
      Entries hash h2 (T ++ [h.length]) (ins ++ [(key, elem)]) := by
    intro h2 h2eq
    unfold Entries at hent ⊢
    rw [List.map_append, List.map_append, ← hent]
    congr 1
    · exact List.map_congr_left (fun a ha => by rw [h2eq, htrT a ha])
    · simp only [List.map_cons, List.map_nil, h2eq, tripleAt_of_getElem? hp1]
  cases hhead : b.headValue with
  | none =>
    refine ⟨b, _, hb, bucket.Put_empty h1 h.length none hhead, rfl, rfl, ?_,
      hentries h1 (fun _ => rfl)⟩
    refine ⟨by rw [List.length_set]; exact hpos, hok1, ?_, ?_⟩
    · intro b1 hb1 a ha
      rcases List.mem_or_eq_of_mem_set hb1 with h2 | h2
      · exact List.mem_append_left _ (hinv.heads b1 h2 a ha)
      · rw [h2] at ha
        simp only [Option.some.injEq] at ha
        rw [← ha]
        simp
    · intro a ha
      rw [List.length_set]
      rcases List.mem_append.1 ha with h2 | h2
      · obtain ⟨pa, ba, la, h3, h4, h5, h6⟩ := hinv.good a h2
        have hidx : (hash key % u64) % bs.length ≠ pa.hash % bs.length := by
          intro e
          rw [← e, hb] at h4
          cases h4
          rw [hhead] at h5
          cases h5
          cases h6
        refine ⟨pa, ba, la, by rw [hold a h2]; exact h3, ?_, h5.append np, h6⟩
        rw [List.getElem?_set_ne hidx]
        exact h4
      · have hah : a = h.length := by simpa using h2
        subst hah
        refine ⟨np, { headValue := some h.length, size := (b.size + 1) % u64 },
          [h.length], hp1, ?_, IsChain.cons hp1 IsChain.nil, by simp⟩
        show (bs.set _ _)[(hash key % u64) % bs.length]? = _
        rw [List.getElem?_set_self hilt]
  | some hd =>
    rw [hhead] at hl1
    have hpl : h.length ∉ l := fun hmem => hpT (hlT _ hmem)
    obtain ⟨hok2, hc2⟩ := hok1.link_front hp1 (by simp) hl1
      (fun x hx => List.mem_append_left _ (hlT x hx)) hpl
    have hput := bucket.Put_insert none hhead (by rw [hhead]; exact hl1) hp1 hf
    refine ⟨b, _, hb, hput, rfl, rfl, ?_, hentries _ (fun x => tripleAt_SetNext h1 _ _ x)⟩
    refine ⟨by rw [List.length_set]; exact hpos, hok2, ?_, ?_⟩
    · intro b1 hb1 a ha
      rcases List.mem_or_eq_of_mem_set hb1 with h2 | h2
      · exact List.mem_append_left _ (hinv.heads b1 h2 a ha)
      · rw [h2] at ha
        simp only [Option.some.injEq] at ha
        rw [← ha]
        simp
    · intro a ha
      rw [List.length_set]
      rcases List.mem_append.1 ha with h2 | h2
      · obtain ⟨pa, ba, la, h3, h4, h5, h6⟩ := hinv.good a h2
        have hap : a ≠ h.length := fun e => hpT (e ▸ h2)
        have hla : ∀ x ∈ la, x ∈ T := by
          obtain ⟨l2, hl2, hsub⟩ := hinv.bucket_chain (mem_of_getElem?_some h4)
          rw [h5.unique hl2]
          exact hsub
        have h3b : (SetNext h1 h.length (some hd))[a]? = some pa := by
          rw [getElem?_SetNext_ne h1 _ hap, hold a h2]
          exact h3
        have h5b : IsChain (SetNext h1 h.length (some hd)) ba.headValue la :=
          (h5.append np).setNext _ (fun hmem => hpT (hla _ hmem))
        by_cases hidx : (hash key % u64) % bs.length = pa.hash % bs.length
        · rw [← hidx, hb] at h4
          cases h4
          rw [hhead] at h5
          have hlla : la = l := h5.unique (by rw [hhead] at hl; exact hl)
          refine ⟨pa, { headValue := some h.length, size := (b.size + 1) % u64 },
            h.length :: l, h3b, ?_, hc2, ?_⟩
          · rw [← hidx, List.getElem?_set_self hilt]
          · rw [← hlla]
            exact List.mem_cons_of_mem _ h6
        · refine ⟨pa, ba, la, h3b, ?_, h5b, h6⟩
          rw [List.getElem?_set_ne hidx]
          exact h4
      · have hah : a = h.length := by simpa using h2
        subst hah
        have hp2 : (SetNext h1 h.length (some hd))[h.length]? =
            some { np with next := some hd } := by
          rw [getElem?_SetNext, if_pos rfl, hp1]
          rfl
        refine ⟨{ np with next := some hd },
          { headValue := some h.length, size := (b.size + 1) % u64 }, h.length :: l,
          hp2, ?_, hc2, by simp⟩
        show (bs.set _ _)[(hash key % u64) % bs.length]? = _
        rw [List.getElem?_set_self hilt]


/-! ### The number of buckets along a run -/

theorem reinsert_length {n : Nat} :
    ∀ (R : List Addr) (h : Heap V) (bs : List bucket) (h1 : Heap V) (bs1 : List bucket),
      reinsert n h bs R = some (h1, bs1) → bs1.length = bs.length := by
  intro R
  induction R with
  | nil =>
    intro h bs h1 bs1 hr
    simp only [reinsert, Option.some.injEq, Prod.mk.injEq] at hr
    rw [← hr.2]
  | cons a R ih =>
    intro h bs h1 bs1 hr
    unfold reinsert at hr
    split at hr
    · cases hr
    · split at hr
      · cases hr
      · split at hr
        · cases hr
        · split at hr
          · cases hr
          · rw [ih _ _ _ _ hr, List.length_set]

/-- The array in force after `Redistribute` has at most twice as many buckets as before. -/
theorem Redistribute_length_le {pr : pairRedistributorImpl} {h : Heap V} {status : Nat}
    {bs : List bucket} {r : RedistributeResult V}
    (hr : pr.Redistribute h status bs = some r) :
    (if r.changed then r.newBuckets.getD [] else bs).length ≤ 2 * bs.length := by
  have hres : ∀ n, n ≤ 2 * bs.length → pr.resize h bs n = some r →
      (if r.changed then r.newBuckets.getD [] else bs).length ≤ 2 * bs.length := by
    intro n hn hrs
    unfold pairRedistributorImpl.resize at hrs
    simp only [] at hrs
    split at hrs
    · cases hrs
      simp
      omega
    · split at hrs
      · cases hrs
      · split at hrs
        · cases hrs
        · rename_i h1 bs1 hre
          cases hrs
          have hl := reinsert_length _ _ _ _ _ hre
          simp only [if_true, Option.getD_some]
          rw [hl]
          split
          · rename_i hgt
            simp only [List.length_append, List.length_map, List.length_replicate]
            omega
          · simp only [List.length_replicate]
            exact hn
  unfold pairRedistributorImpl.Redistribute at hr
  simp only [] at hr
  split at hr
  · split at hr
    · cases hr
      simp
      omega
    · refine hres _ ?_ hr
      rw [Nat.mul_comm]
      exact Nat.mod_le _ _
  · split at hr
    · split at hr
      · cases hr
        simp
        omega
      · refine hres _ ?_ hr
        split <;> omega
    · cases hr
      simp
      omega

/-- A run multiplies the number of buckets by at most 2 per `Redistribute` step. -/
theorem run_length_le (hash : String → Nat) :
    ∀ (steps : List (Step V)) (s s1 : ArrState V), ArrState.run hash s steps = some s1 →
      s1.buckets.length ≤ s.buckets.length * 2 ^ redistributions steps := by
  intro steps
  induction steps with
  | nil =>
    intro s s1 hr
    simp only [ArrState.run, Option.some.injEq] at hr
    rw [← hr]
    simp [redistributions]
  | cons st rest ih =>
    intro s s1 hr
    simp only [ArrState.run] at hr
    split at hr
    · cases hr
    · rename_i s0 hs0
      have h1 := ih s0 s1 hr
      cases st with
      | put key elem =>
        have hl : s0.buckets.length = s.buckets.length := by
          simp only [ArrState.step] at hs0
          split at hs0
          · cases hs0
          · split at hs0
            · cases hs0
            · split at hs0
              · cases hs0
              · cases hs0
                exact List.length_set _ _ _
        rw [hl] at h1
        simpa [redistributions] using h1
      | redistribute status pr =>
        have hl : s0.buckets.length ≤ 2 * s.buckets.length := by
          simp only [ArrState.step] at hs0
          split at hs0
          · cases hs0
          · rename_i r hrd
            cases hs0
            exact Redistribute_length_le hrd
        calc s1.buckets.length
            ≤ s0.buckets.length * 2 ^ redistributions rest := h1
          _ ≤ (2 * s.buckets.length) * 2 ^ redistributions rest :=
              Nat.mul_le_mul_right _ hl
          _ = s.buckets.length * 2 ^ redistributions (Step.redistribute status pr :: rest) := by
              simp only [redistributions, Nat.pow_succ]
              ring

theorem redistributions_take_le (steps : List (Step V)) (k : Nat) :
    redistributions (steps.take k) ≤ redistributions steps := by
  induction steps generalizing k with
  | nil => simp [redistributions]
  | cons st rest ih =>
    cases k with
    | zero => simp [redistributions]
    | succ k =>
      cases st with
      | put key elem => simpa [redistributions] using ih k
      | redistribute status pr => simpa [redistributions] using ih k

/-- A bound on the number of `Redistribute` steps, whatever the number of `Put`s, keeps
every array of a run below `2 ^ 63` buckets. -/
theorem length_bound_of_redistributions (hash : String → Nat) (s : ArrState V)
    (steps : List (Step V))
    (hb : s.buckets.length * 2 ^ redistributions steps < 2 ^ 63) :
    ∀ k s1, k < steps.length → ArrState.run hash s (steps.take k) = some s1 →
      s1.buckets.length < 2 ^ 63 := by
  intro k s1 _ hr
  have h1 := run_length_le hash _ s s1 hr
  have h2 : s.buckets.length * 2 ^ redistributions (steps.take k)
      ≤ s.buckets.length * 2 ^ redistributions steps :=
    Nat.mul_le_mul_left _ (Nat.pow_le_pow_right (by decide) (redistributions_take_le steps k))
  omega

/-! ### Round trip -/

/-- Under the invariant, every inserted entry is found by `Get` in the bucket its hash
selects, with its value. -/
theorem ArrInv.get (hash : String → Nat) {h : Heap V} {bs : List bucket} {T : List Addr}
    {ins : List (String × V)} (hinv : ArrInv h bs T) (hent : Entries hash h T ins)
    (e : String × V) (he : e ∈ ins) :
    ∃ b g, bs[(hash e.1 % u64) % bs.length]? = some b ∧ b.Get h e.1 = some (some g) ∧
      elementAt h g = some e.2 := by
  have hmem : some (e.1, hash e.1 % u64, e.2) ∈
      ins.map (fun e => some (e.1, hash e.1 % u64, e.2)) :=
    List.mem_map.2 ⟨e, he, rfl⟩
  rw [← hent] at hmem
  obtain ⟨a, haT, hta⟩ := List.mem_map.1 hmem
  obtain ⟨pa, b, l, hpa, hb, hl, hal⟩ := hinv.good a haT
  rw [tripleAt_of_getElem? hpa] at hta
  simp only [Option.some.injEq, Prod.mk.injEq] at hta
  obtain ⟨hk, hh, hv⟩ := hta
  have hlT : ∀ x ∈ l, x ∈ T := by
    obtain ⟨l2, hl2, hsub⟩ := hinv.bucket_chain (mem_of_getElem?_some hb)
    rw [hl.unique hl2]
    exact hsub
  refine ⟨b, a, by rw [← hh]; exact hb, ?_, by rw [elementAt_eq_some_of_getElem? hpa, hv]⟩
  rw [bucket.Get_of_chain (bucket.chain_eq_some.2 hl), ← hk,
    findKey_self_of_mem hinv.chains.keys hl hlT hpa hal]

theorem run_spec (hash : String → Nat) :
    ∀ (steps : List (Step V)) (s : ArrState V) (T : List Addr) (ins : List (String × V)),
      ArrInv s.heap s.buckets T → Entries hash s.heap T ins →
      ((ins ++ insertedEntries steps).map Prod.fst).Nodup →
      (∀ k s1, k < steps.length → ArrState.run hash s (steps.take k) = some s1 →
        s1.buckets.length < 2 ^ 63) →
      ∃ s1 T1, ArrState.run hash s steps = some s1 ∧ ArrInv s1.heap s1.buckets T1 ∧
        Entries hash s1.heap T1 (ins ++ insertedEntries steps) := by
  intro steps
  induction steps with
  | nil =>
    intro s T ins hinv hent _ _
    exact ⟨s, T, rfl, hinv, by simpa [insertedEntries] using hent⟩
  | cons st rest ih =>
    intro s T ins hinv hent hnd hbound
    have hnow : s.buckets.length < 2 ^ 63 :=
      hbound 0 s (by simp) (by simp [ArrState.run])
    have hnext : ∀ s0, s.step hash st = some s0 →
        ∀ k s1, k < rest.length → ArrState.run hash s0 (rest.take k) = some s1 →
          s1.buckets.length < 2 ^ 63 := by
      intro s0 hs0 k s1 hk hs1
      refine hbound (k + 1) s1 (by simpa using hk) ?_
      simp only [List.take_succ_cons, ArrState.run, hs0]
      exact hs1
    cases st with
    | put key elem =>
      have hnew : key ∉ ins.map Prod.fst := by
        intro hmem
        simp only [insertedEntries, List.map_append, List.map_cons] at hnd
        exact (List.nodup_append.1 hnd).2.2 hmem (List.mem_cons_self _ _)
      obtain ⟨b, r, hb, hput, -, -, hinv1, hent1⟩ :=
        array_put_spec hash hinv hent key elem hnew
      have hlen0 : ¬ s.buckets.length = 0 := Nat.pos_iff_ne_zero.1 hinv.pos
      have hstep : s.step hash (Step.put key elem) =
          some { heap := r.heap,
                 buckets := s.buckets.set ((hash key % u64) % s.buckets.length) r.bkt } := by
        simp only [ArrState.step, if_neg hlen0, hb, hput]
      have hnd1 : (((ins ++ [(key, elem)]) ++ insertedEntries rest).map Prod.fst).Nodup := by
        simpa [insertedEntries] using hnd
      obtain ⟨s1, T1, hrun, hinv2, hent2⟩ :=
        ih { heap := r.heap,
             buckets := s.buckets.set ((hash key % u64) % s.buckets.length) r.bkt }
          _ _ hinv1 hent1 hnd1 (hnext _ hstep)
      refine ⟨s1, T1, ?_, hinv2, by simpa [insertedEntries] using hent2⟩
      simp only [ArrState.run, hstep]
      exact hrun
    | redistribute status pr =>
      have hlen2 : s.buckets.length * 2 < u64 := by
        rw [u64_eq]
        omega
      obtain ⟨r, hr, hinv1, hle, htr, -⟩ := Redistribute_spec pr status hinv hlen2
      have hstep : s.step hash (Step.redistribute status pr) =
          some { heap := r.heap,
                 buckets := if r.changed then r.newBuckets.getD [] else s.buckets } := by
        simp only [ArrState.step, hr]
      have hent1 : Entries hash r.heap T ins := by
        unfold Entries at hent ⊢
        rw [← hent]
        exact List.map_congr_left (fun a _ => htr a)
      obtain ⟨s1, T1, hrun, hinv2, hent2⟩ :=
        ih { heap := r.heap,
             buckets := if r.changed then r.newBuckets.getD [] else s.buckets } T ins
          hinv1 hent1 (by simpa [insertedEntries] using hnd) (hnext _ hstep)
      refine ⟨s1, T1, ?_, hinv2, by simpa [insertedEntries] using hent2⟩
      simp only [ArrState.run, hstep]
      exact hrun

/-- C6: round trip across redistribution.  Start from `n > 0` empty buckets and any heap,
and apply any sequence of steps, of any length, each a `Put` of a freshly created pair
with a new, distinct key into `buckets[hash(key) % len(buckets)]` or a call of
`Redistribute` with any status on a redistributor in any state, whose result replaces
the array when `changed` is true.  The only bound is the one of a Go slice: every array
that a step is applied to has fewer than `2 ^ 63` buckets (the number of buckets changes
only when a `Redistribute` doubles or halves it, so any number of `Put`s is covered:
`length_bound_of_redistributions` derives the bound from `n * 2 ^ r < 2 ^ 63`, with `r`
the number of `Redistribute` steps alone).  The
sequence runs to the end, and afterwards, for every inserted entry `(k, v)`,
`buckets[hash(k) % len(buckets)].Get(k)` returns a pair whose element is `v`. -/
theorem roundtrip_across_redistribution (hash : String → Nat) (n : Nat) (h0 : Heap V)
    (steps : List (Step V)) (hn : 0 < n)
    (hkeys : ((insertedEntries steps).map Prod.fst).Nodup)
    (hbound : ∀ k s, k < steps.length →
      ArrState.run hash { heap := h0, buckets := List.replicate n newBucket }
        (steps.take k) = some s → s.buckets.length < 2 ^ 63) :
    ∃ s, ArrState.run hash { heap := h0, buckets := List.replicate n newBucket } steps
        = some s ∧
      ∀ e ∈ insertedEntries steps, ∃ b g,
        s.buckets[(hash e.1 % u64) % s.buckets.length]? = some b ∧
        b.Get s.heap e.1 = some (some g) ∧ elementAt s.heap g = some e.2 := by
  have hinv : ArrInv h0 (List.replicate n newBucket) [] := by
    refine ⟨by simpa using hn, ⟨by simp, by simp, by simp⟩, ?_, by simp⟩
    intro b hb a ha
    rw [(List.mem_replicate.1 hb).2] at ha
    cases ha
  obtain ⟨s, T, hrun, hinv1, hent1⟩ :=
    run_spec hash steps { heap := h0, buckets := List.replicate n newBucket } [] []
      hinv rfl (by simpa using hkeys) hbound
  refine ⟨s, hrun, ?_⟩
  intro e he
  exact hinv1.get hash hent1 e (by simpa using he)

/-- Witness for C6: after the sample run the first key is still read back. -/
theorem roundtrip_across_redistribution_witness :
    ∃ s, ArrState.run sampleHash { heap := [], buckets := List.replicate 1 newBucket }
        sampleSteps = some s ∧
      ∃ b g, s.buckets[(sampleHash "a" % u64) % s.buckets.length]? = some b ∧
        b.Get s.heap "a" = some (some g) ∧ elementAt s.heap g = some 1 := by
  have hlens : ∀ k, k < 4 →
      ((ArrState.run sampleHash { heap := [], buckets := List.replicate 1 newBucket }
        (sampleSteps.take k)).map (fun s : ArrState Nat => s.buckets.length)).all
          (fun m => decide (m < 2 ^ 63)) = true := by
    decide
  obtain ⟨s, hs, hall⟩ :=
    roundtrip_across_redistribution sampleHash 1 ([] : Heap Nat) sampleSteps
      (by decide) (by decide)
      (fun k s hk hs => by
        have h1 := hlens k hk
        rw [hs] at h1
        exact of_decide_eq_true h1)
  exact ⟨s, hs, hall ("a", 1) (by decide)⟩

/-! ### Updating an existing key in a bucket array -/

@[simp] theorem tripleAt_SetElement_ne (h : Heap V) {a x : Addr} (v : V) (hx : x ≠ a) :
    tripleAt (SetElement h a v) x = tripleAt h x := by
  unfold tripleAt
  rw [getElem?_SetElement, if_neg hx]

theorem tripleAt_SetElement_self (h : Heap V) {a : Addr} {p : Pair V} (v : V)
    (ha : h[a]? = some p) : tripleAt (SetElement h a v) a = some (p.key, p.hash, v) := by
  unfold tripleAt
  rw [getElem?_SetElement, if_pos rfl, ha]
  rfl

/-- Putting a freshly created pair whose key is already stored returns `added = false`,
leaves the bucket as it is and replaces the stored value; the invariant is kept. -/
theorem array_update_spec (hash : String → Nat) {h : Heap V} {bs : List bucket}
    {T : List Addr} {ins : List (String × V)} (hinv : ArrInv h bs T)
    (hent : Entries hash h T ins) (key : String) (elem : V)
    (hmem : key ∈ ins.map Prod.fst) :
    ∃ b r, bs[(hash key % u64) % bs.length]? = some b ∧
      b.Put (newPair hash h key elem).1 (some (newPair hash h key elem).2) none = some r ∧
      r.added = false ∧ r.err = none ∧ r.bkt = b ∧
      ArrInv r.heap bs T ∧
      Entries hash r.heap T (ins.map (fun e => if e.1 = key then (e.1, elem) else e)) := by
  set np : Pair V := { key := key, hash := hash key % u64, element := elem, next := none }
    with hnp
  set h1 : Heap V := h ++ [np] with hh1
  have hnewPair : newPair hash h key elem = (h1, h.length) := rfl
  rw [hnewPair]
  simp only []
  -- the tracked pair that holds the key
  obtain ⟨e0, he0, hk0⟩ := List.mem_map.1 hmem
  have hmem2 : some (e0.1, hash e0.1 % u64, e0.2) ∈
      ins.map (fun e => some (e.1, hash e.1 % u64, e.2)) :=
    List.mem_map.2 ⟨e0, he0, rfl⟩
  rw [← hent] at hmem2
  obtain ⟨a, haT, hta⟩ := List.mem_map.1 hmem2
  obtain ⟨pa, b, l, hpa, hb, hl, hal⟩ := hinv.good a haT
  rw [tripleAt_of_getElem? hpa] at hta
  simp only [Option.some.injEq, Prod.mk.injEq] at hta
  obtain ⟨hka, hha, -⟩ := hta
  rw [hk0] at hka hha
  have hlT : ∀ x ∈ l, x ∈ T := by
    obtain ⟨l2, hl2, hsub⟩ := hinv.bucket_chain (mem_of_getElem?_some hb)
    rw [hl.unique hl2]
    exact hsub
  have hp1 : h1[h.length]? = some np := getElem?_append_length h np
  have hold : ∀ x ∈ T, h1[x]? = h[x]? :=
    fun x hx => getElem?_append_of_lt h np (hinv.chains.valid x hx)
  have hf : findKey h1 key l = some a := by
    have hcongr : findKey h1 key l = findKey h key l := by
      refine findKey_congr key (fun x hx => ?_)
      unfold keyAt
      rw [hold x (hlT x hx)]
    rw [hcongr, ← hka]
    exact findKey_self_of_mem hinv.chains.keys hl hlT hpa hal
  have hput := bucket.Put_found none (hl.append np) hp1 hf
  have hpa1 : h1[a]? = some pa := by rw [hold a haT]; exact hpa
  have hget : ∀ x ∈ T, x ≠ a → (SetElement h1 a elem)[x]? = h[x]? := by
    intro x hx hxa
    rw [getElem?_SetElement, if_neg hxa, hold x hx]
  have hgeta : (SetElement h1 a elem)[a]? = some { pa with element := elem } := by
    rw [getElem?_SetElement, if_pos rfl, hpa1]
    rfl
  have hkeys : ∀ x ∈ T, keyAt (SetElement h1 a elem) x = keyAt h x := by
    intro x hx
    rw [keyAt_SetElement]
    unfold keyAt
    rw [hold x hx]
  refine ⟨b, _, by rw [← hha]; exact hb, hput, rfl, rfl, rfl, ?_, ?_⟩
  · refine ⟨hinv.pos, ⟨?_, ?_, ?_⟩, hinv.heads, ?_⟩
    · rw [List.map_congr_left hkeys]
      exact hinv.chains.keys
    · intro x hx
      simp only [length_SetElement, List.length_append, List.length_singleton]
      exact Nat.lt_succ_of_lt (hinv.chains.valid x hx)
    · intro x hx
      obtain ⟨lx, hlx, hsub⟩ := hinv.chains.closed x hx
      exact ⟨lx, (hlx.append np).setElement a elem, hsub⟩
    · intro x hx
      obtain ⟨px, bx, lx, h3, h4, h5, h6⟩ := hinv.good x hx
      by_cases hxa : x = a
      · subst hxa
        rw [hpa] at h3
        cases h3
        exact ⟨{ pa with element := elem }, bx, lx, hgeta, h4,
          (h5.append np).setElement x elem, h6⟩
      · exact ⟨px, bx, lx, by rw [hget x hx hxa]; exact h3, h4,
          (h5.append np).setElement a elem, h6⟩
  · show Entries hash (SetElement h1 a elem) T _
    unfold Entries at hent ⊢
    have hpoint : ∀ x ∈ T, tripleAt (SetElement h1 a elem) x =
        (tripleAt h x).map (fun t => if t.1 = key then (t.1, t.2.1, elem) else t) := by
      intro x hx
      by_cases hxa : x = a
      · subst hxa
        rw [tripleAt_SetElement_self h1 elem hpa1, tripleAt_of_getElem? hpa]
        simp [hka]
      · rw [tripleAt_SetElement_ne h1 elem hxa, tripleAt_append_of_lt h [np]
          (hinv.chains.valid x hx)]
        obtain ⟨px, hpx⟩ := getElem?_of_lt h (hinv.chains.valid x hx)
        have hkx : px.key ≠ key := by
          intro e
          apply hxa
          refine keyAt_inj_of_nodup hinv.chains.keys hx haT ?_
          rw [keyAt_eq_some_of_getElem? hpx, keyAt_eq_some_of_getElem? hpa, e, hka]
        rw [tripleAt_of_getElem? hpx]
        simp [hkx]
    have e1 : T.map (fun x => (tripleAt h x).map
          (fun t => if t.1 = key then (t.1, t.2.1, elem) else t)) =
        (T.map (tripleAt h)).map
          (Option.map (fun t => if t.1 = key then (t.1, t.2.1, elem) else t)) := by
      rw [List.map_map]
      rfl
    rw [List.map_congr_left hpoint, e1, hent, List.map_map, List.map_map]
    refine List.map_congr_left (fun e _ => ?_)
    by_cases hek : e.1 = key
    · simp [hek]
    · simp [hek]

/-! ### Segments -/

/-- The post-mutation check of a segment always returns on an array that satisfies the
invariant and keeps the invariant, whatever the redistributor decides. -/
theorem segment.redistribute_spec {h : Heap V} {T : List Addr} (s : segment)
    (pairTotal bucketSize : Nat) (hinv : ArrInv h s.buckets T)
    (hlen : s.buckets.length * 2 < u64) :
    ∃ s1 h1, s.redistribute h pairTotal bucketSize = some (s1, h1) ∧
      ArrInv h1 s1.buckets T ∧ s1.buckets.length ≤ 2 * s.buckets.length ∧
      (∀ x, tripleAt h1 x = tripleAt h x) := by
  have hne : ¬ s.buckets.length = 0 := Nat.pos_iff_ne_zero.1 hinv.pos
  unfold segment.redistribute pairRedistributorImpl.UpdateThreshold
  simp only [if_neg hne]
  obtain ⟨r, hr, hinv1, hle, htr, -⟩ :=
    Redistribute_spec
      (pairRedistributorImpl.CheckBucketStatus
        { s.pairRedistributor with
          upperThreshold := s.pairRedistributor.loadFactor
            (if pairTotal / s.buckets.length < 100 then 100
              else pairTotal / s.buckets.length) % u64 }
        pairTotal bucketSize).2
      (pairRedistributorImpl.CheckBucketStatus
        { s.pairRedistributor with
          upperThreshold := s.pairRedistributor.loadFactor
            (if pairTotal / s.buckets.length < 100 then 100
              else pairTotal / s.buckets.length) % u64 }
        pairTotal bucketSize).1 hinv hlen
  rw [hr]
  exact ⟨_, _, rfl, hinv1, hle, htr⟩


/-- The method `Segment.Put` of a freshly created pair with a new key returns `added = true` with no
error and keeps the invariant, the new pair being tracked as well. -/
theorem segment.Put_new (hash : String → Nat) {h : Heap V} {T : List Addr}
    {ins : List (String × V)} (s : segment) (hinv : ArrInv h s.buckets T)
    (hent : Entries hash h T ins) (key : String) (elem : V)
    (hnew : key ∉ ins.map Prod.fst) (hlen : s.buckets.length * 2 < u64) :
    ∃ r, s.Put (newPair hash h key elem).1 (newPair hash h key elem).2 = some r ∧
      r.added = true ∧ r.err = none ∧
      ArrInv r.heap r.seg.buckets (T ++ [h.length]) ∧
      Entries hash r.heap (T ++ [h.length]) (ins ++ [(key, elem)]) ∧
      r.seg.buckets.length ≤ 2 * s.buckets.length := by
  obtain ⟨b, r, hb, hput, hadd, herr, hinv1, hent1⟩ :=
    array_put_spec hash hinv hent key elem hnew
  have hne : ¬ s.buckets.length = 0 := Nat.pos_iff_ne_zero.1 hinv.pos
  have hp : (newPair hash h key elem).1[(newPair hash h key elem).2]? =
      some { key := key, hash := hash key % u64, element := elem, next := none } :=
    getElem?_append_length h _
  have hlen1 : (s.buckets.set ((hash key % u64) % s.buckets.length) r.bkt).length * 2
      < u64 := by
    rw [List.length_set]
    exact hlen
  obtain ⟨s2, h2, hred, hinv2, hle, htr⟩ :=
    segment.redistribute_spec
      { s with buckets := s.buckets.set ((hash key % u64) % s.buckets.length) r.bkt,
               pairTotal := (s.pairTotal + 1) % u64 }
      ((s.pairTotal + 1) % u64) r.bkt.Size hinv1 hlen1
  refine ⟨{ added := true, err := r.err, seg := s2, heap := h2 }, ?_, rfl, herr, hinv2, ?_, ?_⟩
  · unfold segment.Put
    simp only [hp, if_neg hne, hb, hput, hadd, if_true, hred]
  · unfold Entries at hent1 ⊢
    rw [← hent1]
    exact List.map_congr_left (fun a _ => htr a)
  · simpa using hle

/-- The method `Segment.Put` of a freshly created pair whose key is already stored returns
`added = false` with no error, replaces the stored value and keeps the invariant and
the bucket array. -/
theorem segment.Put_existing (hash : String → Nat) {h : Heap V} {T : List Addr}
    {ins : List (String × V)} (s : segment) (hinv : ArrInv h s.buckets T)
    (hent : Entries hash h T ins) (key : String) (elem : V)
    (hmem : key ∈ ins.map Prod.fst) :
    ∃ r, s.Put (newPair hash h key elem).1 (newPair hash h key elem).2 = some r ∧
      r.added = false ∧ r.err = none ∧ r.seg.buckets = s.buckets ∧
      ArrInv r.heap r.seg.buckets T ∧
      Entries hash r.heap T (ins.map (fun e => if e.1 = key then (e.1, elem) else e)) := by
  obtain ⟨b, r, hb, hput, hadd, herr, hbkt, hinv1, hent1⟩ :=
    array_update_spec hash hinv hent key elem hmem
  have hne : ¬ s.buckets.length = 0 := Nat.pos_iff_ne_zero.1 hinv.pos
  have hp : (newPair hash h key elem).1[(newPair hash h key elem).2]? =
      some { key := key, hash := hash key % u64, element := elem, next := none } :=
    getElem?_append_length h _
  have hset : s.buckets.set ((hash key % u64) % s.buckets.length) r.bkt = s.buckets := by
    rw [hbkt]
    exact list_set_self _ _ _ hb
  refine ⟨{ added := false, err := r.err, heap := r.heap,
            seg := { buckets := s.buckets.set ((hash key % u64) % s.buckets.length) r.bkt,
                     pairTotal := s.pairTotal,
                     pairRedistributor := s.pairRedistributor } },
    ?_, rfl, herr, hset, ?_, hent1⟩
  · unfold segment.Put
    simp only [hp, if_neg hne, hb, hput, hadd, Bool.false_eq_true, if_false]
  · show ArrInv r.heap (s.buckets.set _ r.bkt) T
    rw [hset]
    exact hinv1

/-- Under the invariant `Segment.GetWithHash` finds every stored entry. -/
theorem segment.GetWithHash_spec (hash : String → Nat) {h : Heap V} {T : List Addr}
    {ins : List (String × V)} (s : segment) (hinv : ArrInv h s.buckets T)
    (hent : Entries hash h T ins) (e : String × V) (he : e ∈ ins) :
    ∃ g, s.GetWithHash h e.1 (hash e.1 % u64) = some (some g) ∧
      elementAt h g = some e.2 := by
  obtain ⟨b, g, hb, hget, hel⟩ := hinv.get hash hent e he
  have hne : ¬ s.buckets.length = 0 := Nat.pos_iff_ne_zero.1 hinv.pos
  refine ⟨g, ?_, hel⟩
  unfold segment.GetWithHash
  simp only [if_neg hne, hb, hget]

/-! ### Segment selection -/

/-- For a map built with a legal concurrency, `findSegment` selects an existing segment,
and the selection only depends on the concurrency and the number of segments. -/
theorem findSegment_valid (cm : ConcurrentMapImpl) (keyHash : Nat)
    (hc : 1 ≤ cm.concurrency) (hlen : cm.segments.length = cm.concurrency.toNat) :
    ∃ i, cm.findSegment keyHash = some i ∧ i < cm.segments.length := by
  unfold ConcurrentMapImpl.findSegment
  by_cases h1 : cm.concurrency = 1
  · have hl : 0 < cm.segments.length := by
      rw [hlen, h1]
      decide
    rw [if_pos h1, if_pos hl]
    exact ⟨0, rfl, hl⟩
  · rw [if_neg h1]
    have hd : 0 < cm.concurrency - 1 := by omega
    have hd0 : ¬ cm.concurrency - 1 = 0 := by omega
    simp only [if_neg hd0]
    set x : Int := (((if keyHash > 2 ^ 32 - 1 then (keyHash >>> 32) % 2 ^ 32
      else keyHash % 2 ^ 32) >>> 16 : Nat) : Int) with hx
    have hnn : 0 ≤ Int.tmod x (cm.concurrency - 1) :=
      Int.tmod_nonneg _ (by rw [hx]; exact Int.ofNat_nonneg _)
    have hlt : Int.tmod x (cm.concurrency - 1) < cm.concurrency - 1 :=
      Int.tmod_lt_of_pos _ hd
    have hlt2 : (Int.tmod x (cm.concurrency - 1)).toNat < cm.segments.length := by
      rw [hlen]
      omega
    rw [if_pos ⟨hnn, hlt2⟩]
    exact ⟨_, rfl, hlt2⟩

theorem findSegment_congr (cm cm1 : ConcurrentMapImpl) (keyHash : Nat)
    (hc : cm1.concurrency = cm.concurrency) (hl : cm1.segments.length = cm.segments.length) :
    cm1.findSegment keyHash = cm.findSegment keyHash := by
  unfold ConcurrentMapImpl.findSegment
  rw [hc, hl]

/-! ### Maps -/

theorem NewConcurrentMap_ok (concurrency : Int) (r : Option pairRedistributorImpl)
    (hc : 0 < concurrency) (hc2 : concurrency ≤ 65536) :
    ∃ segs, NewConcurrentMap concurrency r =
        some { cmap := some { concurrency := concurrency, segments := segs, total := 0 },
               err := none } ∧
      segs.length = concurrency.toNat ∧
      ∀ s ∈ segs, s.buckets = List.replicate DefaultBucketNum newBucket := by
  obtain ⟨segs, hs, hl, hall⟩ := newSegments_eq r concurrency.toNat
  refine ⟨segs, ?_, hl, ?_⟩
  · unfold NewConcurrentMap
    have h0 : ¬ concurrency ≤ 0 := by omega
    have h1 : ¬ concurrency > MaxConcurrency := by
      unfold MaxConcurrency
      omega
    rw [if_neg h0, if_neg h1, hs]
  · intro s hsmem
    obtain ⟨s0, hs0, -, hb⟩ := newSegment_default r
    have := hall s hsmem
    rw [hs0] at this
    cases this
    exact hb

theorem ArrInv.replicate (h : Heap V) {n : Nat} (hn : 0 < n) :
    ArrInv h (List.replicate n newBucket) [] := by
  refine ⟨by simpa using hn, ⟨by simp, by simp, by simp⟩, ?_, by simp⟩
  intro b hb a ha
  rw [(List.mem_replicate.1 hb).2] at ha
  cases ha

/-! ### Deleting an absent key -/

theorem scanDelete_of_scanKey_none {h : Heap V} {key : String} :
    ∀ (fuel : Nat) (s : Option Addr) (prev : List Addr),
      scanKey h key fuel s = some none →
      ∃ prev1, scanDelete h key fuel s prev = some (prev1, none) := by
  intro fuel
  induction fuel with
  | zero =>
    intro s prev hs
    cases s with
    | none => exact ⟨prev, rfl⟩
    | some a => simp [scanKey] at hs
  | succ n ih =>
    intro s prev hs
    cases s with
    | none => exact ⟨prev, rfl⟩
    | some a =>
      simp only [scanKey] at hs
      simp only [scanDelete]
      cases ha : h[a]? with
      | none => rw [ha] at hs; cases hs
      | some p =>
        rw [ha] at hs
        simp only [] at hs ⊢
        by_cases hk : p.key = key
        · rw [if_pos hk] at hs
          cases hs
        · rw [if_neg hk] at hs
          rw [if_neg hk]
          exact ih p.next (prev ++ [a]) hs

theorem bucket.Delete_of_Get_none {b : bucket} {h : Heap V} {key : String}
    (lock : Option Nat) (hg : b.Get h key = some none) :
    b.Delete h key lock =
      some { deleted := false, heap := h, bkt := b, lock := useLock lock } := by
  unfold bucket.Get at hg
  unfold bucket.Delete
  cases hb : b.GetFirstPair with
  | none => rfl
  | some hd =>
    rw [hb] at hg
    obtain ⟨prev1, hsd⟩ := scanDelete_of_scanKey_none h.length (some hd) [] hg
    simp only [hsd]

/-- C4: for every map state and every key `k` that is not present (`Get(k)` returns
nil), `Delete(k)` returns false and changes nothing: the map, with its `Len()`, and the
heap are as before, so `Get` of every key returns what it returned before. -/
theorem delete_absent (hash : String → Nat) (cm : ConcurrentMapImpl) (h : Heap V)
    (k : String) (habs : cm.Get hash h k = some none) :
    ∃ r, cm.Delete hash h k = some r ∧ r.deleted = false ∧ r.cmap.Len = cm.Len ∧
      r.cmap = cm ∧ r.heap = h ∧
      ∀ k2, r.cmap.Get hash r.heap k2 = cm.Get hash h k2 := by
  unfold ConcurrentMapImpl.Get at habs
  simp only [] at habs
  cases hf : cm.findSegment (hash k % u64) with
  | none => rw [hf] at habs; cases habs
  | some i =>
    rw [hf] at habs
    simp only [] at habs
    cases hs : cm.segments[i]? with
    | none => rw [hs] at habs; cases habs
    | some s =>
      rw [hs] at habs
      simp only [] at habs
      have hgw : s.GetWithHash h k (hash k % u64) = some none := by
        cases hq : s.GetWithHash h k (hash k % u64) with
        | none => rw [hq] at habs; cases habs
        | some o =>
          cases o with
          | none => rfl
          | some g =>
            rw [hq] at habs
            simp only [] at habs
            cases hpg : h[g]? with
            | none => rw [hpg] at habs; cases habs
            | some pg => rw [hpg] at habs; cases habs
      unfold segment.GetWithHash at hgw
      by_cases hlen : s.buckets.length = 0
      · rw [if_pos hlen] at hgw
        cases hgw
      · rw [if_neg hlen] at hgw
        cases hb : s.buckets[(hash k % u64) % s.buckets.length]? with
        | none => rw [hb] at hgw; cases hgw
        | some b =>
          rw [hb] at hgw
          simp only [] at hgw
          have hdel := bucket.Delete_of_Get_none none hgw
          have hsegdel : s.Delete hash h k =
              some { deleted := false, seg := s, heap := h } := by
            unfold segment.Delete
            simp only [if_neg hlen, hb, hdel, Bool.false_eq_true, if_false,
              list_set_self _ _ _ hb]
          have hmap : cm.Delete hash h k =
              some { deleted := false, cmap := cm, heap := h } := by
            unfold ConcurrentMapImpl.Delete
            simp only [hf, hs, hsegdel, Bool.false_eq_true, if_false,
              list_set_self _ _ _ hs]
          exact ⟨_, hmap, rfl, rfl, rfl, rfl, fun _ => rfl⟩

/-! ### The map on a state with stale links -/

/-- C3, evaluated at the failing input: in the map state reached by `staleOps`, the key
`"k575"` is present with value 3 and `Delete("k575")` returns true, taking `Len()` from
13 to 12, but the following `Get("k575")` still returns 3 instead of nil. -/
theorem delete_present_reappears :
    deleteTrace = some (some 3, true, some 3, 13, 12) := by
  decide!

/-- C2, evaluated at the failing input: in the map state reached by `staleOps`, the key
`"k638"` is not present and `Put("k638", 100)` returns `added = true`, taking `Len()`
from 13 to 14, but the following `Get("k638")` returns 5 instead of 100. -/
theorem put_absent_reverted :
    putTrace = some (none, true, some 5, 13, 14) := by
  decide!

/-! ### Witnesses for the map theorems -/

/-- Witness for C4: deleting the absent key `"b"` from `sampleMap` keeps `"a"`. -/
theorem delete_absent_witness :
    sampleMap.Get sampleHash sampleMapHeap "b" = some none ∧
    ∃ r, sampleMap.Delete sampleHash sampleMapHeap "b" = some r ∧ r.deleted = false ∧
      r.cmap.Len = 1 ∧ r.cmap.Get sampleHash r.heap "a" = some (some 10) := by
  refine ⟨by decide, ?_⟩
  obtain ⟨r, hr, hd, hl, -, -, hg⟩ :=
    delete_absent sampleHash sampleMap sampleMapHeap "b" (by decide)
  exact ⟨r, hr, hd, hl, (hg "a").trans (by decide)⟩

/-! ### Classification of a bucket -/

theorem newDefaultPairRedistributor_default :
    newDefaultPairRedistributor none DefaultBucketNum = some defaultPr := by
  simp [newDefaultPairRedistributor, pairRedistributorImpl.UpdateThreshold, DefaultBucketNum,
    defaultPr, DefaultBucketLoadFactor, u64_eq]

/-- C11: for every redistributor state and every `pairTotal`,
`CheckBucketStatus(pairTotal, 1001)` returns Overweight, and so does every call with
`bucketSize > 1000`; the same holds for the state left by any `UpdateThreshold` call,
whatever threshold it has stored. -/
theorem CheckBucketStatus_hard_cap (pr : pairRedistributorImpl) (pairTotal : Nat) :
    (pr.CheckBucketStatus pairTotal 1001).1 = BucketStatusOverweight ∧
    (∀ bucketSize, bucketSize > 1000 →
      (pr.CheckBucketStatus pairTotal bucketSize).1 = BucketStatusOverweight) ∧
    (∀ total bucketNum pr1, pr.UpdateThreshold total bucketNum = some pr1 →
      ∀ bucketSize, bucketSize > 1000 →
        (pr1.CheckBucketStatus pairTotal bucketSize).1 = BucketStatusOverweight) := by
  have key : ∀ (q : pairRedistributorImpl) (s : Nat), s > 1000 →
      (q.CheckBucketStatus pairTotal s).1 = BucketStatusOverweight := by
    intro q s hs
    unfold pairRedistributorImpl.CheckBucketStatus
    rw [if_pos (Or.inl (by simpa [DefaultBucketMaxSize] using hs))]
  exact ⟨key pr 1001 (by decide), key pr, fun _ _ pr1 _ => key pr1⟩

/-- C12, the claim as stated fails: the default redistributor has threshold 75, and a
bucket of size 75, which exceeds neither 1000 nor the threshold, is classified
Overweight. -/
theorem CheckBucketStatus_at_threshold :
    newDefaultPairRedistributor none DefaultBucketNum = some defaultPr ∧
    defaultPr.upperThreshold = 75 ∧
    (defaultPr.CheckBucketStatus 75 75).1 = BucketStatusOverweight ∧
    ¬ (75 > DefaultBucketMaxSize ∨ 75 > defaultPr.upperThreshold) := by
  refine ⟨newDefaultPairRedistributor_default, rfl, ?_, ?_⟩
  · simp [pairRedistributorImpl.CheckBucketStatus, defaultPr]
  · simp [DefaultBucketMaxSize, defaultPr]

/-- C12, amended: for every redistributor state with threshold `t` and every bucket size
`s`, `CheckBucketStatus` returns Overweight exactly when `s > 1000` or `s >= t`, and then
adds one to the overweight counter (in `uint64` arithmetic, exactly one more unless the
counter was `2 ^ 64 - 1`) and leaves the rest of the state alone; in every other case it
returns Normal, leaves the overweight counter alone and adds one to the empty counter
if and only if `s = 0`.  It never returns Underweight and never changes the threshold or
the load factor. -/
theorem CheckBucketStatus_spec (pr : pairRedistributorImpl) (pairTotal s : Nat) :
    ((pr.CheckBucketStatus pairTotal s).1 = BucketStatusOverweight ↔
      (s > 1000 ∨ s ≥ pr.upperThreshold)) ∧
    (s > 1000 ∨ s ≥ pr.upperThreshold →
      (pr.CheckBucketStatus pairTotal s).2.overweightBucketCount =
        (pr.overweightBucketCount + 1) % u64 ∧
      (pr.overweightBucketCount + 1 < u64 →
        (pr.CheckBucketStatus pairTotal s).2.overweightBucketCount =
          pr.overweightBucketCount + 1) ∧
      (pr.CheckBucketStatus pairTotal s).2.emptyBucketCount = pr.emptyBucketCount) ∧
    (¬ (s > 1000 ∨ s ≥ pr.upperThreshold) →
      (pr.CheckBucketStatus pairTotal s).1 = BucketStatusNormal ∧
      (pr.CheckBucketStatus pairTotal s).2.overweightBucketCount =
        pr.overweightBucketCount ∧
      (s = 0 → (pr.CheckBucketStatus pairTotal s).2.emptyBucketCount =
        (pr.emptyBucketCount + 1) % u64 ∧
        (pr.emptyBucketCount + 1 < u64 →
          (pr.CheckBucketStatus pairTotal s).2.emptyBucketCount =
            pr.emptyBucketCount + 1)) ∧
      (s ≠ 0 → (pr.CheckBucketStatus pairTotal s).2.emptyBucketCount =
        pr.emptyBucketCount)) ∧
    (pr.CheckBucketStatus pairTotal s).1 ≠ BucketStatusUnderweight ∧
    (pr.CheckBucketStatus pairTotal s).2.upperThreshold = pr.upperThreshold ∧
    (pr.CheckBucketStatus pairTotal s).2.loadFactor = pr.loadFactor := by
  have hOU : BucketStatusOverweight ≠ BucketStatusUnderweight := by decide
  have hNU : BucketStatusNormal ≠ BucketStatusUnderweight := by decide
  have hNO : BucketStatusNormal ≠ BucketStatusOverweight := by decide
  unfold pairRedistributorImpl.CheckBucketStatus
  by_cases hc : s > DefaultBucketMaxSize ∨ s ≥ pr.upperThreshold
  · have hc1 : s > 1000 ∨ s ≥ pr.upperThreshold := hc
    rw [if_pos hc]
    refine ⟨⟨fun _ => hc1, fun _ => rfl⟩, fun _ => ⟨rfl, fun hlt => Nat.mod_eq_of_lt hlt, rfl⟩,
      fun hn => absurd hc1 hn, hOU, rfl, rfl⟩
  · have hc1 : ¬ (s > 1000 ∨ s ≥ pr.upperThreshold) := hc
    rw [if_neg hc]
    by_cases h0 : s = 0
    · rw [if_pos h0]
      refine ⟨⟨fun hh => absurd hh hNO, fun hh => absurd hh hc1⟩,
        fun hh => absurd hh hc1,
        fun _ => ⟨rfl, rfl, fun _ => ⟨rfl, fun hlt => Nat.mod_eq_of_lt hlt⟩,
          fun hne => absurd h0 hne⟩, hNU, rfl, rfl⟩
    · rw [if_neg h0]
      refine ⟨⟨fun hh => absurd hh hNO, fun hh => absurd hh hc1⟩,
        fun hh => absurd hh hc1,
        fun _ => ⟨rfl, rfl, fun hz => absurd hz h0, fun _ => rfl⟩, hNU, rfl, rfl⟩
/-! ### The counters across `Redistribute` -/

/-- A resize that returns either changed the array and reset both counters, or found the
new count equal to the current one and reset both counters. -/
theorem resize_counters {pr : pairRedistributorImpl} {h : Heap V} {bs : List bucket}
    {n : Nat} {r : RedistributeResult V} (hr : pr.resize h bs n = some r) :
    r.pr.counters = (0, 0) ∧ (r.changed = false → n = bs.length) := by
  unfold pairRedistributorImpl.resize at hr
  simp only [] at hr
  split at hr
  · rename_i heq
    cases hr
    exact ⟨rfl, fun _ => heq⟩
  · split at hr
    · cases hr
    · split at hr
      · cases hr
      · cases hr
        exact ⟨rfl, fun hf => by cases hf⟩

/-- C14, the claim as stated fails: after the default redistributor has classified one
bucket of size 80 as Overweight, `Redistribute` on the 16 buckets of a new segment
returns `changed = false` (1 * 4 < 16) and the overweight counter is still 1. -/
theorem Redistribute_keeps_counters : resetTrace = some (false, 1, 0) := by
  decide

/-- C14, amended: `Redistribute` resets the counters only past its `switch`.  On the
early returns (status Overweight with fewer than a quarter of the buckets flagged,
status Underweight with fewer than 100 buckets or fewer than a quarter of them flagged
empty, any other status) it returns `changed = false` with the redistributor, counters
included, and the heap exactly as they were.  Whenever it returns `changed = false`,
either the redistributor is unchanged, or the status was Overweight on an empty array
and both counters are 0.  Whenever it returns `changed = true`, both counters are 0. -/
theorem Redistribute_counters (pr : pairRedistributorImpl) (h : Heap V) (status : Nat)
    (buckets : List bucket) (hlen : buckets.length < 2 ^ 63) :
    (status = BucketStatusOverweight →
      pr.overweightBucketCount * 4 % u64 < buckets.length →
      pr.Redistribute h status buckets =
        some { newBuckets := none, changed := false, pr := pr, heap := h }) ∧
    (status = BucketStatusUnderweight →
      (buckets.length < 100 ∨ pr.emptyBucketCount * 4 % u64 < buckets.length) →
      pr.Redistribute h status buckets =
        some { newBuckets := none, changed := false, pr := pr, heap := h }) ∧
    (status ≠ BucketStatusOverweight → status ≠ BucketStatusUnderweight →
      pr.Redistribute h status buckets =
        some { newBuckets := none, changed := false, pr := pr, heap := h }) ∧
    (∀ r, pr.Redistribute h status buckets = some r → r.changed = false →
      r.pr = pr ∨
      (status = BucketStatusOverweight ∧ buckets.length = 0 ∧
        r.pr.overweightBucketCount = 0 ∧ r.pr.emptyBucketCount = 0)) ∧
    (∀ r, pr.Redistribute h status buckets = some r → r.changed = true →
      r.pr.overweightBucketCount = 0 ∧ r.pr.emptyBucketCount = 0) := by
  have hOU : BucketStatusUnderweight ≠ BucketStatusOverweight := by decide
  refine ⟨?_, ?_, ?_, ?_, ?_⟩
  · intro hs hc
    unfold pairRedistributorImpl.Redistribute
    simp only [if_pos hs, if_pos hc]
  · intro hs hc
    unfold pairRedistributorImpl.Redistribute
    have hs2 : ¬ status = BucketStatusOverweight := by rw [hs]; exact hOU
    simp only [if_neg hs2, if_pos hs, if_pos hc]
  · intro hs1 hs2
    unfold pairRedistributorImpl.Redistribute
    simp only [if_neg hs1, if_neg hs2]
  · intro r hr hch
    unfold pairRedistributorImpl.Redistribute at hr
    simp only [] at hr
    split at hr
    · rename_i hs
      split at hr
      · cases hr
        exact Or.inl rfl
      · obtain ⟨hc0, hn⟩ := resize_counters hr
        have hn2 := hn hch
        have hmod : buckets.length * 2 % u64 = buckets.length * 2 :=
          Nat.mod_eq_of_lt (by rw [u64_eq]; omega)
        rw [hmod] at hn2
        have hz : buckets.length = 0 := by omega
        have h1 : r.pr.overweightBucketCount = 0 := congrArg Prod.fst hc0
        have h2 : r.pr.emptyBucketCount = 0 := congrArg Prod.snd hc0
        exact Or.inr ⟨hs, hz, h1, h2⟩
    · split at hr
      · split at hr
        · cases hr
          exact Or.inl rfl
        · rename_i hcond
          obtain ⟨-, hn⟩ := resize_counters hr
          have hn2 := hn hch
          have h100 : 100 ≤ buckets.length := by
            by_contra hlt
            exact hcond (Or.inl (by omega))
          have h2 : ¬ buckets.length / 2 < 2 := by omega
          rw [if_neg h2] at hn2
          omega
      · cases hr
        exact Or.inl rfl
  · intro r hr hch
    unfold pairRedistributorImpl.Redistribute at hr
    simp only [] at hr
    have hres : ∀ n, pr.resize h buckets n = some r →
        r.pr.overweightBucketCount = 0 ∧ r.pr.emptyBucketCount = 0 := by
      intro n hn
      obtain ⟨hc0, -⟩ := resize_counters hn
      exact ⟨congrArg Prod.fst hc0, congrArg Prod.snd hc0⟩
    split at hr
    · split at hr
      · cases hr
        cases hch
      · exact hres _ hr
    · split at hr
      · split at hr
        · cases hr
          cases hch
        · exact hres _ hr
      · cases hr
        cases hch

/-- Witness for C14: sixteen empty buckets and a redistributor with one bucket flagged. -/
theorem Redistribute_counters_witness :
    (List.replicate 16 newBucket).length < 2 ^ 63 ∧
    samplePr.Redistribute ([] : Heap Nat) BucketStatusOverweight (List.replicate 16 newBucket)
      = some { newBuckets := none, changed := false, pr := samplePr, heap := [] } :=
  ⟨by decide,
   (Redistribute_counters samplePr ([] : Heap Nat) BucketStatusOverweight
      (List.replicate 16 newBucket) (by decide)).1 rfl (by decide)⟩

/-! ### The index computed by `findSegment` -/

theorem tmod_natCast (m : Nat) (c : Int) (hc : 2 ≤ c) :
    Int.tmod (m : Int) (c - 1) = ((m % (c - 1).toNat : Nat) : Int) := by
  have hpos : (0 : Int) ≤ c - 1 := by omega
  have hcast : c - 1 = (((c - 1).toNat : Nat) : Int) := (Int.toNat_of_nonneg hpos).symm
  rw [Int.ofNat_tmod, ← hcast]

theorem findSegment_eq (cm : ConcurrentMapImpl) (keyHash : Nat) (hk : keyHash < 2 ^ 64)
    (hc : 2 ≤ cm.concurrency) (hlen : cm.segments.length = cm.concurrency.toNat) :
    cm.findSegment keyHash =
      some (((if keyHash > 2 ^ 32 - 1 then keyHash >>> 32 else keyHash) >>> 16) %
        (cm.concurrency - 1).toNat) := by
  have hx : (if keyHash > 2 ^ 32 - 1 then (keyHash >>> 32) % 2 ^ 32 else keyHash % 2 ^ 32) =
      (if keyHash > 2 ^ 32 - 1 then keyHash >>> 32 else keyHash) := by
    split
    · apply Nat.mod_eq_of_lt
      rw [Nat.shiftRight_eq_div_pow]
      omega
    · apply Nat.mod_eq_of_lt
      omega
  unfold ConcurrentMapImpl.findSegment
  have h1 : ¬ cm.concurrency = 1 := by omega
  have hd0 : ¬ cm.concurrency - 1 = 0 := by omega
  simp only [if_neg h1, if_neg hd0]
  rw [hx, tmod_natCast _ _ hc]
  have hlt : ((if keyHash > 2 ^ 32 - 1 then keyHash >>> 32 else keyHash) >>> 16) %
      (cm.concurrency - 1).toNat < cm.segments.length := by
    have hm : 0 < (cm.concurrency - 1).toNat := by omega
    have := Nat.mod_lt ((if keyHash > 2 ^ 32 - 1 then keyHash >>> 32 else keyHash) >>> 16) hm
    rw [hlen]
    omega
  rw [if_pos ⟨Int.ofNat_nonneg _, by rw [Int.toNat_ofNat]; exact hlt⟩, Int.toNat_ofNat]

theorem Put_findSegment (hash : String → Nat) (cm : ConcurrentMapImpl) (h : Heap V)
    (key : String) (elem : V) (r : MapPutResult V) (hr : cm.Put hash h key elem = some r)
    (keyHash : Nat) : r.cmap.findSegment keyHash = cm.findSegment keyHash := by
  unfold ConcurrentMapImpl.Put at hr
  simp only [] at hr
  split at hr
  · cases hr
  · split at hr
    · cases hr
    · split at hr
      · cases hr
      · cases hr
        exact findSegment_congr _ _ _ rfl (List.length_set _ _ _)

theorem Delete_findSegment (hash : String → Nat) (cm : ConcurrentMapImpl) (h : Heap V)
    (key : String) (r : MapDeleteResult V) (hr : cm.Delete hash h key = some r)
    (keyHash : Nat) : r.cmap.findSegment keyHash = cm.findSegment keyHash := by
  unfold ConcurrentMapImpl.Delete at hr
  split at hr
  · cases hr
  · split at hr
    · cases hr
    · split at hr
      · cases hr
      · split at hr
        · cases hr
          exact findSegment_congr _ _ _ rfl (List.length_set _ _ _)
        · cases hr
          exact findSegment_congr _ _ _ rfl (List.length_set _ _ _)

/-- C15: for a map with concurrency `c >= 1` and `c` segments and every 64-bit hash `h`,
`findSegment` returns segment 0 when `c = 1` and otherwise the segment with index
`(x >> 16) mod (c - 1)`, where `x` is `h >> 32` (the upper 32 bits) when `h > 2 ^ 32 - 1`
and `h` itself otherwise.  The index depends on the hash, the concurrency and the number
of segments only, and `Put` and `Delete` change neither, so the same hash selects the
same segment before and after every `Put` and `Delete`. -/
theorem findSegment_spec (hash : String → Nat) (cm : ConcurrentMapImpl) (keyHash : Nat)
    (hk : keyHash < 2 ^ 64) (hc : 1 ≤ cm.concurrency)
    (hlen : cm.segments.length = cm.concurrency.toNat) :
    (cm.concurrency = 1 → cm.findSegment keyHash = some 0) ∧
    (cm.concurrency ≠ 1 →
      cm.findSegment keyHash =
        some (((if keyHash > 2 ^ 32 - 1 then keyHash >>> 32 else keyHash) >>> 16) %
          (cm.concurrency - 1).toNat)) ∧
    (∀ cm1 : ConcurrentMapImpl, cm1.concurrency = cm.concurrency →
      cm1.segments.length = cm.segments.length →
      cm1.findSegment keyHash = cm.findSegment keyHash) ∧
    (∀ (h : Heap V) (key : String) (elem : V) (r : MapPutResult V),
      cm.Put hash h key elem = some r →
      r.cmap.findSegment keyHash = cm.findSegment keyHash) ∧
    (∀ (h : Heap V) (key : String) (r : MapDeleteResult V),
      cm.Delete hash h key = some r →
      r.cmap.findSegment keyHash = cm.findSegment keyHash) := by
  refine ⟨?_, ?_, fun cm1 h1 h2 => findSegment_congr cm cm1 keyHash h1 h2,
    fun h key elem r hr => Put_findSegment hash cm h key elem r hr keyHash,
    fun h key r hr => Delete_findSegment hash cm h key r hr keyHash⟩
  · intro h1
    have hl : 0 < cm.segments.length := by
      rw [hlen, h1]
      decide
    unfold ConcurrentMapImpl.findSegment
    rw [if_pos h1, if_pos hl]
  · intro h1
    exact findSegment_eq cm keyHash hk (by omega) hlen

/-- C20: for a map with concurrency `c`, `1 <= c <= 65536`, and `c` segments, and every
hash, `findSegment` computes an index (no division by zero) that is a valid index into
the segments array.  For `c >= 2` the index is at most `c - 2`, so the last segment
(index `c - 1`) is never selected, and for `c = 2` every hash selects segment 0. -/
theorem findSegment_in_bounds (cm : ConcurrentMapImpl) (keyHash : Nat)
    (hc1 : 1 ≤ cm.concurrency) (hc2 : cm.concurrency ≤ 65536)
    (hlen : cm.segments.length = cm.concurrency.toNat) :
    ∃ i, cm.findSegment keyHash = some i ∧ i < cm.segments.length ∧
      (2 ≤ cm.concurrency → (i : Int) ≤ cm.concurrency - 2 ∧ i ≠ cm.segments.length - 1) ∧
      (cm.concurrency = 2 → i = 0) := by
  unfold ConcurrentMapImpl.findSegment
  by_cases h1 : cm.concurrency = 1
  · have hl : 0 < cm.segments.length := by
      rw [hlen, h1]
      decide
    rw [if_pos h1, if_pos hl]
    exact ⟨0, rfl, hl, fun h2 => by omega, fun _ => rfl⟩
  · rw [if_neg h1]
    have hd : 0 < cm.concurrency - 1 := by omega
    have hd0 : ¬ cm.concurrency - 1 = 0 := by omega
    simp only [if_neg hd0]
    set x : Int := (((if keyHash > 2 ^ 32 - 1 then (keyHash >>> 32) % 2 ^ 32
      else keyHash % 2 ^ 32) >>> 16 : Nat) : Int) with hx
    have hnn : 0 ≤ Int.tmod x (cm.concurrency - 1) :=
      Int.tmod_nonneg _ (by rw [hx]; exact Int.ofNat_nonneg _)
    have hlt : Int.tmod x (cm.concurrency - 1) < cm.concurrency - 1 :=
      Int.tmod_lt_of_pos _ hd
    have hlt2 : (Int.tmod x (cm.concurrency - 1)).toNat < cm.segments.length := by
      rw [hlen]
      omega
    rw [if_pos ⟨hnn, hlt2⟩]
    refine ⟨_, rfl, hlt2, fun _ => ⟨by omega, by omega⟩, fun h2 => by omega⟩

/-- Witness for C15: the map built by `NewConcurrentMap(3, nil)` and the hash
`5 * 2 ^ 48`, whose upper half shifted by 16 is 5: segment `5 mod 2 = 1`. -/
theorem findSegment_spec_witness :
    NewConcurrentMap 3 none = some { cmap := some (freshMap 3), err := none } ∧
    (freshMap 3).findSegment (5 * 2 ^ 48) = some 1 :=
  ⟨rfl,
   ((@findSegment_spec Nat sampleHash (freshMap 3) (5 * 2 ^ 48) (by norm_num) (by decide)
      (by decide)).2.1 (by decide)).trans (by decide)⟩

/-- Witness for C20: in the map built by `NewConcurrentMap(2, nil)` the hash `2 ^ 63` is
routed to segment 0. -/
theorem findSegment_in_bounds_witness :
    NewConcurrentMap 2 none = some { cmap := some (freshMap 2), err := none } ∧
    (freshMap 2).findSegment (2 ^ 63) = some 0 := by
  refine ⟨rfl, ?_⟩
  obtain ⟨i, hi, -, -, h0⟩ :=
    findSegment_in_bounds (freshMap 2) (2 ^ 63) (by decide) (by decide) (by decide)
  rw [hi, h0 rfl]

/-! ### Redistribution of pairs that keep their links -/

/-- C17: a single bucket holds the chain `"2" -> "1"` with `Size() = 2` (unique keys,
every hash modulo 1 is 0).  After `Redistribute(Overweight, buckets)` has grown the
array to two buckets, bucket 0 has `Size() = 1` while two pairs are reachable from its
head: the pair `"2"` was stored as the head of the empty bucket with its old link to
`"1"`. -/
theorem Redistribute_size_mismatch :
    sizeTrace = some ([(2, some 2)], [(1, some 2), (1, some 1)]) := by
  decide

/-- C18: link rewriting by `Redistribute`.  Shrinking: with bucket 0 holding `"0" -> "100"`
and bucket 50 holding `"50" -> "150"` (pairs 1, 0, 3, 2), `Redistribute(Underweight)` on
the 100 buckets changes the link of pair 3 from pair 2 to pair 1 and the link of pair 2
from nil to pair 3, so the traversal from the old head of bucket 50 visits the pairs 3, 1, 0
where it visited 3, 2.  Growing: after a growth, `Delete("1")` and `Put("5", 50)`, a
second growth changes the link of pair 2 (the head of bucket 1) from nil to pair 0. -/
theorem Redistribute_rewrites_links :
    shrinkTrace = some ([none, some 0, none, some 2], [none, some 0, some 3, some 1],
      some [3, 2], some [3, 1, 0]) ∧
    growTrace = some ([none, some 0, none], [none, some 0, some 0],
      some [2], some [2, 0]) := by
  constructor <;> decide!

/-- C19: from one empty bucket, `Put("1", 10)`, `Put("2", 20)`, a growth to two buckets
(after which the lookup of `"1"` gives 10), `Delete("1")` (after which it gives absent)
and a second growth to four buckets: the lookup of `"1"` gives 10 again. -/
theorem deleted_key_reappears :
    reappearTrace = some (some (some 10), some none, some (some 10)) := by
  decide

/-! ### `Redistribute` returns on every array of chains that end in nil -/

theorem ClosedChains.update_element {h : Heap V} {S : Addr → Prop} (hcl : ClosedChains h S)
    (t : Addr) (v : V) : ClosedChains (SetElement h t v) S := by
  intro a ha
  obtain ⟨l, hl, hsub⟩ := hcl a ha
  exact ⟨l, hl.setElement t v, hsub⟩

/-- Linking a selected pair in front of a chain that does not reach it keeps every
selected chain finite. -/
theorem ClosedChains.link_head {h : Heap V} {S : Addr → Prop} (hcl : ClosedChains h S)
    {p hd : Addr} {pp : Pair V} {l : List Addr} (hp : h[p]? = some pp) (hpS : S p)
    (hc : IsChain h (some hd) l) (hlS : ∀ x ∈ l, S x) (hpl : p ∉ l) :
    ClosedChains (SetNext h p (some hd)) S := by
  have hp1 : (SetNext h p (some hd))[p]? = some { pp with next := some hd } := by
    rw [getElem?_SetNext, if_pos rfl, hp]
    rfl
  have hc1 : IsChain (SetNext h p (some hd)) (some p) (p :: l) :=
    IsChain.cons hp1 (hc.setNext _ hpl)
  intro a ha
  obtain ⟨la, hla, hsub⟩ := hcl a ha
  by_cases hmem : p ∈ la
  · obtain ⟨pre, rest, hsplit⟩ := List.append_of_mem hmem
    rw [hsplit] at hla
    have hnd := hla.nodup
    have hpre : ∀ x ∈ pre, nextAt (SetNext h p (some hd)) x = nextAt h x := by
      intro x hx
      refine nextAt_SetNext_ne h _ ?_
      rintro rfl
      exact (List.nodup_append.1 hnd).2.2 hx (List.mem_cons_self _ _)
    refine ⟨pre ++ p :: l, IsChain.replace_tail pre (some a) hla hpre hc1, ?_⟩
    intro x hx
    rcases List.mem_append.1 hx with h1 | h1
    · exact hsub x (by rw [hsplit]; exact List.mem_append_left _ h1)
    · rcases List.mem_cons.1 h1 with h2 | h2
      · rw [h2]; exact hpS
      · exact hlS x h2
  · exact ⟨la, hla.setNext _ hmem, hsub⟩

/-- The re-inserting loop returns, with as many buckets as it started with, whenever all
pairs it meets start chains that end in nil. -/
theorem reinsert_total {n : Nat} (hn : 0 < n) {S : Addr → Prop} :
    ∀ (R : List Addr) (h : Heap V) (bs : List bucket), bs.length = n →
      ClosedChains h S → (∀ b ∈ bs, ∀ a, b.headValue = some a → S a) →
      (∀ a ∈ R, S a) →
      ∃ h1 bs1, reinsert n h bs R = some (h1, bs1) ∧ bs1.length = n := by
  intro R
  induction R with
  | nil =>
    intro h bs hlen _ _ _
    exact ⟨h, bs, rfl, hlen⟩
  | cons p R ih =>
    intro h bs hlen hcl hheads hR
    have hpS : S p := hR p (List.mem_cons_self _ _)
    have hRS : ∀ a ∈ R, S a := fun a ha => hR a (List.mem_cons_of_mem _ ha)
    obtain ⟨lp, hlp, -⟩ := hcl p hpS
    cases hlp with
    | @cons _ pp l0 hp hc0 =>
      have hn0 : ¬ n = 0 := by omega
      have hilt : pp.hash % n < bs.length := by
        rw [hlen]
        exact Nat.mod_lt _ hn
      have hb : bs[pp.hash % n]? = some (bs.get ⟨pp.hash % n, hilt⟩) :=
        List.getElem?_eq_getElem hilt
      have hbmem : bs.get ⟨pp.hash % n, hilt⟩ ∈ bs := List.get_mem _ _ _
      have hset : ∀ (nb : bucket), (∀ a, nb.headValue = some a → S a) →
          ∀ b ∈ bs.set (pp.hash % n) nb, ∀ a, b.headValue = some a → S a := by
        intro nb hnb b hbm a ha
        rcases List.mem_or_eq_of_mem_set hbm with h1 | h1
        · exact hheads b h1 a ha
        · rw [h1] at ha
          exact hnb a ha
      simp only [reinsert, hp, if_neg hn0, hb]
      cases hhead : (bs.get ⟨pp.hash % n, hilt⟩).headValue with
      | none =>
        rw [bucket.Put_empty h p none hhead]
        refine ih h _ (by rw [List.length_set]; exact hlen) hcl (hset _ ?_) hRS
        intro a ha
        cases ha
        exact hpS
      | some hd =>
        have hdS : S hd := hheads _ hbmem hd hhead
        obtain ⟨l, hl, hlS⟩ := hcl hd hdS
        have hl2 : IsChain h (bs.get ⟨pp.hash % n, hilt⟩).headValue l := by
          rw [hhead]
          exact hl
        cases hf : findKey h pp.key l with
        | none =>
          rw [bucket.Put_insert none hhead hl2 hp hf]
          refine ih _ _ (by rw [List.length_set]; exact hlen)
            (hcl.link_head hp hpS hl hlS (not_mem_of_findKey_none hp hf)) (hset _ ?_) hRS
          intro a ha
          cases ha
          exact hpS
        | some t =>
          rw [bucket.Put_found none hl2 hp hf]
          exact ih _ _ (by rw [List.length_set]; exact hlen) (hcl.update_element t _)
            (hset _ (fun a ha => hheads _ hbmem a ha)) hRS

/-- The collecting loop returns on chains that end in nil, and collects members of these
chains only. -/
theorem collectPairs_total {h : Heap V} :
    ∀ (bs : List bucket), (∀ b ∈ bs, ∃ l, IsChain h b.headValue l) →
      ∃ L, collectPairs h bs = some L ∧
        ∀ x ∈ L, ∃ b ∈ bs, ∃ l, IsChain h b.headValue l ∧ x ∈ l := by
  intro bs
  induction bs with
  | nil =>
    intro _
    exact ⟨[], rfl, by simp⟩
  | cons b bs ih =>
    intro hall
    obtain ⟨l, hl⟩ := hall b (List.mem_cons_self _ _)
    obtain ⟨L, hL, hLS⟩ := ih (fun b1 hb1 => hall b1 (List.mem_cons_of_mem _ hb1))
    have hcf : chainFrom h h.length b.GetFirstPair = some l :=
      chainFrom_eq_some.2 ⟨hl, hl.length_le⟩
    refine ⟨l ++ L, by simp [collectPairs, hcf, hL], ?_⟩
    intro x hx
    rcases List.mem_append.1 hx with h1 | h1
    · exact ⟨b, List.mem_cons_self _ _, l, hl, h1⟩
    · obtain ⟨b1, hb1, l1, hl1, hx1⟩ := hLS x h1
      exact ⟨b1, List.mem_cons_of_mem _ hb1, l1, hl1, hx1⟩

/-- Resizing to a different, positive bucket count returns `changed = true` with an array
of that many buckets, whenever every chain ends in nil. -/
theorem resize_total {h : Heap V} {bs : List bucket} (pr : pairRedistributorImpl)
    (hfin : ∀ b ∈ bs, ∃ l, IsChain h b.headValue l) {n : Nat} (hn : 0 < n)
    (hne : n ≠ bs.length) :
    ∃ r bs1, pr.resize h bs n = some r ∧ r.changed = true ∧ r.newBuckets = some bs1 ∧
      bs1.length = n := by
  have hcl : ClosedChains h (fun a => ∃ b ∈ bs, ∃ l, IsChain h b.headValue l ∧ a ∈ l) := by
    intro a ha
    obtain ⟨b, hb, l, hl, hal⟩ := ha
    obtain ⟨l1, l2, hsplit, hsuf⟩ := hl.suffix_of_mem a hal
    refine ⟨a :: l2, hsuf, fun x hx => ⟨b, hb, l, hl, ?_⟩⟩
    rw [hsplit]
    exact List.mem_append_right _ hx
  obtain ⟨L, hL, hLS⟩ := collectPairs_total bs hfin
  obtain ⟨fresh, hfresh, hflen, hfnone⟩ := fresh_buckets bs n
  have hheads : ∀ b ∈ fresh, ∀ a, b.headValue = some a →
      ∃ b0 ∈ bs, ∃ l, IsChain h b0.headValue l ∧ a ∈ l := by
    intro b hb a ha
    rw [hfnone b hb] at ha
    cases ha
  obtain ⟨h1, bs1, hr, hlen1⟩ := reinsert_total hn L h fresh hflen hcl hheads hLS
  refine ⟨{ newBuckets := some bs1, changed := true,
             pr := { pr with overweightBucketCount := 0, emptyBucketCount := 0 },
             heap := h1 }, bs1, ?_, rfl, rfl, hlen1⟩
  unfold pairRedistributorImpl.resize
  simp only [if_neg hne, hL, hfresh, hr]

/-- C13: for a redistributor whose overweight counter is `c` and an array of `n` buckets,
`0 < n < 2 ^ 63` (a Go slice length), whose chains end in nil, `Redistribute(Overweight,
buckets)` returns.  It returns `changed = true` with an array of exactly `2 * n` buckets
if and only if `4 * c >= n`, the product being the `uint64` product of the source (which
is `4 * c` whenever `4 * c < 2 ^ 64`).  When `4 * c < n` it returns `changed = false` and
no array, and leaves the heap (every head, chain and pair) and the redistributor
untouched. -/
theorem Redistribute_growth_decision (pr : pairRedistributorImpl) (h : Heap V)
    (buckets : List bucket) (hpos : 0 < buckets.length) (hlen : buckets.length < 2 ^ 63)
    (hfin : ∀ b ∈ buckets, ∃ l, IsChain h b.headValue l) :
    ∃ r, pr.Redistribute h BucketStatusOverweight buckets = some r ∧
      ((r.changed = true ∧ ∃ bs, r.newBuckets = some bs ∧ bs.length = 2 * buckets.length) ↔
        buckets.length ≤ pr.overweightBucketCount * 4 % u64) ∧
      (pr.overweightBucketCount * 4 < u64 →
        ((r.changed = true ∧
            ∃ bs, r.newBuckets = some bs ∧ bs.length = 2 * buckets.length) ↔
          buckets.length ≤ 4 * pr.overweightBucketCount)) ∧
      (pr.overweightBucketCount * 4 % u64 < buckets.length →
        r = { newBuckets := none, changed := false, pr := pr, heap := h }) := by
  have hmod : buckets.length * 2 % u64 = 2 * buckets.length := by
    rw [Nat.mod_eq_of_lt (by rw [u64_eq]; omega), Nat.mul_comm]
  have key : ∃ r, pr.Redistribute h BucketStatusOverweight buckets = some r ∧
      ((r.changed = true ∧
          ∃ bs, r.newBuckets = some bs ∧ bs.length = 2 * buckets.length) ↔
        buckets.length ≤ pr.overweightBucketCount * 4 % u64) ∧
      (pr.overweightBucketCount * 4 % u64 < buckets.length →
        r = { newBuckets := none, changed := false, pr := pr, heap := h }) := by
    unfold pairRedistributorImpl.Redistribute
    simp only [if_pos rfl]
    by_cases hc : pr.overweightBucketCount * 4 % u64 < buckets.length
    · rw [if_pos hc]
      refine ⟨_, rfl, ⟨fun hh => ?_, fun hh => ?_⟩, fun _ => rfl⟩
      · exact absurd hh.1 (by simp)
      · omega
    · rw [if_neg hc, hmod]
      have h2pos : 0 < 2 * buckets.length := by omega
      have h2ne : 2 * buckets.length ≠ buckets.length := by omega
      obtain ⟨r, bs1, hr, hch, hnb, hl1⟩ := resize_total pr hfin h2pos h2ne
      exact ⟨r, hr, ⟨fun _ => Nat.le_of_not_lt hc, fun _ => ⟨hch, bs1, hnb, hl1⟩⟩,
        fun hh => absurd hh hc⟩
  obtain ⟨r, hr, hiff, hsame⟩ := key
  refine ⟨r, hr, hiff, fun hsmall => ?_, hsame⟩
  rw [hiff, Nat.mod_eq_of_lt hsmall, Nat.mul_comm]

/-- Witness for C13: the bucket of `sampleBucket` (two chained pairs) and a redistributor
with one bucket flagged: `4 * 1 >= 1`, so the array grows to two buckets. -/
theorem Redistribute_growth_decision_witness :
    ∃ r bs, samplePr.Redistribute sampleHeap BucketStatusOverweight [sampleBucket] = some r ∧
      r.changed = true ∧ r.newBuckets = some bs ∧ bs.length = 2 := by
  obtain ⟨r, hr, hiff, -, -⟩ :=
    Redistribute_growth_decision samplePr sampleHeap [sampleBucket] (by decide) (by decide)
      (fun b hb => by
        rw [List.mem_singleton.1 hb]
        exact ⟨[1, 0], bucket.chain_eq_some.1 (by decide)⟩)
  obtain ⟨hch, bs, hnb, hl⟩ := hiff.2 (by decide)
  exact ⟨r, bs, hr, hch, hnb, hl⟩

/-! ### The invariant of a bucket -/

theorem keyAt_append_of_lt (h : Heap V) (p : Pair V) {x : Addr} (hx : x < h.length) :
    keyAt (h ++ [p]) x = keyAt h x := by
  unfold keyAt
  rw [getElem?_append_of_lt h p hx]

theorem map_keyAt_congr {h h1 : Heap V} {l : List Addr}
    (hk : ∀ x ∈ l, keyAt h1 x = keyAt h x) : l.map (keyAt h1) = l.map (keyAt h) :=
  List.map_congr_left hk

theorem succ_mod_u64 {s n : Nat} (hs : s = n % u64) : (s + 1) % u64 = (n + 1) % u64 := by
  rw [hs, Nat.mod_add_mod]

theorem pred_mod_u64 {s n : Nat} (hs : s = (n + 1) % u64) :
    (s + (u64 - 1)) % u64 = n % u64 := by
  rw [hs, Nat.mod_add_mod]
  have h1 : n + 1 + (u64 - 1) = n + u64 := by
    have := u64_eq
    omega
  rw [h1, Nat.add_mod_right]

/-- The method `Put` of a freshly created pair keeps the invariant of the bucket. -/
theorem BucketInv.after_put (hash : String → Nat) {s : BucketState V} {l : List Addr}
    (hinv : BucketInv s l) (key : String) (elem : V) (lock : Option Nat) :
    ∃ s1 l1, s.step hash (.put key elem lock) = some s1 ∧ BucketInv s1 l1 ∧
      l1.length ≤ l.length + 1 := by
  obtain ⟨hc, hnd, hsz⟩ := hinv
  set np : Pair V := { key := key, hash := hash key % u64, element := elem, next := none }
    with hnp
  have hp : (s.heap ++ [np])[s.heap.length]? = some np := getElem?_append_length _ _
  have hc1 : IsChain (s.heap ++ [np]) s.bkt.headValue l := hc.append np
  have hkeys : ∀ x ∈ l, keyAt (s.heap ++ [np]) x = keyAt s.heap x :=
    fun x hx => keyAt_append_of_lt _ _ (hc.lt x hx)
  have hstep : s.step hash (.put key elem lock) =
      match s.bkt.Put (s.heap ++ [np]) (some s.heap.length) lock with
      | none => none
      | some r => some { heap := r.heap, bkt := r.bkt } := rfl
  rw [hstep]
  cases hhead : s.bkt.headValue with
  | none =>
    rw [hhead] at hc
    cases hc
    rw [bucket.Put_empty _ _ lock hhead]
    refine ⟨_, [s.heap.length], rfl, ⟨IsChain.cons hp IsChain.nil, by simp, ?_⟩, by simp⟩
    exact succ_mod_u64 hsz
  | some hd =>
    cases hf : findKey (s.heap ++ [np]) np.key l with
    | none =>
      rw [bucket.Put_insert lock hhead hc1 hp hf]
      have hpl : s.heap.length ∉ l := not_mem_of_findKey_none hp hf
      have hp1 : (SetNext (s.heap ++ [np]) s.heap.length (some hd))[s.heap.length]? =
          some { np with next := some hd } := by
        rw [getElem?_SetNext, if_pos rfl, hp]
        rfl
      have hc2 : IsChain (SetNext (s.heap ++ [np]) s.heap.length (some hd)) (some hd) l := by
        rw [hhead] at hc1
        exact hc1.setNext _ hpl
      refine ⟨_, s.heap.length :: l, rfl, ⟨IsChain.cons hp1 hc2, ?_, ?_⟩, by simp⟩
      · rw [map_keyAt_SetNext, List.map_cons, map_keyAt_congr hkeys]
        refine List.nodup_cons.2 ⟨?_, hnd⟩
        intro hmem
        obtain ⟨x, hx, hxk⟩ := List.mem_map.1 hmem
        have h1 := findKey_eq_none.1 hf x hx
        rw [hkeys x hx, hxk, keyAt_eq_some_of_getElem? hp] at h1
        exact h1 rfl
      · simp only [List.length_cons]
        exact succ_mod_u64 hsz
    | some t =>
      rw [bucket.Put_found lock hc1 hp hf]
      refine ⟨_, l, rfl, ⟨hc1.setElement t _, ?_, hsz⟩, by simp⟩
      have : l.map (keyAt (SetElement (s.heap ++ [np]) t np.element)) =
          l.map (keyAt s.heap) :=
        map_keyAt_congr (fun x hx => by rw [keyAt_SetElement, hkeys x hx])
      rw [this]
      exact hnd

/-- The method `Delete` keeps the invariant of the bucket. -/
theorem BucketInv.after_delete (hash : String → Nat) {s : BucketState V} {l : List Addr}
    (hinv : BucketInv s l) (key : String) (lock : Option Nat) :
    ∃ s1 l1, s.step hash (.delete key lock) = some s1 ∧ BucketInv s1 l1 ∧
      l1.length ≤ l.length := by
  obtain ⟨hc, hnd, hsz⟩ := hinv
  have hstep : s.step hash (.delete key lock) =
      match s.bkt.Delete s.heap key lock with
      | none => none
      | some r => some { heap := r.heap, bkt := r.bkt } := rfl
  rw [hstep]
  by_cases hex : ∃ t ∈ l, keyAt s.heap t = some key
  · obtain ⟨t, htl, htk⟩ := hex
    obtain ⟨pre, suf, hl, hpre, -⟩ := split_of_mem_unique hnd htl htk
    rw [hl] at hc
    obtain ⟨ext, nh, copies, hdel, hch, htr, -⟩ := bucket.Delete_present lock hc hpre htk
    rw [hdel]
    have hlen : copies.length = pre.length := by
      have := congrArg List.length htr
      simpa using this
    have hkc : copies.map (keyAt (s.heap ++ ext)) = pre.map (keyAt s.heap) := by
      have h1 : ∀ (hp : Heap V) (xs : List Addr),
          xs.map (keyAt hp) = (xs.map (tripleAt hp)).map (Option.map Prod.fst) := by
        intro hp xs
        rw [List.map_map]
        exact List.map_congr_left (fun x _ => keyAt_eq_triple hp x)
      rw [h1, h1, htr]
    have hks : suf.map (keyAt (s.heap ++ ext)) = suf.map (keyAt s.heap) := by
      refine map_keyAt_congr (fun x hx => ?_)
      rw [keyAt_eq_triple, keyAt_eq_triple, tripleAt_append_of_lt]
      exact hc.lt x (List.mem_append_right _ (List.mem_cons_of_mem _ hx))
    refine ⟨_, copies ++ suf, rfl, ⟨hch, ?_, ?_⟩, ?_⟩
    · rw [List.map_append, hkc, hks]
      rw [hl, List.map_append, List.map_cons] at hnd
      have hsub : (pre.map (keyAt s.heap) ++ suf.map (keyAt s.heap)).Sublist
          (pre.map (keyAt s.heap) ++ keyAt s.heap t :: suf.map (keyAt s.heap)) :=
        List.Sublist.append_left (List.sublist_cons_self _ _) _
      exact hnd.sublist hsub
    · have hsz1 : s.bkt.size = (copies.length + suf.length + 1) % u64 := by
        rw [hsz, hl, hlen]
        simp only [List.length_append, List.length_cons]
        rfl
      simp only [List.length_append]
      exact pred_mod_u64 hsz1
    · rw [hl]
      simp only [List.length_append, List.length_cons, hlen]
      omega
  · have hno : ∀ a ∈ l, keyAt s.heap a ≠ some key := fun a ha hk => hex ⟨a, ha, hk⟩
    rw [bucket.Delete_absent lock hc hno]
    exact ⟨_, l, rfl, ⟨hc, hnd, hsz⟩, Nat.le_refl _⟩

/-- Every operation returns and keeps the invariant of the bucket; a `Put` lengthens the
chain by at most one pair. -/
theorem BucketInv.after_step (hash : String → Nat) {s : BucketState V} {l : List Addr}
    (hinv : BucketInv s l) (op : BucketOp V) :
    ∃ s1 l1, s.step hash op = some s1 ∧ BucketInv s1 l1 ∧ l1.length ≤ l.length + 1 := by
  cases op with
  | put key elem lock => exact hinv.after_put hash key elem lock
  | delete key lock =>
    obtain ⟨s1, l1, h1, h2, h3⟩ := hinv.after_delete hash key lock
    exact ⟨s1, l1, h1, h2, Nat.le_succ_of_le h3⟩
  | clear lock =>
    refine ⟨_, [], rfl, ⟨IsChain.nil, by simp, ?_⟩, by simp⟩
    show (0 : Nat) = 0 % u64
    rw [Nat.zero_mod]

theorem BucketInv.after_run (hash : String → Nat) :
    ∀ (ops : List (BucketOp V)) (s : BucketState V) (l : List Addr), BucketInv s l →
      ∃ s1 l1, BucketState.run hash s ops = some s1 ∧ BucketInv s1 l1 ∧
        l1.length ≤ l.length + ops.length := by
  intro ops
  induction ops with
  | nil =>
    intro s l hinv
    exact ⟨s, l, rfl, hinv, by simp⟩
  | cons op rest ih =>
    intro s l hinv
    obtain ⟨s1, l1, hs1, hinv1, hlen1⟩ := hinv.after_step hash op
    obtain ⟨s2, l2, hs2, hinv2, hlen2⟩ := ih s1 l1 hinv1
    refine ⟨s2, l2, ?_, hinv2, ?_⟩
    · simp only [BucketState.run, hs1]
      exact hs2
    · simp only [List.length_cons]
      omega

/-- C16: every sequence of `Put` (of a pair freshly created by `newPair`), `Delete` and
`Clear`, with any lock arguments, applied to `newBucket()` returns, and in the bucket
reached the chain from the head is finite (it ends in nil after the pairs `l`, so every
`Get` terminates), `Size()` is the number of pairs of `l` (as a `uint64`; the chain has at
most one pair per operation, so this is exactly the number of pairs after fewer than
`2 ^ 64` operations), and no two pairs of `l` have the same key.  After `Clear`,
`Size()` is 0 and `Get` of every key is absent. -/
theorem bucket_invariant (hash : String → Nat) (h0 : Heap V) (ops : List (BucketOp V)) :
    ∃ s l, BucketState.run hash { heap := h0, bkt := newBucket } ops = some s ∧
      s.bkt.chain s.heap = some l ∧
      s.bkt.Size = l.length % u64 ∧
      l.length ≤ ops.length ∧
      (ops.length < u64 → s.bkt.Size = l.length) ∧
      (l.map (keyAt s.heap)).Nodup ∧
      (∀ key, s.bkt.Get s.heap key = some (findKey s.heap key l)) ∧
      (∀ lock, (s.bkt.Clear lock).1.Size = 0 ∧
        (s.bkt.Clear lock).1.chain s.heap = some [] ∧
        ∀ key, (s.bkt.Clear lock).1.Get s.heap key = some none) := by
  have hinit : BucketInv ({ heap := h0, bkt := newBucket } : BucketState V) [] := by
    refine ⟨IsChain.nil, by simp, ?_⟩
    show (0 : Nat) = 0 % u64
    rw [Nat.zero_mod]
  obtain ⟨s, l, hrun, ⟨hc, hnd, hsz⟩, hlen⟩ := BucketInv.after_run hash ops _ [] hinit
  have hlen1 : l.length ≤ ops.length := by simpa using hlen
  have hchain : s.bkt.chain s.heap = some l := bucket.chain_eq_some.2 hc
  have hsize : s.bkt.Size = l.length % u64 := by
    unfold bucket.Size
    exact hsz
  refine ⟨s, l, hrun, hchain, hsize, hlen1, ?_, hnd, bucket.Get_of_chain hchain, ?_⟩
  · intro hlt
    rw [hsize]
    exact Nat.mod_eq_of_lt (Nat.lt_of_le_of_lt hlen1 hlt)
  · intro lock
    refine ⟨rfl, ?_, fun key => rfl⟩
    exact bucket.chain_eq_some.2 IsChain.nil

/-! ### The size counter at its bounds -/

/-- C7, the claim as stated fails: a bucket reached by two `Put`s, a growth and two
`Delete`s has an empty chain and `Size() = 2 ^ 64 - 1`; `Put` of a fresh pair returns
`added = true` and `Size()` is 0 afterwards, not one more. -/
theorem bucket_Put_size_wraps :
    putWrapTrace = some (18446744073709551615, some [], true, 0) := by
  decide

/-- C8, the claim as stated fails: a bucket reached by two `Put`s, a growth and one
`Delete` holds the single pair `"2"` and has `Size() = 0`; `Delete("2", nil)` returns
true and `Size()` is `2 ^ 64 - 1` afterwards, not one less. -/
theorem bucket_Delete_size_wraps :
    deleteWrapTrace = some (0, some [some "2"], true, 18446744073709551615) := by
  decide
/-! ### The re-inserting loop on arbitrary chains -/

theorem hashAt_eq_some_of_getElem? {h : Heap V} {a : Addr} {p : Pair V}
    (ha : h[a]? = some p) : hashAt h a = some p.hash := by
  simp [hashAt, ha]

/-- In a chain that starts at a done pair (or at `p`), whose done members link to done
pairs or to `p`, the first pair with the key of `p` is done or is `p`, and everything
before it is done. -/
theorem found_prefix_done {h : Heap V} {done : List Addr} {p : Addr} {key : String}
    (hlink : ∀ e ∈ done, ∀ e1, nextAt h e = some (some e1) → e1 ∈ done ∨ e1 = p)
    (hpk : keyAt h p = some key) :
    ∀ (pre : List Addr) (s : Option Addr) (t : Addr) (rest : List Addr),
      IsChain h s (pre ++ t :: rest) → (∀ x, s = some x → x ∈ done ∨ x = p) →
      (∀ x ∈ pre, keyAt h x ≠ some key) →
      (∀ x ∈ pre, x ∈ done) ∧ (t ∈ done ∨ t = p) := by
  intro pre
  induction pre with
  | nil =>
    intro s t rest hc hs _
    exact ⟨fun x hx => (by cases hx), hs t hc.head_eq⟩
  | cons y pre0 ih =>
    intro s t rest hc hs hno
    have hyp : y ≠ p := by
      intro e
      exact hno y (List.mem_cons_self _ _) (e ▸ hpk)
    have hy : y ∈ done := by
      rcases hs y hc.head_eq with hd | hd
      · exact hd
      · exact absurd hd hyp
    cases hc with
    | @cons _ py _ hpy hc0 =>
      obtain ⟨h1, h2⟩ := ih py.next t rest hc0
        (fun z hz => hlink y hy z (by rw [nextAt_of_getElem? hpy, hz]))
        (fun x hx => hno x (List.mem_cons_of_mem _ hx))
      refine ⟨?_, h2⟩
      intro x hx
      rcases List.mem_cons.1 hx with h3 | h3
      · rw [h3]; exact hy
      · exact h1 x h3

theorem ReinsertInv.link_or {n : Nat} {S : Addr → Prop} {h : Heap V} {bs : List bucket}
    {done R : List Addr} {p : Addr} (hinv : ReinsertInv n S h bs done (p :: R)) :
    ∀ e ∈ done, ∀ e1, nextAt h e = some (some e1) → e1 ∈ done ∨ e1 = p := by
  intro e he e1 hn
  rcases hinv.link e he e1 hn with h1 | h1
  · exact Or.inl h1
  · exact Or.inr (by simpa using h1.symm)

/-- The key of `p` is found in its bucket: only an element is updated. -/
theorem ReinsertInv.step_found {n : Nat} {S : Addr → Prop} {h : Heap V} {bs : List bucket}
    {done R : List Addr} {p t : Addr} {pp : Pair V} {b : bucket} {l : List Addr} (v : V)
    (hinv : ReinsertInv n S h bs done (p :: R)) (hp : h[p]? = some pp)
    (hb : bs[pp.hash % n]? = some b) (hc : IsChain h b.headValue l)
    (hf : findKey h pp.key l = some t) :
    ReinsertInv n S (SetElement h t v) bs (done ++ [p]) R := by
  have hlink1 := hinv.link_or
  have hpk : keyAt h p = some pp.key := keyAt_eq_some_of_getElem? hp
  refine ⟨hinv.len, hinv.closed.update_element t v, ?_, ?_, ?_, ?_, ?_, ?_⟩
  · intro a ha
    rcases List.mem_append.1 ha with h1 | h1
    · exact hinv.doneS a h1
    · have : a = p := by simpa using h1
      rw [this]
      exact hinv.restS p (List.mem_cons_self _ _)
  · intro a ha
    exact hinv.restS a (List.mem_cons_of_mem _ ha)
  · intro b1 hb1 a ha
    exact List.mem_append_left _ (hinv.heads b1 hb1 a ha)
  · intro q hq
    rcases List.mem_append.1 hq with hq | hq
    · obtain ⟨k, kh, bq, pre, w, rest, h1, h2, h3, h4, h5, h6, h7⟩ := hinv.good q hq
      exact ⟨k, kh, bq, pre, w, rest, by rw [keyAt_SetElement]; exact h1,
        by rw [hashAt_SetElement]; exact h2, h3, h4.setElement t v,
        by rw [keyAt_SetElement]; exact h5,
        fun x hx => List.mem_append_left _ (h6 x hx), List.mem_append_left _ h7⟩
    · have hqp : q = p := by simpa using hq
      subst hqp
      obtain ⟨htl, htk⟩ := findKey_some hf
      unfold findKey at hf
      obtain ⟨-, pre, suf, hl, hpre⟩ := List.find?_eq_some.1 hf
      rw [hl] at hc
      obtain ⟨hpd, htd⟩ := found_prefix_done hlink1 hpk pre b.headValue t suf hc
        (fun x hx => Or.inl (hinv.heads b (mem_of_getElem?_some hb) x hx))
        (fun x hx => by simpa using hpre x hx)
      refine ⟨pp.key, pp.hash, b, pre, t, suf, by rw [keyAt_SetElement]; exact hpk,
        by rw [hashAt_SetElement]; exact hashAt_eq_some_of_getElem? hp, hb,
        hc.setElement t v, by rw [keyAt_SetElement]; exact htk,
        fun x hx => List.mem_append_left _ (hpd x hx), ?_⟩
      rcases htd with h1 | h1
      · exact List.mem_append_left _ h1
      · exact List.mem_append_right _ (by simp [h1])
  · intro e he e1 hn
    rw [nextAt_SetElement] at hn
    by_cases hed : e ∈ done
    · rcases hlink1 e hed e1 hn with h1 | h1
      · exact Or.inl (List.mem_append_left _ h1)
      · exact Or.inl (List.mem_append_right _ (by simp [h1]))
    · have hep : e = p := by
        rcases List.mem_append.1 he with h1 | h1
        · exact absurd h1 hed
        · simpa using h1
      subst hep
      obtain ⟨B1, hB⟩ := hinv.adj [] e R rfl hed e1 hn
      exact Or.inr (by rw [hB]; rfl)
  · intro A a B hR ha a1 hn
    rw [nextAt_SetElement] at hn
    have ha1 : a ∉ done := fun hmem => ha (List.mem_append_left _ hmem)
    exact hinv.adj (p :: A) a B (by rw [hR]; rfl) ha1 a1 hn

/-- A pair whose bucket is empty has not been re-inserted yet. -/
theorem ReinsertInv.not_done_of_none {n : Nat} {S : Addr → Prop} {h : Heap V}
    {bs : List bucket} {done R : List Addr} {q : Addr} {pq : Pair V} {b : bucket}
    (hinv : ReinsertInv n S h bs done R) (hq : h[q]? = some pq)
    (hb : bs[pq.hash % n]? = some b) (hhead : b.headValue = none) : q ∉ done := by
  intro hmem
  obtain ⟨k, kh, bq, pre, w, rest, -, h2, h3, h4, -, -, -⟩ := hinv.good q hmem
  rw [hashAt_eq_some_of_getElem? hq] at h2
  cases h2
  rw [hb] at h3
  cases h3
  rw [hhead] at h4
  cases pre <;> cases h4

/-- The bucket of `p` is empty: `p` becomes its head, with the chain it already heads. -/
theorem ReinsertInv.step_empty {n : Nat} {S : Addr → Prop} {h : Heap V} {bs : List bucket}
    {done R : List Addr} {p : Addr} {pp : Pair V} {b : bucket} (sz : Nat)
    (hinv : ReinsertInv n S h bs done (p :: R)) (hp : h[p]? = some pp)
    (hb : bs[pp.hash % n]? = some b) (hhead : b.headValue = none) :
    ReinsertInv n S h (bs.set (pp.hash % n) { headValue := some p, size := sz })
      (done ++ [p]) R := by
  have hpd : p ∉ done := hinv.not_done_of_none hp hb hhead
  have hilt : pp.hash % n < bs.length := by
    by_contra hlt
    rw [List.getElem?_eq_none (Nat.le_of_not_lt hlt)] at hb
    cases hb
  have hpS : S p := hinv.restS p (List.mem_cons_self _ _)
  refine ⟨by rw [List.length_set]; exact hinv.len, hinv.closed, ?_, ?_, ?_, ?_, ?_, ?_⟩
  · intro a ha
    rcases List.mem_append.1 ha with h1 | h1
    · exact hinv.doneS a h1
    · have : a = p := by simpa using h1
      rw [this]
      exact hpS
  · intro a ha
    exact hinv.restS a (List.mem_cons_of_mem _ ha)
  · intro b1 hb1 a ha
    rcases List.mem_or_eq_of_mem_set hb1 with h1 | h1
    · exact List.mem_append_left _ (hinv.heads b1 h1 a ha)
    · rw [h1] at ha
      simp only [Option.some.injEq] at ha
      rw [← ha]
      simp
  · intro q hq
    rcases List.mem_append.1 hq with hq | hq
    · obtain ⟨k, kh, bq, pre, w, rest, h1, h2, h3, h4, h5, h6, h7⟩ := hinv.good q hq
      have hne : pp.hash % n ≠ kh % n := by
        intro e
        rw [← e, hb] at h3
        cases h3
        rw [hhead] at h4
        cases pre <;> cases h4
      refine ⟨k, kh, bq, pre, w, rest, h1, h2, ?_, h4, h5,
        fun x hx => List.mem_append_left _ (h6 x hx), List.mem_append_left _ h7⟩
      rw [List.getElem?_set_ne hne]
      exact h3
    · have hqp : q = p := by simpa using hq
      subst hqp
      obtain ⟨lp, hlp, -⟩ := hinv.closed q hpS
      obtain ⟨rest, hrest⟩ := hlp.of_some
      rw [hrest] at hlp
      refine ⟨pp.key, pp.hash, { headValue := some q, size := sz }, [], q, rest,
        keyAt_eq_some_of_getElem? hp, hashAt_eq_some_of_getElem? hp, ?_, hlp,
        keyAt_eq_some_of_getElem? hp, by simp, by simp⟩
      rw [List.getElem?_set_self hilt]
  · intro e he e1 hn
    by_cases hed : e ∈ done
    · rcases hinv.link_or e hed e1 hn with h1 | h1
      · exact Or.inl (List.mem_append_left _ h1)
      · exact Or.inl (List.mem_append_right _ (by simp [h1]))
    · have hep : e = p := by
        rcases List.mem_append.1 he with h1 | h1
        · exact absurd h1 hed
        · simpa using h1
      subst hep
      obtain ⟨B1, hB⟩ := hinv.adj [] e R rfl hed e1 hn
      exact Or.inr (by rw [hB]; rfl)
  · intro A a B hR ha a1 hn
    have ha1 : a ∉ done := fun hmem => ha (List.mem_append_left _ hmem)
    exact hinv.adj (p :: A) a B (by rw [hR]; rfl) ha1 a1 hn

/-- The bucket of `p` is not empty and holds no pair with the key of `p`: `p` is linked
in front of its head.  Only the link of `p` changes, and no done pair was reached
through it. -/
theorem ReinsertInv.step_insert {n : Nat} {S : Addr → Prop} {h : Heap V} {bs : List bucket}
    {done R : List Addr} {p hd : Addr} {pp : Pair V} {b : bucket} {l : List Addr}
    (sz : Nat) (hinv : ReinsertInv n S h bs done (p :: R)) (hp : h[p]? = some pp)
    (hb : bs[pp.hash % n]? = some b) (hhead : b.headValue = some hd)
    (hc : IsChain h (some hd) l) (hlS : ∀ x ∈ l, S x) (hf : findKey h pp.key l = none) :
    ReinsertInv n S (SetNext h p (some hd))
      (bs.set (pp.hash % n) { headValue := some p, size := sz }) (done ++ [p]) R := by
  have hbmem : b ∈ bs := mem_of_getElem?_some hb
  have hpS : S p := hinv.restS p (List.mem_cons_self _ _)
  have hhd : hd ∈ done := hinv.heads b hbmem hd hhead
  have hpl : p ∉ l := not_mem_of_findKey_none hp hf
  have hpd : p ∉ done := by
    intro hmem
    obtain ⟨k, kh, bq, pre, w, rest, h1, h2, h3, h4, h5, -, -⟩ := hinv.good p hmem
    rw [keyAt_eq_some_of_getElem? hp] at h1
    cases h1
    rw [hashAt_eq_some_of_getElem? hp] at h2
    cases h2
    rw [hb] at h3
    cases h3
    rw [hhead] at h4
    have hl := hc.unique h4
    exact findKey_eq_none.1 hf w (by rw [hl]; simp) h5
  have hilt : pp.hash % n < bs.length := by
    by_contra hlt
    rw [List.getElem?_eq_none (Nat.le_of_not_lt hlt)] at hb
    cases hb
  have hcl1 : ClosedChains (SetNext h p (some hd)) S :=
    hinv.closed.link_head hp hpS hc hlS hpl
  have hp1 : (SetNext h p (some hd))[p]? = some { pp with next := some hd } := by
    rw [getElem?_SetNext, if_pos rfl, hp]
    rfl
  have hc1 : IsChain (SetNext h p (some hd)) (some p) (p :: l) :=
    IsChain.cons hp1 (hc.setNext _ hpl)
  refine ⟨by rw [List.length_set]; exact hinv.len, hcl1, ?_, ?_, ?_, ?_, ?_, ?_⟩
  · intro a ha
    rcases List.mem_append.1 ha with h1 | h1
    · exact hinv.doneS a h1
    · have : a = p := by simpa using h1
      rw [this]
      exact hpS
  · intro a ha
    exact hinv.restS a (List.mem_cons_of_mem _ ha)
  · intro b1 hb1 a ha
    rcases List.mem_or_eq_of_mem_set hb1 with h1 | h1
    · exact List.mem_append_left _ (hinv.heads b1 h1 a ha)
    · rw [h1] at ha
      simp only [Option.some.injEq] at ha
      rw [← ha]
      simp
  · intro q hq
    rcases List.mem_append.1 hq with hq | hq
    · obtain ⟨k, kh, bq, pre, w, rest, h1, h2, h3, h4, h5, h6, h7⟩ := hinv.good q hq
      have hpre : ∀ x ∈ pre, nextAt (SetNext h p (some hd)) x = nextAt h x := by
        intro x hx
        refine nextAt_SetNext_ne h _ ?_
        rintro rfl
        exact hpd (h6 x hx)
      obtain ⟨lw, hlw, -⟩ := hcl1 w (hinv.doneS w h7)
      obtain ⟨rest2, hrest2⟩ := hlw.of_some
      rw [hrest2] at hlw
      have hnew := IsChain.replace_tail pre bq.headValue h4 hpre hlw
      by_cases hidx : pp.hash % n = kh % n
      · rw [← hidx, hb] at h3
        cases h3
        rw [hhead] at hnew
        refine ⟨k, kh, { headValue := some p, size := sz }, p :: pre, w, rest2,
          by rw [keyAt_SetNext]; exact h1, by rw [hashAt_SetNext]; exact h2, ?_,
          IsChain.cons hp1 hnew, by rw [keyAt_SetNext]; exact h5, ?_,
          List.mem_append_left _ h7⟩
        · rw [← hidx, List.getElem?_set_self hilt]
        · intro x hx
          rcases List.mem_cons.1 hx with h8 | h8
          · rw [h8]; simp
          · exact List.mem_append_left _ (h6 x h8)
      · refine ⟨k, kh, bq, pre, w, rest2, by rw [keyAt_SetNext]; exact h1,
          by rw [hashAt_SetNext]; exact h2, ?_, hnew, by rw [keyAt_SetNext]; exact h5,
          fun x hx => List.mem_append_left _ (h6 x hx), List.mem_append_left _ h7⟩
        rw [List.getElem?_set_ne hidx]
        exact h3
    · have hqp : q = p := by simpa using hq
      subst hqp
      refine ⟨pp.key, pp.hash, { headValue := some q, size := sz }, [], q, l,
        by rw [keyAt_SetNext]; exact keyAt_eq_some_of_getElem? hp,
        by rw [hashAt_SetNext]; exact hashAt_eq_some_of_getElem? hp, ?_, hc1,
        by rw [keyAt_SetNext]; exact keyAt_eq_some_of_getElem? hp, by simp, by simp⟩
      rw [List.getElem?_set_self hilt]
  · intro e he e1 hn
    by_cases hed : e ∈ done
    · have hep : e ≠ p := fun e2 => hpd (e2 ▸ hed)
      rw [nextAt_SetNext_ne h _ hep] at hn
      rcases hinv.link_or e hed e1 hn with h1 | h1
      · exact Or.inl (List.mem_append_left _ h1)
      · exact Or.inl (List.mem_append_right _ (by simp [h1]))
    · have hep : e = p := by
        rcases List.mem_append.1 he with h1 | h1
        · exact absurd h1 hed
        · simpa using h1
      subst hep
      rw [nextAt_of_getElem? hp1] at hn
      simp only [Option.some.injEq] at hn
      rw [← hn]
      exact Or.inl (List.mem_append_left _ hhd)
  · intro A a B hR ha a1 hn
    have ha1 : a ∉ done := fun hmem => ha (List.mem_append_left _ hmem)
    have hap : a ≠ p := fun e => ha (List.mem_append_right _ (by simp [e]))
    rw [nextAt_SetNext_ne h _ hap] at hn
    exact hinv.adj (p :: A) a B (by rw [hR]; rfl) ha1 a1 hn

/-- The re-inserting loop of `Redistribute` finishes on arbitrary chains that end in
nil, changes no key and no hash, and keeps its invariant. -/
theorem reinsert_general {n : Nat} (hn : 0 < n) {S : Addr → Prop} :
    ∀ (R : List Addr) (h : Heap V) (bs : List bucket) (done : List Addr),
      ReinsertInv n S h bs done R →
      ∃ h1 bs1, reinsert n h bs R = some (h1, bs1) ∧
        ReinsertInv n S h1 bs1 (done ++ R) [] ∧
        (∀ x, keyAt h1 x = keyAt h x) ∧ (∀ x, hashAt h1 x = hashAt h x) ∧
        h1.length = h.length := by
  intro R
  induction R with
  | nil =>
    intro h bs done hinv
    exact ⟨h, bs, rfl, by simpa using hinv, fun _ => rfl, fun _ => rfl, rfl⟩
  | cons p R ih =>
    intro h bs done hinv
    have hpS : S p := hinv.restS p (List.mem_cons_self _ _)
    obtain ⟨lp, hlp, -⟩ := hinv.closed p hpS
    cases hlp with
    | @cons _ pp l0 hp hc0 =>
      have hn0 : ¬ n = 0 := by omega
      have hilt : pp.hash % n < bs.length := by
        rw [hinv.len]
        exact Nat.mod_lt _ hn
      have hb : bs[pp.hash % n]? = some (bs.get ⟨pp.hash % n, hilt⟩) :=
        List.getElem?_eq_getElem hilt
      have hbmem : bs.get ⟨pp.hash % n, hilt⟩ ∈ bs := List.get_mem _ _ _
      have hfin : ∀ (h2 : Heap V) (bs2 : List bucket),
          (∃ h1 bs1, reinsert n h2 bs2 R = some (h1, bs1) ∧
            ReinsertInv n S h1 bs1 ((done ++ [p]) ++ R) [] ∧
            (∀ x, keyAt h1 x = keyAt h2 x) ∧ (∀ x, hashAt h1 x = hashAt h2 x) ∧
            h1.length = h2.length) →
          (∀ x, keyAt h2 x = keyAt h x) → (∀ x, hashAt h2 x = hashAt h x) →
          h2.length = h.length →
          ∃ h1 bs1, reinsert n h2 bs2 R = some (h1, bs1) ∧
            ReinsertInv n S h1 bs1 (done ++ p :: R) [] ∧
            (∀ x, keyAt h1 x = keyAt h x) ∧ (∀ x, hashAt h1 x = hashAt h x) ∧
            h1.length = h.length := by
        intro h2 bs2 hex hk hh hl
        obtain ⟨h1, bs1, hr, hinv1, hk1, hh1, hl1⟩ := hex
        refine ⟨h1, bs1, hr, by simpa using hinv1, fun x => (hk1 x).trans (hk x),
          fun x => (hh1 x).trans (hh x), hl1.trans hl⟩
      simp only [reinsert, hp, if_neg hn0, hb]
      cases hhead : (bs.get ⟨pp.hash % n, hilt⟩).headValue with
      | none =>
        rw [bucket.Put_empty h p none hhead]
        exact hfin _ _ (ih _ _ _ (hinv.step_empty _ hp hb hhead)) (fun _ => rfl) (fun _ => rfl) rfl
      | some hd =>
        have hdS : S hd := hinv.doneS hd (hinv.heads _ hbmem hd hhead)
        obtain ⟨l, hl, hlS⟩ := hinv.closed hd hdS
        have hl2 : IsChain h (bs.get ⟨pp.hash % n, hilt⟩).headValue l := by
          rw [hhead]
          exact hl
        cases hf : findKey h pp.key l with
        | none =>
          rw [bucket.Put_insert none hhead hl2 hp hf]
          exact hfin _ _ (ih _ _ _ (hinv.step_insert _ hp hb hhead hl hlS hf))
            (fun x => keyAt_SetNext h p _ x) (fun x => hashAt_SetNext h p _ x)
            (length_SetNext h p _)
        | some t =>
          rw [bucket.Put_found none hl2 hp hf]
          have hinv1 := hinv.step_found pp.element hp hb hl2 hf
          rw [← list_set_self bs _ _ hb] at hinv1
          exact hfin _ _ (ih _ _ _ hinv1)
            (fun x => keyAt_SetElement h t _ x) (fun x => hashAt_SetElement h t _ x)
            (length_SetElement h t _)

theorem findKey_of_key_mem {h : Heap V} {key : String} {l : List Addr} {w : Addr}
    (hw : w ∈ l) (hk : keyAt h w = some key) : ∃ t, findKey h key l = some t := by
  cases hf : findKey h key l with
  | none => exact absurd hk (findKey_eq_none.1 hf w hw)
  | some t => exact ⟨t, rfl⟩

theorem Stored.findable {h : Heap V} {bs : List bucket} {key : String} {keyHash : Nat}
    (hs : Stored h bs key keyHash) : Findable h bs key keyHash := by
  obtain ⟨b, l, q, hb, hl, hq, hk, -⟩ := hs
  obtain ⟨t, ht⟩ := findKey_of_key_mem hq hk
  exact ⟨b, l, t, hb, hl, ht⟩

/-- Resizing to a different, positive bucket count returns `changed = true` with an array
of that many buckets whose chains end in nil; no key or hash changes, and for every pair
of an old chain a pair with its key is reachable from the bucket its hash selects. -/
theorem resize_general {h : Heap V} {bs : List bucket} (pr : pairRedistributorImpl)
    (hfin : FiniteChains h bs) {n : Nat} (hn : 0 < n) (hne : n ≠ bs.length) :
    ∃ r bs1, pr.resize h bs n = some r ∧ r.changed = true ∧ r.newBuckets = some bs1 ∧
      bs1.length = n ∧ FiniteChains r.heap bs1 ∧
      (∀ x, keyAt r.heap x = keyAt h x) ∧ (∀ x, hashAt r.heap x = hashAt h x) ∧
      r.heap.length = h.length ∧
      (∀ a, (∃ l, IsChain h (some a) l) → ∃ l1, IsChain r.heap (some a) l1) ∧
      (∀ b ∈ bs, ∀ l, IsChain h b.headValue l → ∀ q ∈ l, ∀ k kh,
        keyAt h q = some k → hashAt h q = some kh → Findable r.heap bs1 k kh) := by
  have hcl : ClosedChains h (fun a => ∃ l, IsChain h (some a) l) := by
    intro a ha
    obtain ⟨l, hl⟩ := ha
    refine ⟨l, hl, fun x hx => ?_⟩
    obtain ⟨l1, l2, -, hsuf⟩ := hl.suffix_of_mem x hx
    exact ⟨x :: l2, hsuf⟩
  obtain ⟨L, hL, -, hLall, hLadj⟩ := @collectPairs_spec V h (List.range h.length) bs
    (fun b hb => by
      obtain ⟨l, hl⟩ := hfin b hb
      exact ⟨l, hl, fun x hx => List.mem_range.2 (hl.lt x hx)⟩)
  obtain ⟨L1, hL1, hLS0⟩ := collectPairs_total bs hfin
  rw [hL] at hL1
  cases hL1
  have hLS : ∀ x ∈ L, ∃ l, IsChain h (some x) l := by
    intro x hx
    obtain ⟨b, -, l, hl, hxl⟩ := hLS0 x hx
    obtain ⟨l1, l2, -, hsuf⟩ := hl.suffix_of_mem x hxl
    exact ⟨x :: l2, hsuf⟩
  obtain ⟨fresh, hfresh, hflen, hfnone⟩ := fresh_buckets bs n
  have hinit : ReinsertInv n (fun a => ∃ l, IsChain h (some a) l) h fresh [] L := by
    refine ⟨hflen, hcl, ?_, hLS, ?_, ?_, ?_, ?_⟩
    · intro a ha; cases ha
    · intro b hb a ha
      rw [hfnone b hb] at ha
      cases ha
    · intro q hq; cases hq
    · intro e he; cases he
    · intro A a B hsplit _
      exact hLadj A a B hsplit
  obtain ⟨h1, bs1, hr, hres, hk1, hh1, hlen1⟩ := reinsert_general hn L h fresh [] hinit
  refine ⟨{ newBuckets := some bs1, changed := true,
             pr := { pr with overweightBucketCount := 0, emptyBucketCount := 0 },
             heap := h1 }, bs1, ?_, rfl, rfl, hres.len, ?_, hk1, hh1, hlen1, ?_, ?_⟩
  · unfold pairRedistributorImpl.resize
    simp only [if_neg hne, hL, hfresh, hr]
  · intro b hb
    cases hhead : b.headValue with
    | none => exact ⟨[], IsChain.nil⟩
    | some a =>
      obtain ⟨l, hl, -⟩ := hres.closed a (hres.doneS a (hres.heads b hb a hhead))
      exact ⟨l, hl⟩
  · intro a ha
    obtain ⟨l, hl, -⟩ := hres.closed a ha
    exact ⟨l, hl⟩
  · intro b hb l hl q hq k kh hk hh
    have hqL : q ∈ [] ++ L := by simpa using hLall b hb l hl q hq
    obtain ⟨k1, kh1, b1, pre, w, rest, h1k, h1h, h1b, h1c, h1w, -, -⟩ := hres.good q hqL
    rw [hk1, hk] at h1k
    cases h1k
    rw [hh1, hh] at h1h
    cases h1h
    obtain ⟨t, ht⟩ := findKey_of_key_mem (by simp : w ∈ pre ++ w :: rest) h1w
    refine ⟨b1, pre ++ w :: rest, t, ?_, h1c, ht⟩
    show bs1[kh % bs1.length]? = some b1
    rw [hres.len]
    exact h1b

/-- On an array of `0 < n < 2 ^ 63` buckets whose chains end in nil, `Redistribute`
returns; the array in force afterwards is not empty, its chains end in nil, no key or
hash has changed, and a key that was stored in the bucket its hash selects can still be
found in the bucket its hash selects. -/
theorem Redistribute_general {h : Heap V} {bs : List bucket} (pr : pairRedistributorImpl)
    (status : Nat) (hfin : FiniteChains h bs) (hpos : 0 < bs.length)
    (hlen : bs.length < 2 ^ 63) :
    ∃ r, pr.Redistribute h status bs = some r ∧
      0 < (if r.changed then r.newBuckets.getD [] else bs).length ∧
      FiniteChains r.heap (if r.changed then r.newBuckets.getD [] else bs) ∧
      (∀ x, keyAt r.heap x = keyAt h x) ∧ (∀ x, hashAt r.heap x = hashAt h x) ∧
      r.heap.length = h.length ∧
      (∀ a, (∃ l, IsChain h (some a) l) → ∃ l1, IsChain r.heap (some a) l1) ∧
      (∀ k kh, Stored h bs k kh →
        Findable r.heap (if r.changed then r.newBuckets.getD [] else bs) k kh) := by
  have hsame : ∀ r : RedistributeResult V, r.changed = false → r.heap = h →
      0 < (if r.changed then r.newBuckets.getD [] else bs).length ∧
      FiniteChains r.heap (if r.changed then r.newBuckets.getD [] else bs) ∧
      (∀ x, keyAt r.heap x = keyAt h x) ∧ (∀ x, hashAt r.heap x = hashAt h x) ∧
      r.heap.length = h.length ∧
      (∀ a, (∃ l, IsChain h (some a) l) → ∃ l1, IsChain r.heap (some a) l1) ∧
      (∀ k kh, Stored h bs k kh →
        Findable r.heap (if r.changed then r.newBuckets.getD [] else bs) k kh) := by
    intro r hch hh
    rw [hch, hh]
    exact ⟨by simpa using hpos, by simpa using hfin, fun _ => rfl, fun _ => rfl, rfl,
      fun _ ha => ha, fun k kh hs => by simpa using hs.findable⟩
  have hresize : ∀ n, 0 < n → n ≠ bs.length →
      ∃ r, pr.resize h bs n = some r ∧
        0 < (if r.changed then r.newBuckets.getD [] else bs).length ∧
        FiniteChains r.heap (if r.changed then r.newBuckets.getD [] else bs) ∧
        (∀ x, keyAt r.heap x = keyAt h x) ∧ (∀ x, hashAt r.heap x = hashAt h x) ∧
        r.heap.length = h.length ∧
        (∀ a, (∃ l, IsChain h (some a) l) → ∃ l1, IsChain r.heap (some a) l1) ∧
        (∀ k kh, Stored h bs k kh →
          Findable r.heap (if r.changed then r.newBuckets.getD [] else bs) k kh) := by
    intro n hn hne
    obtain ⟨r, bs1, hr, hch, hnb, hl1, hfin1, hk, hh, hhl, hframe, hfind⟩ :=
      resize_general pr hfin hn hne
    refine ⟨r, hr, ?_, ?_, hk, hh, hhl, hframe, ?_⟩
    · rw [hch, hnb]
      simpa [hl1] using hn
    · rw [hch, hnb]
      simpa using hfin1
    · intro k kh hs
      obtain ⟨b, l, q, hb, hl, hq, hqk, hqh⟩ := hs
      rw [hch, hnb]
      simpa using hfind b (mem_of_getElem?_some hb) l hl q hq k kh hqk hqh
  unfold pairRedistributorImpl.Redistribute
  simp only []
  split
  · split
    · exact ⟨_, rfl, hsame _ rfl rfl⟩
    · have hmod : bs.length * 2 % u64 = bs.length * 2 :=
        Nat.mod_eq_of_lt (by rw [u64_eq]; omega)
      rw [hmod]
      exact hresize _ (by omega) (by omega)
  · split
    · split
      · exact ⟨_, rfl, hsame _ rfl rfl⟩
      · rename_i hcond
        have h100 : 100 ≤ bs.length := by
          by_contra hlt
          exact hcond (Or.inl (by omega))
        have h2 : ¬ bs.length / 2 < 2 := by omega
        rw [if_neg h2]
        exact hresize _ (by omega) (by omega)
    · exact ⟨_, rfl, hsame _ rfl rfl⟩

/-! ### `Put` twice and `Get` on an arbitrary map -/

/-- The post-mutation check of a segment returns on every non-empty array of fewer than
`2 ^ 63` buckets whose chains end in nil; afterwards the array is not empty, its chains
end in nil, and a key that was stored in the bucket its hash selects can be found in the
bucket its hash selects. -/
theorem segment.redistribute_general {h : Heap V} (s : segment)
    (pairTotal bucketSize : Nat) (hfin : FiniteChains h s.buckets)
    (hpos : 0 < s.buckets.length) (hlen : s.buckets.length < 2 ^ 63) :
    ∃ s1 h1, s.redistribute h pairTotal bucketSize = some (s1, h1) ∧
      0 < s1.buckets.length ∧ FiniteChains h1 s1.buckets ∧
      (∀ a, (∃ l, IsChain h (some a) l) → ∃ l1, IsChain h1 (some a) l1) ∧
      (∀ k kh, Stored h s.buckets k kh → Findable h1 s1.buckets k kh) := by
  have hne : ¬ s.buckets.length = 0 := Nat.pos_iff_ne_zero.1 hpos
  unfold segment.redistribute pairRedistributorImpl.UpdateThreshold
  simp only [if_neg hne]
  obtain ⟨r, hr, hpos1, hfin1, -, -, -, hframe, hfind⟩ :=
    Redistribute_general
      (pairRedistributorImpl.CheckBucketStatus
        { s.pairRedistributor with
          upperThreshold := s.pairRedistributor.loadFactor
            (if pairTotal / s.buckets.length < 100 then 100
              else pairTotal / s.buckets.length) % u64 }
        pairTotal bucketSize).2
      (pairRedistributorImpl.CheckBucketStatus
        { s.pairRedistributor with
          upperThreshold := s.pairRedistributor.loadFactor
            (if pairTotal / s.buckets.length < 100 then 100
              else pairTotal / s.buckets.length) % u64 }
        pairTotal bucketSize).1 hfin hpos hlen
  rw [hr]
  exact ⟨_, _, rfl, hpos1, hfin1, hframe, hfind⟩

theorem FiniteChains.extend {h : Heap V} {bs : List bucket} (hfin : FiniteChains h bs)
    (p : Pair V) : FiniteChains (h ++ [p]) bs := by
  intro b hb
  obtain ⟨l, hl⟩ := hfin b hb
  exact ⟨l, hl.append p⟩

/-- The method `Segment.Put` of a fresh pair (its `next` is unset and no chain reaches it) returns
on every non-empty array of fewer than `2 ^ 63` buckets whose chains end in nil, with no
error; afterwards the array is not empty, its chains end in nil, and the key of the
pair can be found in the bucket its hash selects. -/
theorem segment.Put_general {h : Heap V} (s : segment) {p : Addr} {pp : Pair V}
    (hp : h[p]? = some pp) (hnext : pp.next = none)
    (hfresh : ∀ b ∈ s.buckets, ∀ l, IsChain h b.headValue l → p ∉ l)
    (hfin : FiniteChains h s.buckets) (hpos : 0 < s.buckets.length)
    (hlen : s.buckets.length < 2 ^ 63) :
    ∃ r, s.Put h p = some r ∧ r.err = none ∧ 0 < r.seg.buckets.length ∧
      FiniteChains r.heap r.seg.buckets ∧
      (∀ a, (∃ l, IsChain h (some a) l) → ∃ l1, IsChain r.heap (some a) l1) ∧
      Findable r.heap r.seg.buckets pp.key pp.hash := by
  have hne : ¬ s.buckets.length = 0 := Nat.pos_iff_ne_zero.1 hpos
  have hilt : pp.hash % s.buckets.length < s.buckets.length := Nat.mod_lt _ hpos
  obtain ⟨b, hb⟩ : ∃ b, s.buckets[pp.hash % s.buckets.length]? = some b :=
    ⟨_, List.getElem?_eq_getElem hilt⟩
  have hbmem : b ∈ s.buckets := mem_of_getElem?_some hb
  obtain ⟨l, hl⟩ := hfin b hbmem
  have hpk : keyAt h p = some pp.key := keyAt_eq_some_of_getElem? hp
  have hph : hashAt h p = some pp.hash := hashAt_eq_some_of_getElem? hp
  -- the case of a pair added as the new head
  have hadded : ∀ (h1 : Heap V) (sz : Nat),
      b.Put h (some p) none =
        some { added := true, err := none, heap := h1,
               bkt := { headValue := some p, size := sz }, lock := useLock none } →
      FiniteChains h1 (s.buckets.set (pp.hash % s.buckets.length)
        { headValue := some p, size := sz }) →
      (∃ l1, IsChain h1 (some p) l1) →
      keyAt h1 p = some pp.key → hashAt h1 p = some pp.hash →
      (∀ a, (∃ l, IsChain h (some a) l) → ∃ l1, IsChain h1 (some a) l1) →
      ∃ r, s.Put h p = some r ∧ r.err = none ∧ 0 < r.seg.buckets.length ∧
        FiniteChains r.heap r.seg.buckets ∧
        (∀ a, (∃ l, IsChain h (some a) l) → ∃ l1, IsChain r.heap (some a) l1) ∧
        Findable r.heap r.seg.buckets pp.key pp.hash := by
    intro h1 sz hput hf1 hch hk hh hfr
    obtain ⟨l1, hl1⟩ := hch
    obtain ⟨l2, hl2⟩ := hl1.of_some
    have hstored : Stored h1 (s.buckets.set (pp.hash % s.buckets.length)
        { headValue := some p, size := sz }) pp.key pp.hash := by
      refine ⟨{ headValue := some p, size := sz }, l1, p, ?_, hl1,
        by rw [hl2]; simp, hk, hh⟩
      rw [List.length_set, List.getElem?_set_self hilt]
    obtain ⟨s2, h2, hred, hpos2, hfin2, hframe2, hfind2⟩ :=
      segment.redistribute_general
        { buckets := s.buckets.set (pp.hash % s.buckets.length)
            { headValue := some p, size := sz },
          pairTotal := (s.pairTotal + 1) % u64,
          pairRedistributor := s.pairRedistributor }
        ((s.pairTotal + 1) % u64) sz hf1
        (by rw [List.length_set]; exact hpos) (by rw [List.length_set]; exact hlen)
    refine ⟨{ added := true, err := none, seg := s2, heap := h2 }, ?_, rfl, hpos2, hfin2,
      fun a ha => hframe2 a (hfr a ha), hfind2 pp.key pp.hash hstored⟩
    unfold segment.Put
    simp only [hp, if_neg hne, hb, hput, if_true]
    split
    · rename_i heq
      exact absurd (hred.symm.trans heq) (by simp)
    · rename_i s3 h3 heq
      have h4 := hred.symm.trans heq
      simp only [Option.some.injEq, Prod.mk.injEq] at h4
      rw [h4.1, h4.2]
  cases hhead : b.headValue with
  | none =>
    have hcp : IsChain h (some p) [p] := by
      refine IsChain.cons hp ?_
      rw [hnext]
      exact IsChain.nil
    refine hadded _ _ (bucket.Put_empty h p none hhead) ?_ ⟨[p], hcp⟩ hpk hph
      (fun _ ha => ha)
    intro b1 hb1
    rcases List.mem_or_eq_of_mem_set hb1 with h1 | h1
    · exact hfin b1 h1
    · rw [h1]
      exact ⟨[p], hcp⟩
  | some hd =>
    cases hf : findKey h pp.key l with
    | none =>
      have hp1 : (SetNext h p (some hd))[p]? = some { pp with next := some hd } := by
        rw [getElem?_SetNext, if_pos rfl, hp]
        rfl
      have hc1 : IsChain (SetNext h p (some hd)) (some p) (p :: l) := by
        have hl1 := hl
        rw [hhead] at hl1
        exact IsChain.cons hp1 (hl1.setNext _ (hfresh b hbmem l hl))
      have hcl : ClosedChains h (fun a => ∃ l0, IsChain h (some a) l0) := by
        intro a ha
        obtain ⟨l0, hl0⟩ := ha
        refine ⟨l0, hl0, fun x hx => ?_⟩
        obtain ⟨l1, l2, -, hsuf⟩ := hl0.suffix_of_mem x hx
        exact ⟨x :: l2, hsuf⟩
      have hl1 := hl
      rw [hhead] at hl1
      have hcl1 := hcl.link_head hp
        ⟨[p], IsChain.cons hp (by rw [hnext]; exact IsChain.nil)⟩ hl1
        (fun x hx => by
          obtain ⟨l3, l4, -, hsuf⟩ := hl1.suffix_of_mem x hx
          exact ⟨x :: l4, hsuf⟩)
        (hfresh b hbmem l hl)
      refine hadded _ _ (bucket.Put_insert none hhead hl hp hf) ?_ ⟨_, hc1⟩
        (by rw [keyAt_SetNext]; exact hpk) (by rw [hashAt_SetNext]; exact hph)
        (fun a ha => by
          obtain ⟨l5, hl5, -⟩ := hcl1 a ha
          exact ⟨l5, hl5⟩)
      intro b1 hb1
      rcases List.mem_or_eq_of_mem_set hb1 with h1 | h1
      · obtain ⟨l1, hl1⟩ := hfin b1 h1
        exact ⟨l1, hl1.setNext _ (hfresh b1 h1 l1 hl1)⟩
      · rw [h1]
        exact ⟨_, hc1⟩
    | some t =>
      have hput := bucket.Put_found none hl hp hf
      have hset : s.buckets.set (pp.hash % s.buckets.length) b = s.buckets :=
        list_set_self _ _ _ hb
      refine ⟨{ added := false, err := none, heap := SetElement h t pp.element,
                seg := { buckets := s.buckets.set (pp.hash % s.buckets.length) b,
                         pairTotal := s.pairTotal,
                         pairRedistributor := s.pairRedistributor } }, ?_, rfl, ?_, ?_, ?_,
        ?_⟩
      · unfold segment.Put
        simp only [hp, if_neg hne, hb, hput, Bool.false_eq_true, if_false]
      · show 0 < (s.buckets.set _ b).length
        rw [hset]
        exact hpos
      · show FiniteChains (SetElement h t pp.element) (s.buckets.set _ b)
        rw [hset]
        intro b1 hb1
        obtain ⟨l1, hl1⟩ := hfin b1 hb1
        exact ⟨l1, hl1.setElement t _⟩
      · intro a ha
        obtain ⟨l1, hl1⟩ := ha
        exact ⟨l1, hl1.setElement t _⟩
      · refine ⟨b, l, t, ?_, hl.setElement t _, ?_⟩
        · show (s.buckets.set _ b)[pp.hash % (s.buckets.set _ b).length]? = _
          rw [hset]
          exact hb
        · rw [findKey_congr pp.key (fun x _ => keyAt_SetElement h t pp.element x)]
          exact hf

/-- The method `Segment.Put` of a pair whose key can be found in the bucket its hash selects
returns `added = false` with no error, keeps the bucket array, and `GetWithHash` then
returns a pair that holds the element of the pair put. -/
theorem segment.Put_stored {h : Heap V} (s : segment) {p : Addr} {pp : Pair V}
    (hp : h[p]? = some pp) (hpos : 0 < s.buckets.length)
    (hfind : Findable h s.buckets pp.key pp.hash) :
    ∃ r t, s.Put h p = some r ∧ r.added = false ∧ r.err = none ∧
      r.seg.GetWithHash r.heap pp.key pp.hash = some (some t) ∧
      elementAt r.heap t = some pp.element := by
  have hne : ¬ s.buckets.length = 0 := Nat.pos_iff_ne_zero.1 hpos
  obtain ⟨b, l, t, hb, hl, hf⟩ := hfind
  have hput := bucket.Put_found none hl hp hf
  have hset : s.buckets.set (pp.hash % s.buckets.length) b = s.buckets :=
    list_set_self _ _ _ hb
  obtain ⟨htl, -⟩ := findKey_some hf
  obtain ⟨pt, hpt⟩ := getElem?_of_lt h (hl.lt t htl)
  refine ⟨{ added := false, err := none, heap := SetElement h t pp.element,
            seg := { buckets := s.buckets.set (pp.hash % s.buckets.length) b,
                     pairTotal := s.pairTotal,
                     pairRedistributor := s.pairRedistributor } }, t, ?_, rfl, rfl, ?_, ?_⟩
  · unfold segment.Put
    simp only [hp, if_neg hne, hb, hput, Bool.false_eq_true, if_false]
  · show segment.GetWithHash
      { buckets := s.buckets.set (pp.hash % s.buckets.length) b,
        pairTotal := s.pairTotal, pairRedistributor := s.pairRedistributor }
      (SetElement h t pp.element) pp.key pp.hash = some (some t)
    unfold segment.GetWithHash
    simp only [hset, if_neg hne, hb]
    rw [bucket.Get_of_chain (bucket.chain_eq_some.2 (hl.setElement t pp.element)),
      findKey_congr pp.key (fun x _ => keyAt_SetElement h t pp.element x), hf]
  · show elementAt (SetElement h t pp.element) t = some pp.element
    rw [elementAt_SetElement, if_pos rfl, hpt]
    rfl

theorem Findable.extend_heap {h : Heap V} {bs : List bucket} {key : String} {keyHash : Nat}
    (hf : Findable h bs key keyHash) (p : Pair V) : Findable (h ++ [p]) bs key keyHash := by
  obtain ⟨b, l, t, hb, hl, ht⟩ := hf
  refine ⟨b, l, t, hb, hl.append p, ?_⟩
  rw [findKey_congr key (fun x hx => keyAt_append_of_lt h p (hl.lt x hx))]
  exact ht

/-! ### `Put` and `Delete` keep the chains of a map finite -/

theorem FiniteChains.transfer {h h1 : Heap V} {bs : List bucket} (hfin : FiniteChains h bs)
    (hframe : ∀ a, (∃ l, IsChain h (some a) l) → ∃ l1, IsChain h1 (some a) l1) :
    FiniteChains h1 bs := by
  intro b hb
  obtain ⟨l, hl⟩ := hfin b hb
  cases hhead : b.headValue with
  | none => exact ⟨[], IsChain.nil⟩
  | some a =>
    rw [hhead] at hl
    exact hframe a ⟨l, hl⟩

/-- The method `Segment.Delete` returns on every non-empty array of fewer than `2 ^ 63`
buckets whose chains end in nil; afterwards the array is not empty and its chains end in
nil, and so does every chain that ended in nil before. -/
theorem segment.Delete_general (hash : String → Nat) {h : Heap V} (s : segment)
    (key : String) (hfin : FiniteChains h s.buckets) (hpos : 0 < s.buckets.length)
    (hlen : s.buckets.length < 2 ^ 63) :
    ∃ r, s.Delete hash h key = some r ∧ 0 < r.seg.buckets.length ∧
      FiniteChains r.heap r.seg.buckets ∧
      (∀ a, (∃ l, IsChain h (some a) l) → ∃ l1, IsChain r.heap (some a) l1) := by
  have hne : ¬ s.buckets.length = 0 := Nat.pos_iff_ne_zero.1 hpos
  have hilt : (hash key % u64) % s.buckets.length < s.buckets.length := Nat.mod_lt _ hpos
  obtain ⟨b, hb⟩ : ∃ b, s.buckets[(hash key % u64) % s.buckets.length]? = some b :=
    ⟨_, List.getElem?_eq_getElem hilt⟩
  have hbmem : b ∈ s.buckets := mem_of_getElem?_some hb
  obtain ⟨l, hl⟩ := hfin b hbmem
  -- the case of a pair removed
  have hdeleted : ∀ (ext : Heap V) (nh : Option Addr) (sz : Nat),
      b.Delete h key none =
        some { deleted := true, heap := h ++ ext,
               bkt := { headValue := nh, size := sz }, lock := useLock none } →
      (∃ l1, IsChain (h ++ ext) nh l1) →
      ∃ r, s.Delete hash h key = some r ∧ 0 < r.seg.buckets.length ∧
        FiniteChains r.heap r.seg.buckets ∧
        (∀ a, (∃ l, IsChain h (some a) l) → ∃ l1, IsChain r.heap (some a) l1) := by
    intro ext nh sz hdel hch
    have hf1 : FiniteChains (h ++ ext)
        (s.buckets.set ((hash key % u64) % s.buckets.length)
          { headValue := nh, size := sz }) := by
      intro b1 hb1
      rcases List.mem_or_eq_of_mem_set hb1 with h1 | h1
      · obtain ⟨l1, hl1⟩ := hfin b1 h1
        exact ⟨l1, hl1.append_list ext⟩
      · rw [h1]
        exact hch
    obtain ⟨s2, h2, hred, hpos2, hfin2, hframe2, -⟩ :=
      segment.redistribute_general
        { buckets := s.buckets.set ((hash key % u64) % s.buckets.length)
            { headValue := nh, size := sz },
          pairTotal := (s.pairTotal + (u64 - 1)) % u64,
          pairRedistributor := s.pairRedistributor }
        ((s.pairTotal + (u64 - 1)) % u64) sz hf1
        (by rw [List.length_set]; exact hpos) (by rw [List.length_set]; exact hlen)
    refine ⟨{ deleted := true, seg := s2, heap := h2 }, ?_, hpos2, hfin2,
      fun a ha => hframe2 a (by
        obtain ⟨l1, hl1⟩ := ha
        exact ⟨l1, hl1.append_list ext⟩)⟩
    unfold segment.Delete
    simp only [if_neg hne, hb, hdel, if_true]
    split
    · rename_i heq
      exact absurd (hred.symm.trans heq) (by simp)
    · rename_i s3 h3 heq
      have h4 := hred.symm.trans heq
      simp only [Option.some.injEq, Prod.mk.injEq] at h4
      rw [h4.1, h4.2]
  cases hf : findKey h key l with
  | none =>
    have hdel := bucket.Delete_absent none hl (findKey_eq_none.1 hf)
    have hset : s.buckets.set ((hash key % u64) % s.buckets.length) b = s.buckets :=
      list_set_self _ _ _ hb
    refine ⟨{ deleted := false, heap := h,
              seg := { buckets := s.buckets.set ((hash key % u64) % s.buckets.length) b,
                       pairTotal := s.pairTotal,
                       pairRedistributor := s.pairRedistributor } }, ?_, ?_, ?_,
      fun _ ha => ha⟩
    · unfold segment.Delete
      simp only [if_neg hne, hb, hdel, Bool.false_eq_true, if_false]
    · show 0 < (s.buckets.set _ b).length
      rw [hset]
      exact hpos
    · show FiniteChains h (s.buckets.set _ b)
      rw [hset]
      exact hfin
  | some t =>
    obtain ⟨-, htk⟩ := findKey_some hf
    unfold findKey at hf
    obtain ⟨-, pre, suf, hsplit, hpre⟩ := List.find?_eq_some.1 hf
    rw [hsplit] at hl
    obtain ⟨ext, nh, copies, hdel, hch, -, -⟩ :=
      bucket.Delete_present none hl (fun x hx => by simpa using hpre x hx) htk
    exact hdeleted ext nh _ hdel ⟨_, hch⟩

/-- The method `Put` of the map returns on every map with `c >= 1` segments whose arrays
are not empty, have fewer than `2 ^ 63` buckets and hold chains that end in nil; the map
has the same concurrency and number of segments afterwards, and again no array is empty
and every chain ends in nil. -/
theorem Put_keeps_finite (hash : String → Nat) (cm : ConcurrentMapImpl) (h : Heap V)
    (key : String) (elem : V)
    (hc : 1 ≤ cm.concurrency) (hlen : cm.segments.length = cm.concurrency.toNat)
    (hwf : ∀ s ∈ cm.segments, 0 < s.buckets.length ∧ s.buckets.length < 2 ^ 63 ∧
      FiniteChains h s.buckets) :
    ∃ r, cm.Put hash h key elem = some r ∧ r.cmap.concurrency = cm.concurrency ∧
      r.cmap.segments.length = cm.segments.length ∧
      ∀ s ∈ r.cmap.segments, 0 < s.buckets.length ∧ FiniteChains r.heap s.buckets := by
  obtain ⟨i, hfind, hi⟩ := findSegment_valid cm (hash key % u64) hc hlen
  obtain ⟨s, hs⟩ : ∃ s, cm.segments[i]? = some s :=
    ⟨cm.segments[i], List.getElem?_eq_getElem hi⟩
  obtain ⟨hpos, hlt, hfin⟩ := hwf s (mem_of_getElem?_some hs)
  have hp1 :
      (h ++ [{ key := key, hash := hash key % u64, element := elem, next := none }])[h.length]?
        = some ({ key := key, hash := hash key % u64, element := elem, next := none } : Pair V) :=
    getElem?_append_length h _
  have hfresh : ∀ b ∈ s.buckets, ∀ l,
      IsChain (h ++ [{ key := key, hash := hash key % u64, element := elem, next := none }])
        b.headValue l → h.length ∉ l := by
    intro b hb l hl hmem
    obtain ⟨l0, hl0⟩ := hfin b hb
    rw [hl.unique (hl0.append _)] at hmem
    exact Nat.lt_irrefl _ (hl0.lt _ hmem)
  obtain ⟨r1s, hput1, -, hpos1, hfin1, hframe1, -⟩ :=
    segment.Put_general s hp1 rfl hfresh (hfin.extend _) hpos hlt
  refine ⟨{ added := r1s.added, err := r1s.err,
            cmap := { cm with segments := cm.segments.set i r1s.seg,
                              total := if r1s.added then (cm.total + 1) % u64
                                       else cm.total },
            heap := r1s.heap }, ?_, rfl, List.length_set _ _ _, ?_⟩
  · unfold ConcurrentMapImpl.Put
    simp only [newPair, hfind, hs, hput1]
  · intro s1 hs1
    rcases List.mem_or_eq_of_mem_set hs1 with h1 | h1
    · obtain ⟨hp, -, hf⟩ := hwf s1 h1
      exact ⟨hp, (hf.extend _).transfer hframe1⟩
    · rw [h1]
      exact ⟨hpos1, hfin1⟩

/-- The method `Delete` of the map returns on every map with `c >= 1` segments whose
arrays are not empty, have fewer than `2 ^ 63` buckets and hold chains that end in nil;
the map has the same concurrency and number of segments afterwards, and again no array
is empty and every chain ends in nil. -/
theorem Delete_keeps_finite (hash : String → Nat) (cm : ConcurrentMapImpl) (h : Heap V)
    (key : String)
    (hc : 1 ≤ cm.concurrency) (hlen : cm.segments.length = cm.concurrency.toNat)
    (hwf : ∀ s ∈ cm.segments, 0 < s.buckets.length ∧ s.buckets.length < 2 ^ 63 ∧
      FiniteChains h s.buckets) :
    ∃ r, cm.Delete hash h key = some r ∧ r.cmap.concurrency = cm.concurrency ∧
      r.cmap.segments.length = cm.segments.length ∧
      ∀ s ∈ r.cmap.segments, 0 < s.buckets.length ∧ FiniteChains r.heap s.buckets := by
  obtain ⟨i, hfind, hi⟩ := findSegment_valid cm (hash key % u64) hc hlen
  obtain ⟨s, hs⟩ : ∃ s, cm.segments[i]? = some s :=
    ⟨cm.segments[i], List.getElem?_eq_getElem hi⟩
  obtain ⟨hpos, hlt, hfin⟩ := hwf s (mem_of_getElem?_some hs)
  obtain ⟨r1s, hdel1, hpos1, hfin1, hframe1⟩ :=
    segment.Delete_general hash s key hfin hpos hlt
  have hall : ∀ s1 ∈ cm.segments.set i r1s.seg,
      0 < s1.buckets.length ∧ FiniteChains r1s.heap s1.buckets := by
    intro s1 hs1
    rcases List.mem_or_eq_of_mem_set hs1 with h1 | h1
    · obtain ⟨hp, -, hf⟩ := hwf s1 h1
      exact ⟨hp, hf.transfer hframe1⟩
    · rw [h1]
      exact ⟨hpos1, hfin1⟩
  unfold ConcurrentMapImpl.Delete
  simp only [hfind, hs, hdel1]
  split
  · exact ⟨_, rfl, rfl, List.length_set _ _ _, hall⟩
  · exact ⟨_, rfl, rfl, List.length_set _ _ _, hall⟩

theorem finiteChains_of_chain {h : Heap V} {bs : List bucket}
    (hall : ∀ b ∈ bs, (b.chain h).isSome = true) : FiniteChains h bs := by
  intro b hb
  have h1 := hall b hb
  cases hc : b.chain h with
  | none => rw [hc] at h1; cases h1
  | some l => exact ⟨l, bucket.chain_eq_some.1 hc⟩

/-- The map that `NewConcurrentMap` builds for a legal concurrency has as many segments as
its concurrency says, each with 16 empty buckets, so that with every heap no array is
empty and every chain ends in nil. -/
theorem NewConcurrentMap_finite (concurrency : Int) (r : Option pairRedistributorImpl)
    (h : Heap V) (hc : 0 < concurrency) (hc2 : concurrency ≤ 65536) :
    ∃ cm, NewConcurrentMap concurrency r = some { cmap := some cm, err := none } ∧
      1 ≤ cm.concurrency ∧ cm.segments.length = cm.concurrency.toNat ∧
      ∀ s ∈ cm.segments, 0 < s.buckets.length ∧ s.buckets.length < 2 ^ 63 ∧
        FiniteChains h s.buckets := by
  obtain ⟨segs, hnew, hlen, hbk⟩ := NewConcurrentMap_ok concurrency r hc hc2
  refine ⟨_, hnew, by show 1 ≤ concurrency; omega, hlen, ?_⟩
  intro s hs
  have hsb : s.buckets = List.replicate DefaultBucketNum newBucket := hbk s hs
  rw [hsb]
  refine ⟨by decide, by decide, ?_⟩
  intro b hb
  rw [(List.mem_replicate.1 hb).2]
  exact ⟨[], IsChain.nil⟩

/-! ### Overwriting a key and reading it back -/

/-- C1: for every map with concurrency `c >= 1` and `c` segments, in any state in which
every segment has a non-empty array of fewer than `2 ^ 63` buckets whose chains end in
nil, and for every hash function, key `k` and values `v1`, `v2`: `Put(k, v1)` and then
`Put(k, v2)` both return, the second one with `added = false` and no error, and `Get(k)`
then returns `v2`.  The conditions allow chains of any length, repeated keys, links left
by earlier redistributions, and any sizes, counters and redistributor states.  They hold
for the map that `NewConcurrentMap` builds (`NewConcurrentMap_finite`) and, but for the
bound on the number of buckets, again after every `Put` and `Delete`
(`Put_keeps_finite`, `Delete_keeps_finite`). -/
theorem put_put_get (hash : String → Nat) (cm : ConcurrentMapImpl) (h : Heap V)
    (k : String) (v1 v2 : V)
    (hc : 1 ≤ cm.concurrency) (hlen : cm.segments.length = cm.concurrency.toNat)
    (hwf : ∀ s ∈ cm.segments, 0 < s.buckets.length ∧ s.buckets.length < 2 ^ 63 ∧
      FiniteChains h s.buckets) :
    ∃ r1 r2,
      cm.Put hash h k v1 = some r1 ∧
      r1.cmap.Put hash r1.heap k v2 = some r2 ∧
      r2.added = false ∧ r2.err = none ∧
      r2.cmap.Get hash r2.heap k = some (some v2) := by
  obtain ⟨i, hfind, hi⟩ := findSegment_valid cm (hash k % u64) hc hlen
  obtain ⟨s, hs⟩ : ∃ s, cm.segments[i]? = some s :=
    ⟨cm.segments[i], List.getElem?_eq_getElem hi⟩
  obtain ⟨hpos, hlt, hfin⟩ := hwf s (mem_of_getElem?_some hs)
  -- first Put
  have hp1 : (h ++ [{ key := k, hash := hash k % u64, element := v1, next := none }])[h.length]?
      = some ({ key := k, hash := hash k % u64, element := v1, next := none } : Pair V) :=
    getElem?_append_length h _
  have hfresh : ∀ b ∈ s.buckets, ∀ l,
      IsChain (h ++ [{ key := k, hash := hash k % u64, element := v1, next := none }])
        b.headValue l → h.length ∉ l := by
    intro b hb l hl hmem
    obtain ⟨l0, hl0⟩ := hfin b hb
    rw [hl.unique (hl0.append _)] at hmem
    exact Nat.lt_irrefl _ (hl0.lt _ hmem)
  obtain ⟨r1s, hput1, -, hpos1, hfin1, -, hfind1⟩ :=
    segment.Put_general s hp1 rfl hfresh (hfin.extend _) hpos hlt
  have hP1 : cm.Put hash h k v1 =
      some { added := r1s.added, err := r1s.err,
             cmap := { cm with segments := cm.segments.set i r1s.seg,
                               total := if r1s.added then (cm.total + 1) % u64
                                        else cm.total },
             heap := r1s.heap } := by
    unfold ConcurrentMapImpl.Put
    simp only [newPair, hfind, hs, hput1]
  have hfindA : ∀ (segs : List segment) (tot : Nat), segs.length = cm.segments.length →
      ConcurrentMapImpl.findSegment
        { concurrency := cm.concurrency, segments := segs, total := tot }
        (hash k % u64) = some i := by
    intro segs tot hl
    exact (findSegment_congr cm
      { concurrency := cm.concurrency, segments := segs, total := tot } _ rfl hl).trans hfind
  -- second Put
  have hp2 : (r1s.heap ++ [{ key := k, hash := hash k % u64, element := v2, next := none }])[
      r1s.heap.length]?
      = some ({ key := k, hash := hash k % u64, element := v2, next := none } : Pair V) :=
    getElem?_append_length r1s.heap _
  obtain ⟨r2s, t, hput2, hadd2, herr2, hget, hel⟩ :=
    segment.Put_stored r1s.seg hp2 hpos1 (hfind1.extend_heap _)
  have hP2 : ConcurrentMapImpl.Put hash
      { cm with segments := cm.segments.set i r1s.seg,
                total := if r1s.added then (cm.total + 1) % u64 else cm.total }
      r1s.heap k v2 =
      some { added := r2s.added, err := r2s.err,
             cmap := { concurrency := cm.concurrency,
                       segments := (cm.segments.set i r1s.seg).set i r2s.seg,
                       total := if r2s.added then
                           ((if r1s.added then (cm.total + 1) % u64 else cm.total) + 1) % u64
                         else (if r1s.added then (cm.total + 1) % u64 else cm.total) },
             heap := r2s.heap } := by
    unfold ConcurrentMapImpl.Put
    simp only [newPair, hfindA _ _ (List.length_set _ _ _),
      List.getElem?_set_self hi, hput2]
  obtain ⟨pg, hpg, hpv⟩ : ∃ pg, r2s.heap[t]? = some pg ∧ pg.element = v2 := by
    unfold elementAt at hel
    cases hq : r2s.heap[t]? with
    | none => rw [hq] at hel; cases hel
    | some pg =>
      rw [hq] at hel
      exact ⟨pg, rfl, by simpa using hel⟩
  refine ⟨_, _, hP1, hP2, hadd2, herr2, ?_⟩
  unfold ConcurrentMapImpl.Get
  have hi2 : i < (cm.segments.set i r1s.seg).length := by
    rw [List.length_set]
    exact hi
  simp only [hfindA _ _ ((List.length_set _ _ _).trans (List.length_set _ _ _)),
    List.getElem?_set_self hi2, hget, hpg, hpv]

/-- Witness for C1: the map reached from `NewConcurrentMap(1, nil)` by `Put("1", 10)` and
`Put("17", 20)`, whose bucket 1 holds the chain `"17" -> "1"`, and the key `"1"`, which
is the second pair of that chain. -/
theorem put_put_get_witness :
    chainMapRun = some (chainMap, chainMapHeap) ∧
    ∃ r1 r2,
      chainMap.Put decimalHash chainMapHeap "1" 1 = some r1 ∧
      r1.cmap.Put decimalHash r1.heap "1" 2 = some r2 ∧
      r2.added = false ∧ r2.err = none ∧
      r2.cmap.Get decimalHash r2.heap "1" = some (some 2) :=
  ⟨rfl,
   put_put_get decimalHash chainMap chainMapHeap "1" 1 2 (by decide) (by decide)
     (fun s hs => by
       rw [List.mem_singleton.1 hs]
       exact ⟨by decide, by decide, finiteChains_of_chain (by decide)⟩)⟩

end cmap
